import Mathlib

/-!
# A* search on a grid with obstacles (k911/a-star)

A shallow embedding of `Grid.h`, `Grid.cpp` and the search part of `main.cpp`.

* `unsigned int` values are natural numbers below `U32 = 2^32`; every C++
  operation that can wrap is written with an explicit `% U32`.
* `std::unordered_set<Location>` is a duplicate-free list (insertion keeps the
  first copy), `std::unordered_map<Location, V>` is a partial function
  `Location → Option V`; `operator[]` on a missing key inserts the default
  value first, as in C++.
* `std::priority_queue` with the comparison of `main.cpp` (first component
  only) is a list of entries; which of several entries of minimal priority is
  on top is decided by a choice sequence `tie : Nat → Nat`, one number per
  loop iteration, so that a statement for all `tie` covers every queue
  implementation.
* Loops that are not bounded syntactically take a fuel argument and return
  `none` when it runs out.
-/

namespace AStar

/-- Number of values of a C++ `unsigned int` (32 bits). -/
def U32 : Nat := 4294967296

/-- `Grid::Location`: a pair of `unsigned int` coordinates. -/
structure Location where
  x : Nat
  y : Nat
deriving DecidableEq, Repr

/-- `Location::Location()`: the default location is (0, 0). -/
instance : Inhabited Location := ⟨⟨0, 0⟩⟩

/-- `Location::operator==`. -/
def Location.eq (a loc : Location) : Bool := a.x == loc.x && a.y == loc.y

/-- `Location::operator!=`. -/
def Location.neq (a loc : Location) : Bool := a.x != loc.x || a.y != loc.y

/-- A location whose coordinates fit an `unsigned int`. -/
def Location.Valid (a : Location) : Prop := a.x < U32 ∧ a.y < U32

/-- `class Grid`: width, height and the set of walls. -/
structure Grid where
  width : Nat
  height : Nat
  walls : List Location

/-- The fields `width` and `height` fit an `unsigned int`. -/
def Grid.WF (g : Grid) : Prop := g.width < U32 ∧ g.height < U32

/-- The constructor `Grid::Grid(w, h)`: no walls. -/
def Grid.new (w h : Nat) : Grid := ⟨w, h, []⟩

/-- `Grid::within`. -/
def Grid.within (g : Grid) (loc : Location) : Bool :=
  decide (loc.x < g.width) && decide (loc.y < g.height)

/-- `unordered_set::count` for the list model of a set. -/
def setCount (s : List Location) (loc : Location) : Nat := if loc ∈ s then 1 else 0

/-- `Grid::operational`: `!walls.count(loc)`. -/
def Grid.operational (g : Grid) (loc : Location) : Bool := setCount g.walls loc == 0

/-- The array `potential` of `Grid::neighbours`: east, south, west, north, each
coordinate computed in `unsigned int` arithmetic. -/
def potential (loc : Location) : List Location :=
  [⟨(loc.x + 1) % U32, loc.y⟩,
   ⟨loc.x, (loc.y + 1) % U32⟩,
   ⟨(loc.x + (U32 - 1)) % U32, loc.y⟩,
   ⟨loc.x, (loc.y + (U32 - 1)) % U32⟩]

/-- `Grid::neighbours`: the potential neighbours that are within the grid and
operational, in the order of `potential`. -/
def Grid.neighbours (g : Grid) (loc : Location) : List Location :=
  (potential loc).filter (fun l => g.within l && g.operational l)

/-- `unordered_set::emplace`: a value already present is not inserted again. -/
def setEmplace (s : List Location) (v : Location) : List Location :=
  if v ∈ s then s else s ++ [v]

/-- `Grid::unsetWalls`. -/
def Grid.unsetWalls (g : Grid) : Grid := ⟨g.width, g.height, []⟩

/-- `Grid::setWalls`: emplace every given wall, in order. -/
def Grid.setWalls (g : Grid) (new_walls : List Location) : Grid :=
  ⟨g.width, g.height, new_walls.foldl setEmplace g.walls⟩

/-- `diff` of `main.cpp`. -/
def diff (a b : Nat) : Nat := if a > b then a - b else b - a

/-- `hx` of `main.cpp`: the sum is an `unsigned int` sum. -/
def hx (first second : Location) : Nat :=
  (diff first.x second.x + diff first.y second.y) % U32

/-- An entry of the frontier: `pair<unsigned int, Grid::Location>`. -/
abbrev Entry : Type := Nat × Location

/-- An `unordered_map` with `Location` keys. -/
abbrev LocMap (α : Type) : Type := Location → Option α

/-- The map without entries. -/
def LocMap.empty {α : Type} : LocMap α := fun _ => none

/-- `m[k] = v`: insert or overwrite. -/
def LocMap.set {α : Type} (m : LocMap α) (k : Location) (v : α) : LocMap α :=
  fun l => if l = k then some v else m l

/-- The effect of evaluating `m[k]` on the map: a missing key is inserted with
the default value `d`. -/
def LocMap.touch {α : Type} (m : LocMap α) (k : Location) (d : α) : LocMap α :=
  match m k with
  | some _ => m
  | none => m.set k d

/-- The value of `m[k]` (after `touch`): the default `d` for a missing key. -/
def LocMap.at {α : Type} (m : LocMap α) (k : Location) (d : α) : α := (m k).getD d

/-- `m.count(k)`. -/
def LocMap.count {α : Type} (m : LocMap α) (k : Location) : Nat :=
  match m k with
  | some _ => 1
  | none => 0

/-- An entry that no entry of the queue precedes: `operator<` of `main.cpp`
compares the first components only. -/
def isTop (q : List Entry) (e : Entry) : Bool := q.all (fun e2 => decide (e.1 ≤ e2.1))

/-- Position of the entry that `min_queue.top()` returns and `min_queue.pop()`
removes: the position `choice % q.length` when the entry there has minimal
priority, and the first entry of minimal priority otherwise. -/
def topIdx (q : List Entry) (choice : Nat) : Nat :=
  if isTop q (q.getD (choice % q.length) default) then choice % q.length
  else q.findIdx (isTop q)

/-- The local state of `a_search`: `min_queue`, `costs` and the caller's
`previous_location`. -/
structure SearchState where
  queue : List Entry
  costs : LocMap Nat
  prev : LocMap Location

/-- One pass through the body of `for (auto &nb : grid.neighbours(current))`. -/
def relax (goal current : Location) (st : SearchState) (nb : Location) : SearchState :=
  let costs1 := st.costs.touch current 0
  let cost := (costs1.at current 0 + 1) % U32
  if costs1.count nb == 0 || decide (cost < costs1.at nb 0) then
    ⟨st.queue ++ [((cost + hx nb goal) % U32, nb)], costs1.set nb cost, st.prev.set nb current⟩
  else
    ⟨st.queue, costs1, st.prev⟩

/-- The body of the `while` loop once `current` is taken from the top:
`min_queue.pop()` (position `i`) and the `for` loop over the neighbours. -/
def expand (g : Grid) (goal current : Location) (i : Nat) (st : SearchState) : SearchState :=
  (g.neighbours current).foldl (relax goal current) ⟨st.queue.eraseIdx i, st.costs, st.prev⟩

/-- The `while` loop of `a_search`; `tie 0` decides the top of this iteration. -/
def a_search_loop (g : Grid) (goal : Location) : Nat → (Nat → Nat) → SearchState → Option SearchState
  | 0, _, _ => none
  | fuel + 1, tie, st =>
    if st.queue.isEmpty then some st
    else
      let i := topIdx st.queue (tie 0)
      let current := (st.queue.getD i default).2
      if current.neq goal then
        a_search_loop g goal fuel (fun k => tie (k + 1)) (expand g goal current i st)
      else some st

/-- `a_search`: the returned cost and the final `previous_location`. -/
def a_search (fuel : Nat) (tie : Nat → Nat) (g : Grid) (start goal : Location)
    (previous_location : LocMap Location) : Option (Nat × LocMap Location) :=
  if !g.within start || !g.within goal || !g.operational start || !g.operational goal then
    some (0, previous_location)
  else
    match a_search_loop g goal fuel tie ⟨[(0, start)], LocMap.empty, previous_location⟩ with
    | none => none
    | some st => some (st.costs.at goal 0, st.prev)

/-- The `while` loop of `get_track`. -/
def get_track_loop (start : Location) : Nat → Location → List Location → LocMap Location →
    Option (List Location × LocMap Location)
  | 0, _, _, _ => none
  | fuel + 1, current, track, came_from =>
    if current.neq start then
      let came_from1 := came_from.touch current default
      let next := came_from1.at current default
      get_track_loop start fuel next (setEmplace track next) came_from1
    else some (track, came_from)

/-- `get_track`: the returned set and the final `came_from`. -/
def get_track (fuel : Nat) (start goal : Location) (came_from : LocMap Location) :
    Option (List Location × LocMap Location) :=
  get_track_loop start fuel goal (setEmplace (setEmplace [] start) goal) came_from

/-! ## Vocabulary of the specification -/

/-- Manhattan distance `|a.x - b.x| + |a.y - b.y|`, computed over the integers. -/
def manhattan (a b : Location) : Nat :=
  Int.natAbs ((a.x : Int) - (b.x : Int)) + Int.natAbs ((a.y : Int) - (b.y : Int))

/-- Orthogonally adjacent cells: they differ by exactly 1 in exactly one
coordinate, as integers. -/
def Adjacent (a b : Location) : Prop :=
  (a.y = b.y ∧ (a.x + 1 = b.x ∨ b.x + 1 = a.x)) ∨ (a.x = b.x ∧ (a.y + 1 = b.y ∨ b.y + 1 = a.y))

instance (a b : Location) : Decidable (Adjacent a b) := by
  unfold Adjacent; infer_instance

/-- A cell inside the grid that is not an obstacle. -/
def Free (g : Grid) (c : Location) : Prop := c.x < g.width ∧ c.y < g.height ∧ c ∉ g.walls

instance (g : Grid) (c : Location) : Decidable (Free g c) := by
  unfold Free; infer_instance

/-- `Reach g a b n`: there is a walk of `n` orthogonal unit steps from `a` to
`b` all of whose cells are inside the grid and not obstacles. -/
inductive Reach (g : Grid) : Location → Location → Nat → Prop
  | refl {a : Location} : Free g a → Reach g a a 0
  | tail {a b c : Location} {n : Nat} : Reach g a b n → Adjacent b c → Free g c → Reach g a c (n + 1)

/-- `IsDist g a b n`: `n` is the length of a shortest walk from `a` to `b`
(the breadth-first distance). -/
def IsDist (g : Grid) (a b : Location) (n : Nat) : Prop :=
  Reach g a b n ∧ ∀ m, Reach g a b m → n ≤ m

/-- A walk given by the list of its cells: consecutive cells are adjacent and
every cell is inside the grid and not an obstacle. -/
def IsWalk (g : Grid) (p : List Location) : Prop :=
  List.Chain' Adjacent p ∧ ∀ c ∈ p, Free g c

/-- Fuel that is enough for `a_search` on the grid `g`. -/
def searchFuel (g : Grid) : Nat := 2 * (g.width * g.height * U32) + 2

/-- Grid states reachable from `Grid(w, h)` by `setWalls` and `unsetWalls`
calls whose arguments satisfy `ok`. -/
inductive GridReachable (w h : Nat) (ok : List Location → Prop) : Grid → Prop
  | init : GridReachable w h ok (Grid.new w h)
  | unset {g : Grid} : GridReachable w h ok g → GridReachable w h ok g.unsetWalls
  | set {g : Grid} (ws : List Location) : GridReachable w h ok g → ok ws →
      GridReachable w h ok (g.setWalls ws)

/-- The four neighbour candidates of `(x, y)` over the integers: east, south,
west, north. -/
def intCandidates (c : Location) : List (Int × Int) :=
  [((c.x : Int) + 1, (c.y : Int)), ((c.x : Int), (c.y : Int) + 1),
   ((c.x : Int) - 1, (c.y : Int)), ((c.x : Int), (c.y : Int) - 1)]

/-- `within` and `operational` for a cell with integer coordinates: a negative
coordinate is outside the grid. -/
def intAdmissible (g : Grid) (p : Int × Int) : Bool :=
  decide (0 ≤ p.1) && decide (0 ≤ p.2) && g.within ⟨p.1.toNat, p.2.toNat⟩ &&
    g.operational ⟨p.1.toNat, p.2.toNat⟩

/-- A location as a pair of integers. -/
def Location.toInt (c : Location) : Int × Int := ((c.x : Int), (c.y : Int))

/-! ## Measures and invariants used in the proofs -/

/-- Weight of a cost-table entry in the termination measure: a missing entry
weighs `2^32`, more than every `unsigned int`. -/
def pot (o : Option Nat) : Nat :=
  match o with
  | none => U32
  | some c => min c U32

/-- Sum of the weights of the cost-table entries of all cells of the grid. -/
def costSum (g : Grid) (costs : LocMap Nat) : Nat :=
  Finset.sum (Finset.range g.width) (fun x =>
    Finset.sum (Finset.range g.height) (fun y => pot (costs ⟨x, y⟩)))

/-- Termination measure of the `while` loop of `a_search`. -/
def searchMeasure (g : Grid) (st : SearchState) : Nat :=
  2 * costSum g st.costs + st.queue.length

/-- The entry on top of the queue for the choice `ch`. -/
def topEntry (q : List Entry) (ch : Nat) : Entry := q.getD (topIdx q ch) default

/-- The loop of `a_search` has stopped in `st`: the queue is empty or `goal` is
on top of it. -/
def Stopped (goal : Location) (st : SearchState) : Prop :=
  st.queue = [] ∨ ∃ e ∈ st.queue, e.2 = goal ∧ ∀ e2 ∈ st.queue, e.1 ≤ e2.1

/-- Invariant of the search loop that holds for every grid: every cell that
is in the queue, has a cost or got a new predecessor is reachable from
`start`. -/
def ReachInv (g : Grid) (start : Location) (prev0 : LocMap Location) (st : SearchState) : Prop :=
  (∀ e ∈ st.queue, ∃ n, Reach g start e.2 n) ∧ (∀ v, st.costs v ≠ none → ∃ n, Reach g start v n) ∧
    (∀ v, st.prev v ≠ prev0 v → ∃ n, Reach g start v n)

/-- Invariant of the search loop when no 32-bit value wraps. `skip` holds of
the cell under expansion, for which the last clause is suspended.

* `start` has cost 0;
* a recorded cost of `v` is the length of a walk from `start` to `v`;
* the priority of a queue entry is at least the recorded cost of its cell plus
  the Manhattan distance to `goal`;
* a cell whose recorded cost is its distance from `start` either has a queue
  entry with that cost, or is not `goal` and each of its neighbours has a cost
  at most one more;
* a cell other than `start` with a cost has a predecessor, whose recorded cost
  is its distance from `start` and is one less. -/
structure SearchInv (g : Grid) (start goal : Location) (skip : Location → Prop)
    (st : SearchState) : Prop where
  start_cost : st.costs start = some 0
  cost_reach : ∀ v c, st.costs v = some c → Reach g start v c
  queue_cost : ∀ e ∈ st.queue, ∃ c, st.costs e.2 = some c ∧ c + manhattan e.2 goal ≤ e.1
  pred : ∀ v c, st.costs v = some c → v ≠ start →
    ∃ p d, st.prev v = some p ∧ IsDist g start p d ∧ st.costs p = some d ∧ c = d + 1 ∧
      Adjacent p v
  pending : ∀ v d, ¬ skip v → st.costs v = some d → IsDist g start v d →
    (d + manhattan v goal, v) ∈ st.queue ∨
      (v ≠ goal ∧ ∀ w ∈ g.neighbours v, ∃ c, st.costs w = some c ∧ c ≤ d + 1)

/-- Every recorded cost is an `unsigned int`. -/
def CostBound (st : SearchState) : Prop := ∀ v c, st.costs v = some c → c < U32

/-! ## Inputs of the scenarios and of the counterexamples -/

/-- Scenario B of the specification: a 3 x 3 grid whose middle row is a wall
except for the gap `(2, 1)`. -/
def scenarioB : Grid := (Grid.new 3 3).setWalls [⟨0, 1⟩, ⟨1, 1⟩]

/-- The predecessor map that `a_search` leaves in scenario A (empty 3 x 3 grid,
from `(0, 0)` to `(2, 2)`) when the first entry of minimal priority is on top. -/
def scenarioA_prev : LocMap Location :=
  ((a_search 100 (fun _ => 0) (Grid.new 3 3) ⟨0, 0⟩ ⟨2, 2⟩ LocMap.empty).getD
    (0, LocMap.empty)).2

/-- The predecessor map that `a_search` leaves in scenario B. -/
def scenarioB_prev : LocMap Location :=
  ((a_search 100 (fun _ => 0) scenarioB ⟨0, 0⟩ ⟨2, 2⟩ LocMap.empty).getD (0, LocMap.empty)).2

/-- A grid of width `2^32 - 1` and height 3 whose middle row is a wall except
for its last cell: the free cells form one corridor, from `(0, 0)` along row 0
to the last column, down that column and back along row 2. -/
def corridor : Grid :=
  (Grid.new 4294967295 3).setWalls ((List.range 4294967294).map (fun x => ⟨x, 1⟩))

/-- The goal of the search along the corridor: `(2^32 - 3, 2)`, which comes
`2^32 + 1` steps after `(0, 0)`. -/
def corridorGoal : Location := ⟨4294967293, 2⟩

/-- The state of the search along row 0 of `corridor` when `(j, 0)` is the only
entry of the queue: the cells `(0, 0)`, ..., `(j, 0)` have the costs `0, ..., j`
and each but the first has its left neighbour as predecessor. -/
def CorridorPhase (j : Nat) (st : SearchState) : Prop :=
  (∃ p, st.queue = [(p, ⟨j, 0⟩)]) ∧
    (∀ v, st.costs v = if v.y = 0 ∧ v.x ≤ j then some v.x else none) ∧
    (∀ v, st.prev v = if v.y = 0 ∧ 1 ≤ v.x ∧ v.x ≤ j then some ⟨v.x - 1, 0⟩ else none)

/-- A 5 x 3 grid with one obstacle, on which the search from `(0, 2)` to
`(4, 0)` can reach `(1, 0)` first by a detour and later by a shorter way. -/
def detourGrid : Grid := (Grid.new 5 3).setWalls [⟨1, 1⟩]

/-- A tie-breaking order for `detourGrid` that follows the detour first. -/
def detourTie : Nat → Nat := fun k => [0, 0, 1, 2, 3, 0, 4, 2, 4].getD k 0

/-- Scenario C of the specification: a 3 x 3 grid whose obstacles encircle the
goal `(2, 2)`. -/
def scenarioC : Grid := (Grid.new 3 3).setWalls [⟨1, 1⟩, ⟨1, 2⟩, ⟨2, 1⟩]

/-- The state in which the loop of `a_search` stops in scenario C. -/
def scenarioC_final : SearchState :=
  (a_search_loop scenarioC ⟨2, 2⟩ 100 (fun _ => 0)
    ⟨[(0, ⟨0, 0⟩)], LocMap.empty, LocMap.empty⟩).getD ⟨[], LocMap.empty, LocMap.empty⟩

/-- The goal has no cost or is in the queue. -/
def GoalQueued (goal : Location) (st : SearchState) : Prop :=
  st.costs goal = none ∨ ∃ p, (p, goal) ∈ st.queue

/-- A sufficient condition for no 32-bit value to wrap in a search from `start`
to `goal`: the grid is small (`width * height + width + height < 2^32`, with
`goal` a free cell of it), or some walk from `start` to `goal` has fewer than
`2^32 - 2` steps. -/
def NoWrap (g : Grid) (start goal : Location) : Prop :=
  (Free g goal ∧ g.width * g.height + g.width + g.height < U32) ∨
    ∃ n, Reach g start goal n ∧ n + 2 < U32

/-- Invariant of the keys of the predecessor map, for a search that started
with an empty map: `start` has the cost 0, and every key is a cell other than
`start` that has a cost. -/
def KeyInv (start : Location) (st : SearchState) : Prop :=
  st.costs start = some 0 ∧ ∀ v p, st.prev v = some p → v ≠ start ∧ ∃ c, st.costs v = some c

/-- The state in which the loop of `a_search` stops in scenario A (empty 3 x 3
grid, from `(0, 0)` to `(2, 2)`) when the first entry of minimal priority is on
top. -/
def scenarioA_final : SearchState :=
  (a_search_loop (Grid.new 3 3) ⟨2, 2⟩ 100 (fun _ => 0)
    ⟨[(0, ⟨0, 0⟩)], LocMap.empty, LocMap.empty⟩).getD ⟨[], LocMap.empty, LocMap.empty⟩

/-- The `while` loop of the variant of `a_search` with a closed set, as the
specification describes it: a popped cell that has been expanded before is
dropped without being expanded again; every other popped cell is marked closed
and expanded as in `a_search`. -/
def a_search_closed_loop (g : Grid) (goal : Location) :
    Nat → (Nat → Nat) → SearchState → List Location → Option SearchState
  | 0, _, _, _ => none
  | fuel + 1, tie, st, closed =>
    if st.queue.isEmpty then some st
    else
      let i := topIdx st.queue (tie 0)
      let current := (st.queue.getD i default).2
      if current.neq goal then
        if current ∈ closed then
          a_search_closed_loop g goal fuel (fun k => tie (k + 1))
            ⟨st.queue.eraseIdx i, st.costs, st.prev⟩ closed
        else
          a_search_closed_loop g goal fuel (fun k => tie (k + 1)) (expand g goal current i st)
            (current :: closed)
      else some st

/-- The variant of `a_search` with a closed set: the returned cost and the
final `previous_location`. -/
def a_search_closed (fuel : Nat) (tie : Nat → Nat) (g : Grid) (start goal : Location)
    (previous_location : LocMap Location) : Option (Nat × LocMap Location) :=
  if !g.within start || !g.within goal || !g.operational start || !g.operational goal then
    some (0, previous_location)
  else
    match a_search_closed_loop g goal fuel tie ⟨[(0, start)], LocMap.empty, previous_location⟩
      [] with
    | none => none
    | some st => some (st.costs.at goal 0, st.prev)

/-- The cells that the loop of the variant with a closed set drops without
expanding them, in the order in which they are popped: a copy of
`a_search_closed_loop` that records the iterations in which the popped cell is
already closed. -/
def a_search_closed_dropped (g : Grid) (goal : Location) :
    Nat → (Nat → Nat) → SearchState → List Location → Option (List Location)
  | 0, _, _, _ => none
  | fuel + 1, tie, st, closed =>
    if st.queue.isEmpty then some []
    else
      let i := topIdx st.queue (tie 0)
      let current := (st.queue.getD i default).2
      if current.neq goal then
        if current ∈ closed then
          (a_search_closed_dropped g goal fuel (fun k => tie (k + 1))
            ⟨st.queue.eraseIdx i, st.costs, st.prev⟩ closed).map (fun l => current :: l)
        else
          a_search_closed_dropped g goal fuel (fun k => tie (k + 1)) (expand g goal current i st)
            (current :: closed)
      else some []

/-- A 5 x 3 grid with two obstacles, on which the search from `(4, 2)` to
`(0, 1)` can push `(2, 2)` twice, with the costs 4 and 2, and pop both
entries before it reaches the goal. -/
def revisitGrid : Grid := (Grid.new 5 3).setWalls [⟨1, 1⟩, ⟨1, 2⟩]

/-- A tie-breaking order for `revisitGrid` in which `(2, 2)` is popped twice. -/
def revisitTie : Nat → Nat := fun k => [0, 1, 1, 2, 0, 4, 0, 1, 1, 0, 0, 0].getD k 0

/-- Invariant of the closed set when no 32-bit value wraps: a closed cell has
its distance from `start` as cost and each of its neighbours has a cost at most
one more. -/
def ClosedInv (g : Grid) (start : Location) (closed : List Location) (st : SearchState) : Prop :=
  ∀ v ∈ closed, ∃ d, st.costs v = some d ∧ IsDist g start v d ∧
    ∀ w ∈ g.neighbours v, ∃ c, st.costs w = some c ∧ c ≤ d + 1

/-- A goal at the far end of row 2 of `corridor`: the 32-bit heuristic of
`(2^32 - 2, 0)` for this goal wraps to 0. -/
def corridorFar : Location := ⟨0, 2⟩

/-- The closed set of the variant along row 0 of `corridor`: the cells
`(0, 0)`, ..., `(j - 1, 0)`. -/
def ClosedPhase (j : Nat) (closed : List Location) : Prop :=
  ∀ v : Location, v ∈ closed ↔ v.y = 0 ∧ v.x < j

/-- What `a_search` keeps on `corridor` once it has expanded `(2^32 - 2, 0)`
for the second time: the cell `(2^32 - 3, 0)` has the cost 1 and the
predecessor `(2^32 - 2, 0)`. -/
def FarOrigInv (st : SearchState) : Prop :=
  st.costs ⟨4294967293, 0⟩ = some 1 ∧ st.prev ⟨4294967293, 0⟩ = some ⟨4294967294, 0⟩ ∧
    st.costs ⟨4294967294, 0⟩ = some 0 ∧
    (∃ c, st.costs ⟨4294967292, 0⟩ = some c ∧ c ≤ 4294967292) ∧
    ∀ e ∈ st.queue, Free corridor e.2

/-- What the variant with a closed set keeps on `corridor` once both
neighbours of `(2^32 - 3, 0)` are closed: its predecessor `(2^32 - 4, 0)`. -/
def FarClosedInv (st : SearchState) (closed : List Location) : Prop :=
  st.prev ⟨4294967293, 0⟩ = some ⟨4294967292, 0⟩ ∧ (⟨4294967294, 0⟩ : Location) ∈ closed ∧
    (⟨4294967292, 0⟩ : Location) ∈ closed ∧ ∀ e ∈ st.queue, Free corridor e.2

/-! ## Basic facts about the embedded operations -/

theorem Location.neq_iff (a b : Location) : a.neq b = true ↔ a ≠ b := by
  cases a; cases b
  simp only [Location.neq, Bool.or_eq_true, bne_iff_ne, ne_eq, Location.mk.injEq]
  tauto

theorem Location.neq_self (a : Location) : a.neq a = false := by
  simp [Location.neq]

theorem Location.eq_iff (a b : Location) : a.eq b = true ↔ a = b := by
  cases a; cases b
  simp [Location.eq]

theorem within_iff (g : Grid) (c : Location) :
    g.within c = true ↔ c.x < g.width ∧ c.y < g.height := by
  simp [Grid.within]

theorem operational_iff (g : Grid) (c : Location) : g.operational c = true ↔ c ∉ g.walls := by
  unfold Grid.operational setCount
  by_cases h : c ∈ g.walls <;> simp [h]

theorem free_iff (g : Grid) (c : Location) :
    Free g c ↔ g.within c = true ∧ g.operational c = true := by
  rw [within_iff, operational_iff]
  unfold Free
  tauto

theorem mem_neighbours (g : Grid) (c nb : Location) :
    nb ∈ g.neighbours c ↔ nb ∈ potential c ∧ Free g nb := by
  unfold Grid.neighbours
  rw [List.mem_filter, free_iff]
  simp

theorem mem_potential (c nb : Location) :
    nb ∈ potential c ↔
      nb = ⟨(c.x + 1) % U32, c.y⟩ ∨ nb = ⟨c.x, (c.y + 1) % U32⟩ ∨
      nb = ⟨(c.x + (U32 - 1)) % U32, c.y⟩ ∨ nb = ⟨c.x, (c.y + (U32 - 1)) % U32⟩ := by
  simp [potential]

/-- Away from the largest `unsigned int`, a potential neighbour that lies in a
grid is adjacent: the only wrapped candidates have a coordinate `2^32 - 1`. -/
theorem adjacent_of_mem_potential (g : Grid) (hg : g.WF) (c nb : Location)
    (hx1 : c.x + 1 < U32) (hy1 : c.y + 1 < U32)
    (h : nb ∈ potential c) (hw : nb.x < g.width ∧ nb.y < g.height) : Adjacent c nb := by
  obtain ⟨hgw, hgh⟩ := hg
  obtain ⟨hwx, hwy⟩ := hw
  rw [mem_potential] at h
  unfold U32 at *
  unfold Adjacent
  rcases h with h | h | h | h <;> subst h <;> dsimp only at hwx hwy ⊢ <;> omega

theorem mem_potential_of_adjacent (c nb : Location) (hc : c.x < U32 ∧ c.y < U32)
    (hnb : nb.x < U32 ∧ nb.y < U32) (h : Adjacent c nb) : nb ∈ potential c := by
  rw [mem_potential]
  obtain ⟨x, y⟩ := c
  obtain ⟨x2, y2⟩ := nb
  unfold Adjacent at h
  unfold U32 at *
  simp only [Location.mk.injEq] at *
  omega

/-- For a cell inside a well-formed grid, `neighbours` lists exactly the free
adjacent cells. -/
theorem mem_neighbours_iff (g : Grid) (hg : g.WF) (c nb : Location)
    (hc : c.x < g.width ∧ c.y < g.height) :
    nb ∈ g.neighbours c ↔ Adjacent c nb ∧ Free g nb := by
  rw [mem_neighbours]
  have hg2 := hg
  obtain ⟨hgw, hgh⟩ := hg2
  constructor
  · rintro ⟨h1, h2⟩
    refine ⟨adjacent_of_mem_potential g hg c nb ?_ ?_ h1 ⟨h2.1, h2.2.1⟩, h2⟩ <;> omega
  · rintro ⟨h1, h2⟩
    refine ⟨mem_potential_of_adjacent c nb ?_ ?_ h1, h2⟩
    · constructor <;> omega
    · have := h2.1
      have := h2.2.1
      constructor <;> omega

/-! ## The neighbour enumeration -/

theorem map_filter_of_forall₂ {p : Location → Bool} {q : Int × Int → Bool}
    {l1 : List Location} {l2 : List (Int × Int)}
    (h : List.Forall₂ (fun n z => p n = q z ∧ (p n = true → n.toInt = z)) l1 l2) :
    (l1.filter p).map Location.toInt = l2.filter q := by
  induction h with
  | nil => rfl
  | @cons n z t1 t2 hnz _ ih =>
    obtain ⟨h1, h2⟩ := hnz
    by_cases hp : p n = true
    · have hq : q z = true := h1 ▸ hp
      rw [List.filter_cons_of_pos hp, List.filter_cons_of_pos hq, List.map_cons, ih, h2 hp]
    · have hq : ¬ q z = true := h1 ▸ hp
      rw [List.filter_cons_of_neg hp, List.filter_cons_of_neg hq, ih]

theorem candidate_rel (g : Grid) (n : Location) (z : Int × Int)
    (h : (z.1 = (n.x : Int) ∧ z.2 = (n.y : Int)) ∨
      ((z.1 < 0 ∨ z.2 < 0) ∧ (g.width ≤ n.x ∨ g.height ≤ n.y))) :
    (g.within n && g.operational n) = intAdmissible g z ∧
      ((g.within n && g.operational n) = true → n.toInt = z) := by
  obtain ⟨z1, z2⟩ := z
  obtain ⟨nx, ny⟩ := n
  rcases h with ⟨h1, h2⟩ | ⟨h1, h2⟩
  · simp only at h1 h2
    subst h1 h2
    simp [intAdmissible, Location.toInt]
  · simp only at h1 h2
    have hw : g.within ⟨nx, ny⟩ = false := by
      simp only [Grid.within, Bool.and_eq_false_imp, decide_eq_true_eq, decide_eq_false_iff_not]
      omega
    have hz : (decide (0 ≤ z1) && decide (0 ≤ z2)) = false := by
      simp only [Bool.and_eq_false_imp, decide_eq_true_eq, decide_eq_false_iff_not]
      omega
    simp [intAdmissible, hw, hz]

theorem potential_nodup (c : Location) (hc : c.Valid) : (potential c).Nodup := by
  obtain ⟨hx, hy⟩ := hc
  unfold U32 at hx hy
  simp only [potential, U32, List.nodup_cons, List.mem_cons, List.mem_singleton,
    Location.mk.injEq, List.not_mem_nil, not_false_eq_true, List.nodup_nil, and_true, not_or]
  omega

/-- Claim C6. For a cell `c = (x, y)` inside a grid, `Grid::neighbours(c)` is the
list of integer candidates `(x+1,y), (x,y+1), (x-1,y), (x,y-1)` from which the
cells failing `within` or `operational` are removed, in that order; it has at
most four elements and no duplicates. -/
theorem neighbours_spec (g : Grid) (c : Location) (hg : g.WF) (hc : g.within c = true) :
    (g.neighbours c).map Location.toInt = (intCandidates c).filter (intAdmissible g) ∧
      (g.neighbours c).length ≤ 4 ∧ (g.neighbours c).Nodup := by
  rw [within_iff] at hc
  have hg2 := hg
  obtain ⟨hgw, hgh⟩ := hg2
  unfold U32 at hgw hgh
  refine ⟨?_, ?_, ?_⟩
  · unfold Grid.neighbours
    apply map_filter_of_forall₂
    unfold potential intCandidates
    refine List.Forall₂.cons ?_ (List.Forall₂.cons ?_ (List.Forall₂.cons ?_
      (List.Forall₂.cons ?_ List.Forall₂.nil)))
    all_goals apply candidate_rel g
    all_goals unfold U32
    all_goals dsimp only
    all_goals omega
  · exact le_trans (List.length_filter_le _ _) (by simp [potential])
  · exact (potential_nodup c ⟨by unfold U32; omega, by unfold U32; omega⟩).filter _

/-- The corner `(0, 0)` of the empty 3 x 3 grid has the neighbours `(1, 0)` and
`(0, 1)`; the candidates `(-1, 0)` and `(0, -1)` are dropped. -/
theorem neighbours_spec_witness :
    (Grid.new 3 3).neighbours ⟨0, 0⟩ = [⟨1, 0⟩, ⟨0, 1⟩] ∧
      (intCandidates ⟨0, 0⟩).filter (intAdmissible (Grid.new 3 3)) = [(1, 0), (0, 1)] ∧
      (((Grid.new 3 3).neighbours ⟨0, 0⟩).map Location.toInt =
          (intCandidates ⟨0, 0⟩).filter (intAdmissible (Grid.new 3 3)) ∧
        ((Grid.new 3 3).neighbours ⟨0, 0⟩).length ≤ 4 ∧
        ((Grid.new 3 3).neighbours ⟨0, 0⟩).Nodup) :=
  ⟨by decide, by decide,
    neighbours_spec (Grid.new 3 3) ⟨0, 0⟩ (by unfold Grid.WF U32 Grid.new; decide) (by decide)⟩

/-- The wrapped candidate of claim C7: on a 3 x 3 grid the cell
`(2^32 - 1, 0)` gets the neighbour `(0, 0)`, which is not adjacent to it. -/
theorem neighbours_wrap_counterexample :
    (Grid.new 3 3).WF ∧ Location.Valid ⟨4294967295, 0⟩ ∧
      (Grid.new 3 3).neighbours ⟨4294967295, 0⟩ = [⟨0, 0⟩] ∧
      ¬ Adjacent ⟨4294967295, 0⟩ ⟨0, 0⟩ := by
  refine ⟨by unfold Grid.WF U32 Grid.new; decide, by unfold Location.Valid U32; decide, by decide, by decide⟩

/-- Claim C7, amended. For a cell `c` both of whose coordinates are below
`2^32 - 1` (every cell inside a grid is one), each cell returned by
`Grid::neighbours(c)` is orthogonally adjacent to `c` over the integers and
satisfies `within`; a candidate that wrapped around is never returned. For any
cell at all the returned cells satisfy `within` and `operational`. -/
theorem neighbours_adjacent (g : Grid) (c nb : Location) (hg : g.WF)
    (hc : (c.x + 1 < U32 ∧ c.y + 1 < U32) ∨ g.within c = true) (h : nb ∈ g.neighbours c) :
    Adjacent c nb ∧ g.within nb = true ∧ g.operational nb = true := by
  rw [mem_neighbours] at h
  have hf := (free_iff g nb).1 h.2
  refine ⟨adjacent_of_mem_potential g hg c nb ?_ ?_ h.1 ⟨h.2.1, h.2.2.1⟩, hf.1, hf.2⟩
  all_goals
    rcases hc with hc | hc
    · omega
    · rw [within_iff] at hc
      have := hg.1
      have := hg.2
      omega

theorem neighbours_adjacent_witness :
    Adjacent ⟨0, 0⟩ ⟨1, 0⟩ ∧ (Grid.new 3 3).within ⟨1, 0⟩ = true ∧
      (Grid.new 3 3).operational ⟨1, 0⟩ = true :=
  neighbours_adjacent (Grid.new 3 3) ⟨0, 0⟩ ⟨1, 0⟩ (by unfold Grid.WF U32 Grid.new; decide)
    (Or.inr (by decide)) (by decide)

/-! ## The obstacle set -/

theorem mem_setEmplace (s : List Location) (v c : Location) :
    c ∈ setEmplace s v ↔ c ∈ s ∨ c = v := by
  unfold setEmplace
  split
  · constructor
    · exact Or.inl
    · rintro (h | h)
      · exact h
      · subst h; assumption
  · simp

theorem mem_foldl_setEmplace (ws s : List Location) (c : Location) :
    c ∈ ws.foldl setEmplace s ↔ c ∈ s ∨ c ∈ ws := by
  induction ws generalizing s with
  | nil => simp
  | cons w ws ih =>
    rw [List.foldl_cons, ih, mem_setEmplace, List.mem_cons]
    tauto

theorem mem_setWalls (g : Grid) (ws : List Location) (c : Location) :
    c ∈ (g.setWalls ws).walls ↔ c ∈ g.walls ∨ c ∈ ws :=
  mem_foldl_setEmplace ws g.walls c

/-- The input that refutes claim C8: `setWalls` stores a cell outside the grid. -/
theorem walls_outside_counterexample :
    GridReachable 3 3 (fun _ => True) ((Grid.new 3 3).setWalls [⟨5, 5⟩]) ∧
      (⟨5, 5⟩ : Location) ∈ ((Grid.new 3 3).setWalls [⟨5, 5⟩]).walls ∧
      ¬ ((⟨5, 5⟩ : Location).x < ((Grid.new 3 3).setWalls [⟨5, 5⟩]).width ∧
        (⟨5, 5⟩ : Location).y < ((Grid.new 3 3).setWalls [⟨5, 5⟩]).height) :=
  ⟨GridReachable.set _ GridReachable.init trivial, by decide, by decide⟩

/-- Claim C8, amended. In every grid state reachable from `Grid(w, h)` by
`setWalls` and `unsetWalls` calls in which every cell passed to `setWalls` lies
inside the grid, the width and height are still `w` and `h` and every cell of
the obstacle set lies inside the grid. -/
theorem walls_within (w h : Nat) (g : Grid)
    (hr : GridReachable w h (fun ws => ∀ c ∈ ws, c.x < w ∧ c.y < h) g) :
    g.width = w ∧ g.height = h ∧ ∀ c ∈ g.walls, c.x < g.width ∧ c.y < g.height := by
  induction hr with
  | init => exact ⟨rfl, rfl, by simp [Grid.new]⟩
  | unset _ ih => exact ⟨ih.1, ih.2.1, by simp [Grid.unsetWalls]⟩
  | @set g0 ws _ hok ih =>
    obtain ⟨h1, h2, h3⟩ := ih
    refine ⟨h1, h2, ?_⟩
    intro c hc
    rw [mem_setWalls] at hc
    show c.x < g0.width ∧ c.y < g0.height
    rcases hc with hc | hc
    · exact h3 c hc
    · rw [h1, h2]; exact hok c hc

theorem walls_within_witness :
    ((Grid.new 3 3).setWalls [⟨1, 1⟩]).width = 3 ∧ ((Grid.new 3 3).setWalls [⟨1, 1⟩]).height = 3 ∧
      ∀ c ∈ ((Grid.new 3 3).setWalls [⟨1, 1⟩]).walls,
        c.x < ((Grid.new 3 3).setWalls [⟨1, 1⟩]).width ∧
        c.y < ((Grid.new 3 3).setWalls [⟨1, 1⟩]).height :=
  walls_within 3 3 ((Grid.new 3 3).setWalls [⟨1, 1⟩])
    (GridReachable.set [⟨1, 1⟩] GridReachable.init (by decide))

/-! ## The heuristic -/

theorem diff_eq_natAbs (a b : Nat) : diff a b = Int.natAbs ((a : Int) - (b : Int)) := by
  unfold diff
  split <;> omega

theorem hx_eq_manhattan_mod (a b : Location) : hx a b = manhattan a b % U32 := by
  unfold hx manhattan
  rw [diff_eq_natAbs, diff_eq_natAbs]

theorem hx_le_manhattan (a b : Location) : hx a b ≤ manhattan a b := by
  rw [hx_eq_manhattan_mod]
  exact Nat.mod_le _ _

theorem manhattan_comm (a b : Location) : manhattan a b = manhattan b a := by
  unfold manhattan
  omega

theorem manhattan_eq_zero (a b : Location) : manhattan a b = 0 ↔ a = b := by
  obtain ⟨x, y⟩ := a
  obtain ⟨x2, y2⟩ := b
  unfold manhattan
  simp only [Location.mk.injEq]
  omega

theorem manhattan_adjacent (a b t : Location) (h : Adjacent a b) :
    manhattan a t ≤ manhattan b t + 1 ∧ manhattan b t ≤ manhattan a t + 1 := by
  unfold Adjacent at h
  unfold manhattan
  omega

/-- The inputs that refute claim C9: the 32-bit sum in `hx` wraps, so `hx`
differs from the Manhattan distance and vanishes on two different cells. -/
theorem hx_overflow_counterexample :
    Location.Valid ⟨0, 0⟩ ∧ Location.Valid ⟨4294967295, 4294967295⟩ ∧
      Location.Valid ⟨2147483648, 2147483648⟩ ∧
      hx ⟨0, 0⟩ ⟨4294967295, 4294967295⟩ = 4294967294 ∧
      manhattan ⟨0, 0⟩ ⟨4294967295, 4294967295⟩ = 8589934590 ∧
      hx ⟨0, 0⟩ ⟨2147483648, 2147483648⟩ = 0 ∧
      (⟨0, 0⟩ : Location) ≠ ⟨2147483648, 2147483648⟩ := by
  refine ⟨by unfold Location.Valid U32; decide, by unfold Location.Valid U32; decide,
    by unfold Location.Valid U32; decide, by decide, by decide, by decide, by decide⟩

/-- Claim C9, amended. For cells with `unsigned int` coordinates, `hx(a, b)` is
the Manhattan distance reduced modulo `2^32`; it is symmetric and zero when
`a == b`; whenever the Manhattan distance is below `2^32` (for instance when
both cells lie in a grid with `width + height <= 2^32`), `hx(a, b)` equals it
and is zero exactly when `a == b`. -/
theorem hx_manhattan (a b : Location) :
    hx a b = manhattan a b % U32 ∧ hx a b = hx b a ∧ hx a a = 0 ∧ hx a b < U32 ∧
      (manhattan a b < U32 → hx a b = manhattan a b ∧ (hx a b = 0 ↔ a = b)) := by
  refine ⟨hx_eq_manhattan_mod a b, ?_, ?_, ?_, ?_⟩
  · rw [hx_eq_manhattan_mod, hx_eq_manhattan_mod, manhattan_comm]
  · rw [hx_eq_manhattan_mod, (manhattan_eq_zero a a).2 rfl]; rfl
  · rw [hx_eq_manhattan_mod]; exact Nat.mod_lt _ (by unfold U32; decide)
  · intro h
    have h2 : hx a b = manhattan a b := by rw [hx_eq_manhattan_mod]; exact Nat.mod_eq_of_lt h
    exact ⟨h2, by rw [h2]; exact manhattan_eq_zero a b⟩

theorem hx_manhattan_witness :
    hx ⟨0, 0⟩ ⟨2, 2⟩ = manhattan ⟨0, 0⟩ ⟨2, 2⟩ % U32 ∧ hx ⟨0, 0⟩ ⟨2, 2⟩ = hx ⟨2, 2⟩ ⟨0, 0⟩ ∧
      hx ⟨0, 0⟩ ⟨0, 0⟩ = 0 ∧ hx ⟨0, 0⟩ ⟨2, 2⟩ < U32 ∧
      (manhattan ⟨0, 0⟩ ⟨2, 2⟩ < U32 → hx ⟨0, 0⟩ ⟨2, 2⟩ = manhattan ⟨0, 0⟩ ⟨2, 2⟩ ∧
        (hx ⟨0, 0⟩ ⟨2, 2⟩ = 0 ↔ (⟨0, 0⟩ : Location) = ⟨2, 2⟩)) :=
  hx_manhattan ⟨0, 0⟩ ⟨2, 2⟩

/-! ## Walks -/

theorem Reach.free_right {g : Grid} {a b : Location} {n : Nat} (h : Reach g a b n) : Free g b := by
  cases h with
  | refl hf => exact hf
  | tail _ _ hf => exact hf

theorem Reach.free_left {g : Grid} {a b : Location} {n : Nat} (h : Reach g a b n) : Free g a := by
  induction h with
  | refl hf => exact hf
  | tail _ _ _ ih => exact ih

theorem Reach.manhattan_le {g : Grid} {a b : Location} {n : Nat} (h : Reach g a b n) :
    manhattan a b ≤ n := by
  induction h with
  | refl _ => exact le_of_eq ((manhattan_eq_zero _ _).2 rfl)
  | @tail b c n _ hadj _ ih =>
    have h1 := (manhattan_adjacent b c a hadj).2
    rw [manhattan_comm c a, manhattan_comm b a] at h1
    omega

/-- Claim C10. Admissibility: when `b` is reachable from `a` by orthogonal steps
through free cells of the grid, `hx(a, b)` is at most the length of a shortest
such walk (indeed of every such walk). -/
theorem hx_admissible (g : Grid) (a b : Location) (n : Nat) (hd : IsDist g a b n) :
    hx a b ≤ n ∧ ∀ m, Reach g a b m → hx a b ≤ m :=
  ⟨le_trans (hx_le_manhattan a b) hd.1.manhattan_le,
    fun _ hm => le_trans (hx_le_manhattan a b) hm.manhattan_le⟩

theorem isDist_of_manhattan {g : Grid} {a b : Location} {n : Nat} (h : Reach g a b n)
    (hm : manhattan a b = n) : IsDist g a b n :=
  ⟨h, fun _ h2 => hm ▸ h2.manhattan_le⟩

theorem reach_scenarioA : Reach (Grid.new 3 3) ⟨0, 0⟩ ⟨2, 2⟩ 4 :=
  ((((Reach.refl (by decide)).tail (c := ⟨1, 0⟩) (by decide) (by decide)).tail
    (c := ⟨2, 0⟩) (by decide) (by decide)).tail (c := ⟨2, 1⟩) (by decide) (by decide)).tail
    (c := ⟨2, 2⟩) (by decide) (by decide)

theorem isDist_scenarioA : IsDist (Grid.new 3 3) ⟨0, 0⟩ ⟨2, 2⟩ 4 :=
  isDist_of_manhattan reach_scenarioA (by decide)

theorem hx_admissible_witness :
    hx ⟨0, 0⟩ ⟨2, 2⟩ ≤ 4 ∧ ∀ m, Reach (Grid.new 3 3) ⟨0, 0⟩ ⟨2, 2⟩ m → hx ⟨0, 0⟩ ⟨2, 2⟩ ≤ m :=
  hx_admissible (Grid.new 3 3) ⟨0, 0⟩ ⟨2, 2⟩ 4 isDist_scenarioA

/-! ## The fast exit of `a_search` -/

/-- Claim C3. When `start` or `goal` is outside the grid or is an obstacle,
`a_search` returns 0 at once, whatever the fuel (the loop is not entered), and
the predecessor map is the one passed in. -/
theorem a_search_fast_fail (fuel : Nat) (tie : Nat → Nat) (g : Grid) (start goal : Location)
    (previous_location : LocMap Location)
    (h : ¬ (start.x < g.width ∧ start.y < g.height) ∨ ¬ (goal.x < g.width ∧ goal.y < g.height) ∨
      start ∈ g.walls ∨ goal ∈ g.walls) :
    a_search fuel tie g start goal previous_location = some (0, previous_location) := by
  unfold a_search
  rw [if_pos]
  simp only [Bool.or_eq_true, Bool.not_eq_true', ← Bool.not_eq_true, within_iff, operational_iff]
  tauto

theorem a_search_fast_fail_witness :
    a_search 0 (fun _ => 0) (Grid.new 3 3) ⟨3, 0⟩ ⟨2, 2⟩ LocMap.empty = some (0, LocMap.empty) :=
  a_search_fast_fail 0 (fun _ => 0) (Grid.new 3 3) ⟨3, 0⟩ ⟨2, 2⟩ LocMap.empty
    (Or.inl (by decide))

/-! ## The priority queue -/

theorem isTop_iff (q : List Entry) (e : Entry) : isTop q e = true ↔ ∀ e2 ∈ q, e.1 ≤ e2.1 := by
  simp [isTop]

theorem exists_isTop (q : List Entry) (h : q ≠ []) : ∃ e ∈ q, isTop q e = true := by
  induction q with
  | nil => exact absurd rfl h
  | cons a t ih =>
    by_cases ht : t = []
    · subst ht
      exact ⟨a, List.mem_singleton.2 rfl, by simp [isTop]⟩
    · obtain ⟨m, hm, hmin⟩ := ih ht
      rw [isTop_iff] at hmin
      by_cases hc : a.1 ≤ m.1
      · refine ⟨a, List.mem_cons_self _ _, ?_⟩
        rw [isTop_iff]
        intro e2 he2
        rcases List.mem_cons.1 he2 with h2 | h2
        · rw [h2]
        · exact le_trans hc (hmin e2 h2)
      · refine ⟨m, List.mem_cons_of_mem _ hm, ?_⟩
        rw [isTop_iff]
        intro e2 he2
        rcases List.mem_cons.1 he2 with h2 | h2
        · rw [h2]; omega
        · exact hmin e2 h2

theorem topIdx_lt (q : List Entry) (ch : Nat) (h : q ≠ []) : topIdx q ch < q.length := by
  unfold topIdx
  split
  · exact Nat.mod_lt _ (List.length_pos.2 h)
  · exact List.findIdx_lt_length_of_exists (exists_isTop q h)

theorem topEntry_eq (q : List Entry) (ch : Nat) (h : q ≠ []) :
    topEntry q ch = q.get ⟨topIdx q ch, topIdx_lt q ch h⟩ :=
  List.getD_eq_getElem q default (topIdx_lt q ch h)

theorem topEntry_mem (q : List Entry) (ch : Nat) (h : q ≠ []) : topEntry q ch ∈ q := by
  rw [topEntry_eq q ch h]
  exact List.get_mem _ _ _

theorem topEntry_isTop (q : List Entry) (ch : Nat) (h : q ≠ []) :
    isTop q (topEntry q ch) = true := by
  by_cases hc : isTop q (q.getD (ch % q.length) default) = true
  · have : topIdx q ch = ch % q.length := by unfold topIdx; rw [if_pos hc]
    unfold topEntry
    rw [this]
    exact hc
  · have hi : topIdx q ch = q.findIdx (isTop q) := by unfold topIdx; rw [if_neg hc]
    have hlt : q.findIdx (isTop q) < q.length :=
      List.findIdx_lt_length_of_exists (exists_isTop q h)
    unfold topEntry
    rw [hi, List.getD_eq_getElem q default hlt]
    exact List.findIdx_getElem

theorem topEntry_le (q : List Entry) (ch : Nat) (h : q ≠ []) (e : Entry) (he : e ∈ q) :
    (topEntry q ch).1 ≤ e.1 :=
  (isTop_iff q _).1 (topEntry_isTop q ch h) e he

theorem mem_eraseIdx_of_ne (q : List Entry) (i : Nat) (hi : i < q.length) (e : Entry)
    (he : e ∈ q) (hne : e ≠ q[i]) : e ∈ q.eraseIdx i := by
  rw [List.mem_eraseIdx_iff_getElem]
  obtain ⟨j, hj, hje⟩ := List.getElem_of_mem he
  refine ⟨j, hj, ?_, hje⟩
  intro hji
  subst hji
  exact hne hje.symm

theorem length_eraseIdx_lt (q : List Entry) (i : Nat) (hi : i < q.length) :
    (q.eraseIdx i).length + 1 = q.length := by
  rw [List.length_eraseIdx, if_pos hi]
  omega

/-! ## Termination of the search loop -/

theorem costSum_le (g : Grid) (c1 c2 : LocMap Nat) (h : ∀ v, pot (c1 v) ≤ pot (c2 v)) :
    costSum g c1 ≤ costSum g c2 :=
  Finset.sum_le_sum (fun _ _ => Finset.sum_le_sum (fun _ _ => h _))

theorem costSum_lt (g : Grid) (c1 c2 : LocMap Nat) (h : ∀ v, pot (c1 v) ≤ pot (c2 v))
    (v : Location) (hv : v.x < g.width ∧ v.y < g.height) (hlt : pot (c1 v) < pot (c2 v)) :
    costSum g c1 < costSum g c2 := by
  apply Finset.sum_lt_sum (fun _ _ => Finset.sum_le_sum (fun _ _ => h _))
  refine ⟨v.x, Finset.mem_range.2 hv.1, ?_⟩
  apply Finset.sum_lt_sum (fun _ _ => h _)
  exact ⟨v.y, Finset.mem_range.2 hv.2, hlt⟩

theorem costSum_empty (g : Grid) : costSum g LocMap.empty = g.width * g.height * U32 := by
  simp [costSum, LocMap.empty, pot, Nat.mul_assoc]

theorem touch_eq_some_of (costs : LocMap Nat) (k v : Location) (c : Nat)
    (h : costs v = some c) : costs.touch k 0 v = some c := by
  unfold LocMap.touch
  cases hk : costs k with
  | some c => exact h
  | none =>
    simp only [LocMap.set]
    split
    · next h2 => subst h2; rw [hk] at h; cases h
    · exact h

theorem touch_apply (costs : LocMap Nat) (k v : Location) :
    costs.touch k 0 v = if v = k ∧ costs k = none then some 0 else costs v := by
  unfold LocMap.touch
  cases hk : costs k with
  | some c => simp
  | none =>
    simp only [LocMap.set, and_true]

theorem pot_touch_le (costs : LocMap Nat) (k v : Location) :
    pot (costs.touch k 0 v) ≤ pot (costs v) := by
  rw [touch_apply]
  split
  · simp [pot]
  · exact le_refl _

theorem relax_measure (g : Grid) (goal current nb : Location) (st : SearchState)
    (hnb : nb.x < g.width ∧ nb.y < g.height) :
    searchMeasure g (relax goal current st nb) ≤ searchMeasure g st := by
  unfold relax
  dsimp only
  split
  · next hcond =>
    have hc : ((st.costs.touch current 0).at current 0 + 1) % U32 < U32 :=
      Nat.mod_lt _ (by unfold U32; decide)
    have hnew : pot (some (((st.costs.touch current 0).at current 0 + 1) % U32)) <
        pot (st.costs.touch current 0 nb) := by
      rw [Bool.or_eq_true] at hcond
      cases hnbc : st.costs.touch current 0 nb with
      | none => simp only [pot]; omega
      | some old =>
        rcases hcond with hcond | hcond
        · simp [LocMap.count, hnbc] at hcond
        · simp only [LocMap.at, hnbc, Option.getD_some, decide_eq_true_eq] at hcond
          simp only [pot, LocMap.at]
          simp only [LocMap.at] at hc
          omega
    have hlt : costSum g ((st.costs.touch current 0).set nb
        (((st.costs.touch current 0).at current 0 + 1) % U32)) < costSum g st.costs := by
      apply costSum_lt g _ _ _ nb hnb
      · refine lt_of_lt_of_le ?_ (pot_touch_le st.costs current nb)
        simp only [LocMap.set, if_true]
        exact hnew
      · intro v
        simp only [LocMap.set]
        split
        · next hv =>
          subst hv
          exact le_trans (le_of_lt hnew) (pot_touch_le st.costs current v)
        · exact pot_touch_le st.costs current v
    simp only [searchMeasure, List.length_append, List.length_singleton]
    omega
  · have := costSum_le g (st.costs.touch current 0) st.costs (pot_touch_le st.costs current)
    simp only [searchMeasure]
    omega

theorem foldl_relax_measure (g : Grid) (goal current : Location) (l : List Location)
    (hl : ∀ nb ∈ l, nb.x < g.width ∧ nb.y < g.height) (st : SearchState) :
    searchMeasure g (l.foldl (relax goal current) st) ≤ searchMeasure g st := by
  induction l generalizing st with
  | nil => exact le_refl _
  | cons nb l ih =>
    rw [List.foldl_cons]
    exact le_trans (ih (fun n hn => hl n (List.mem_cons_of_mem _ hn)) _)
      (relax_measure g goal current nb st (hl nb (List.mem_cons_self _ _)))

theorem expand_measure (g : Grid) (goal current : Location) (i : Nat) (st : SearchState)
    (hi : i < st.queue.length) :
    searchMeasure g (expand g goal current i st) < searchMeasure g st := by
  unfold expand
  refine lt_of_le_of_lt (foldl_relax_measure g goal current _ ?_ _) ?_
  · intro nb hnb
    have := ((mem_neighbours g current nb).1 hnb).2
    exact ⟨this.1, this.2.1⟩
  · have := length_eraseIdx_lt st.queue i hi
    simp only [searchMeasure]
    omega

/-- With more fuel than the measure of the state the loop returns. -/
theorem a_search_loop_terminates (g : Grid) (goal : Location) (fuel : Nat) :
    ∀ (tie : Nat → Nat) (st : SearchState), searchMeasure g st < fuel →
      ∃ st2, a_search_loop g goal fuel tie st = some st2 := by
  induction fuel with
  | zero => intro _ _ h; omega
  | succ n ih =>
    intro tie st h
    unfold a_search_loop
    by_cases hq : st.queue.isEmpty = true
    · rw [if_pos hq]; exact ⟨st, rfl⟩
    · rw [if_neg hq]
      dsimp only
      split
      · apply ih
        have hne : st.queue ≠ [] := by
          intro h0; rw [h0] at hq; exact hq rfl
        have := expand_measure g goal (st.queue.getD (topIdx st.queue (tie 0)) default).2
          (topIdx st.queue (tie 0)) st (topIdx_lt st.queue (tie 0) hne)
        omega
      · exact ⟨st, rfl⟩

/-- Invariant rule for the loop: a property that holds initially and is kept by
the expansion of any top entry other than `goal` holds when the loop returns,
and the loop has then stopped. -/
theorem a_search_loop_invariant (g : Grid) (goal : Location) (P : SearchState → Prop)
    (hstep : ∀ (st : SearchState) (ch : Nat), P st → st.queue ≠ [] →
      (topEntry st.queue ch).2 ≠ goal →
      P (expand g goal (topEntry st.queue ch).2 (topIdx st.queue ch) st))
    (fuel : Nat) : ∀ (tie : Nat → Nat) (st st2 : SearchState), P st →
      a_search_loop g goal fuel tie st = some st2 → P st2 ∧ Stopped goal st2 := by
  induction fuel with
  | zero => intro _ _ _ _ h; simp [a_search_loop] at h
  | succ n ih =>
    intro tie st st2 hP h
    unfold a_search_loop at h
    by_cases hq : st.queue.isEmpty = true
    · rw [if_pos hq] at h
      cases h
      exact ⟨hP, Or.inl (List.isEmpty_iff.1 hq)⟩
    · rw [if_neg hq] at h
      have hne : st.queue ≠ [] := by
        intro h0; rw [h0] at hq; exact hq rfl
      dsimp only at h
      by_cases hcur : ((st.queue.getD (topIdx st.queue (tie 0)) default).2.neq goal) = true
      · rw [if_pos hcur] at h
        exact ih _ _ _ (hstep st (tie 0) hP hne ((Location.neq_iff _ _).1 hcur)) h
      · rw [if_neg hcur] at h
        cases h
        refine ⟨hP, Or.inr ⟨topEntry st.queue (tie 0), topEntry_mem _ _ hne, ?_, ?_⟩⟩
        · by_contra hc
          exact hcur ((Location.neq_iff _ _).2 hc)
        · exact fun e2 he2 => topEntry_le _ _ hne e2 he2

/-! ## Cells touched by the search are reachable -/

theorem foldl_relax_invariant (goal current : Location) (P : SearchState → Prop)
    (l : List Location) (h : ∀ st nb, nb ∈ l → P st → P (relax goal current st nb))
    (st : SearchState) (h0 : P st) : P (l.foldl (relax goal current) st) := by
  induction l generalizing st with
  | nil => exact h0
  | cons nb l ih =>
    rw [List.foldl_cons]
    exact ih (fun st n hn => h st n (List.mem_cons_of_mem _ hn)) _
      (h st nb (List.mem_cons_self _ _) h0)

theorem relax_reachInv (g : Grid) (start goal current nb : Location) (prev0 : LocMap Location)
    (st : SearchState) (hcur : ∃ n, Reach g start current n) (hnb : ∃ n, Reach g start nb n)
    (h : ReachInv g start prev0 st) : ReachInv g start prev0 (relax goal current st nb) := by
  obtain ⟨h1, h2, h3⟩ := h
  have htouch : ∀ v, st.costs.touch current 0 v ≠ none → ∃ n, Reach g start v n := by
    intro v hv
    rw [touch_apply] at hv
    split at hv
    · next hc => rw [hc.1]; exact hcur
    · exact h2 v hv
  unfold relax
  dsimp only
  split
  · refine ⟨?_, ?_, ?_⟩
    · intro e he
      rcases List.mem_append.1 he with he | he
      · exact h1 e he
      · rw [List.mem_singleton.1 he]; exact hnb
    · intro v hv
      simp only [LocMap.set] at hv
      split at hv
      · next hvn => rw [hvn]; exact hnb
      · exact htouch v hv
    · intro v hv
      simp only [LocMap.set] at hv
      split at hv
      · next hvn => rw [hvn]; exact hnb
      · exact h3 v hv
  · exact ⟨h1, htouch, h3⟩

theorem expand_reachInv (g : Grid) (hg : g.WF) (start goal : Location) (prev0 : LocMap Location)
    (st : SearchState) (ch : Nat) (hq : st.queue ≠ []) (h : ReachInv g start prev0 st) :
    ReachInv g start prev0 (expand g goal (topEntry st.queue ch).2 (topIdx st.queue ch) st) := by
  obtain ⟨n, hn⟩ := h.1 _ (topEntry_mem st.queue ch hq)
  unfold expand
  apply foldl_relax_invariant
  · intro st2 nb hnb h2
    have hfree := hn.free_right
    have hadj := (mem_neighbours_iff g hg _ nb ⟨hfree.1, hfree.2.1⟩).1 hnb
    exact relax_reachInv g start goal _ nb prev0 st2 ⟨n, hn⟩ ⟨n + 1, hn.tail hadj.1 hadj.2⟩ h2
  · exact ⟨fun e he => h.1 e (List.mem_of_mem_eraseIdx he), h.2.1, h.2.2⟩

theorem a_search_eq_loop (fuel : Nat) (tie : Nat → Nat) (g : Grid) (start goal : Location)
    (prev0 : LocMap Location) (hs : Free g start) (ht : Free g goal) :
    a_search fuel tie g start goal prev0 =
      (a_search_loop g goal fuel tie ⟨[(0, start)], LocMap.empty, prev0⟩).map
        (fun st => (st.costs.at goal 0, st.prev)) := by
  rw [free_iff] at hs ht
  unfold a_search
  rw [if_neg (by simp [hs.1, hs.2, ht.1, ht.2])]
  cases a_search_loop g goal fuel tie ⟨[(0, start)], LocMap.empty, prev0⟩ <;> rfl

theorem searchMeasure_init (g : Grid) (start : Location) (prev0 : LocMap Location) :
    searchMeasure g ⟨[(0, start)], LocMap.empty, prev0⟩ < searchFuel g := by
  simp only [searchMeasure, costSum_empty, searchFuel, List.length_singleton]
  omega

/-- Claim C2. When `start != goal` are free cells of the grid and no walk
through free cells connects them, `a_search` returns 0 (for every order of the
queue, given enough fuel) and the entry of `goal` in the predecessor map is
what it was; for an empty map there is none. -/
theorem a_search_unreachable (g : Grid) (start goal : Location) (hg : g.WF)
    (hs : Free g start) (ht : Free g goal)
    (hun : ∀ n, ¬ Reach g start goal n) (tie : Nat → Nat) (prev0 : LocMap Location)
    (fuel : Nat) (hfuel : searchFuel g ≤ fuel) :
    ∃ prev2, a_search fuel tie g start goal prev0 = some (0, prev2) ∧
      prev2 goal = prev0 goal ∧ (prev0 = LocMap.empty → prev2 goal = none) := by
  rw [a_search_eq_loop fuel tie g start goal prev0 hs ht]
  obtain ⟨st2, hst2⟩ := a_search_loop_terminates g goal fuel tie ⟨[(0, start)], LocMap.empty, prev0⟩
    (lt_of_lt_of_le (searchMeasure_init g start prev0) hfuel)
  have hinit : ReachInv g start prev0 ⟨[(0, start)], LocMap.empty, prev0⟩ := by
    refine ⟨?_, ?_, ?_⟩
    · intro e he
      rw [List.mem_singleton.1 he]
      exact ⟨0, Reach.refl hs⟩
    · intro v hv; exact absurd rfl hv
    · intro v hv; exact absurd rfl hv
  obtain ⟨hinv, hstop⟩ := a_search_loop_invariant g goal (ReachInv g start prev0)
    (fun st ch hP hq _ => expand_reachInv g hg start goal prev0 st ch hq hP)
    fuel tie _ st2 hinit hst2
  have hcost : st2.costs goal = none := by
    by_contra hc
    obtain ⟨n, hn⟩ := hinv.2.1 goal hc
    exact hun n hn
  have hprev : st2.prev goal = prev0 goal := by
    by_contra hc
    obtain ⟨n, hn⟩ := hinv.2.2 goal hc
    exact hun n hn
  refine ⟨st2.prev, ?_, hprev, ?_⟩
  · rw [hst2]
    simp [LocMap.at, hcost]
  · intro h0
    rw [hprev, h0]
    rfl

theorem no_reach_of_enclosed (g : Grid) (a t : Location) (hne : a ≠ t)
    (h : ∀ b, Adjacent b t → ¬ Free g b) (n : Nat) : ¬ Reach g a t n := by
  intro hr
  cases hr with
  | refl _ => exact hne rfl
  | tail hab hadj _ => exact h _ hadj hab.free_right

/-- Scenario C of the specification: a 3 x 3 grid whose obstacles encircle the
goal `(2, 2)`. -/
theorem a_search_unreachable_witness :
    ∃ prev2, a_search (searchFuel ((Grid.new 3 3).setWalls [⟨1, 1⟩, ⟨1, 2⟩, ⟨2, 1⟩]))
        (fun _ => 0) ((Grid.new 3 3).setWalls [⟨1, 1⟩, ⟨1, 2⟩, ⟨2, 1⟩]) ⟨0, 0⟩ ⟨2, 2⟩
        LocMap.empty = some (0, prev2) ∧
      prev2 ⟨2, 2⟩ = (LocMap.empty : LocMap Location) ⟨2, 2⟩ ∧
      ((LocMap.empty : LocMap Location) = LocMap.empty → prev2 ⟨2, 2⟩ = none) :=
  a_search_unreachable ((Grid.new 3 3).setWalls [⟨1, 1⟩, ⟨1, 2⟩, ⟨2, 1⟩]) ⟨0, 0⟩ ⟨2, 2⟩
    (by unfold Grid.WF U32; decide) (by decide) (by decide)
    (no_reach_of_enclosed _ _ _ (by decide) (by
      intro b hb
      obtain ⟨bx, byy⟩ := b
      unfold Adjacent at hb
      simp only at hb
      have h4 : (⟨bx, byy⟩ : Location) = ⟨1, 2⟩ ∨ (⟨bx, byy⟩ : Location) = ⟨3, 2⟩ ∨
          (⟨bx, byy⟩ : Location) = ⟨2, 1⟩ ∨ (⟨bx, byy⟩ : Location) = ⟨2, 3⟩ := by
        simp only [Location.mk.injEq]
        omega
      rcases h4 with h4 | h4 | h4 | h4 <;> rw [h4] <;> decide))
    (fun _ => 0) LocMap.empty _ (le_refl _)

/-! ## More on walks and distances -/

theorem Reach.eq_of_zero {g : Grid} {a b : Location} (h : Reach g a b 0) : a = b := by
  cases h
  rfl

theorem Reach.head {g : Grid} {a b c : Location} {n : Nat} (hadj : Adjacent a b)
    (ha : Free g a) (h : Reach g b c n) : Reach g a c (n + 1) := by
  induction h with
  | refl hf => exact (Reach.refl ha).tail hadj hf
  | tail _ hadj2 hf ih => exact ih.tail hadj2 hf

theorem Reach.trans {g : Grid} {a b c : Location} {n m : Nat} (h1 : Reach g a b n)
    (h2 : Reach g b c m) : Reach g a c (n + m) := by
  induction h2 with
  | refl _ => exact h1
  | tail _ hadj hf ih => exact ih.tail hadj hf

theorem Reach.head_cases {g : Grid} {a c : Location} {n : Nat} (h : Reach g a c n) :
    (a = c ∧ n = 0) ∨ ∃ b m, Adjacent a b ∧ Reach g b c m ∧ n = m + 1 := by
  induction h with
  | refl _ => exact Or.inl ⟨rfl, rfl⟩
  | @tail b c n hab hadj hf ih =>
    right
    rcases ih with ⟨h1, h2⟩ | ⟨b2, m, h1, h2, h3⟩
    · subst h1
      exact ⟨c, 0, hadj, Reach.refl hf, by omega⟩
    · exact ⟨b2, m + 1, h1, h2.tail hadj hf, by omega⟩

theorem Reach.tail_cases {g : Grid} {a c : Location} {n : Nat} (h : Reach g a c (n + 1)) :
    ∃ b, Reach g a b n ∧ Adjacent b c ∧ Free g c := by
  cases h with
  | tail hab hadj hf => exact ⟨_, hab, hadj, hf⟩

theorem exists_isDist {g : Grid} {a b : Location} {n : Nat} (h : Reach g a b n) :
    ∃ m, IsDist g a b m ∧ m ≤ n := by
  classical
  have hex : ∃ m, Reach g a b m := ⟨n, h⟩
  exact ⟨Nat.find hex, ⟨Nat.find_spec hex, fun m hm => Nat.find_min' hex hm⟩,
    Nat.find_min' hex h⟩

theorem IsDist.unique {g : Grid} {a b : Location} {n m : Nat} (h1 : IsDist g a b n)
    (h2 : IsDist g a b m) : n = m :=
  le_antisymm (h1.2 m h2.1) (h2.2 n h1.1)

theorem IsDist.self {g : Grid} {a : Location} (h : Free g a) : IsDist g a a 0 :=
  ⟨Reach.refl h, fun _ _ => Nat.zero_le _⟩

/-- The cell before the last on a shortest walk is at distance one less. -/
theorem IsDist.pred {g : Grid} {a c : Location} {n : Nat} (h : IsDist g a c (n + 1)) :
    ∃ b, IsDist g a b n ∧ Adjacent b c ∧ Free g c := by
  obtain ⟨b, hab, hadj, hf⟩ := h.1.tail_cases
  refine ⟨b, ⟨hab, ?_⟩, hadj, hf⟩
  intro m hm
  have := h.2 (m + 1) (hm.tail hadj hf)
  omega

theorem manhattan_triangle (a b c : Location) :
    manhattan a c ≤ manhattan a b + manhattan b c := by
  unfold manhattan
  omega

theorem Adjacent.symm {a b : Location} (h : Adjacent a b) : Adjacent b a := by
  unfold Adjacent at *
  omega

theorem Adjacent.ne {a b : Location} (h : Adjacent a b) : a ≠ b := by
  intro hab
  subst hab
  unfold Adjacent at h
  omega

/-! ## One relaxation -/

theorem touch_of_some (costs : LocMap Nat) (k : Location) (c : Nat) (h : costs k = some c) :
    costs.touch k 0 = costs := by
  unfold LocMap.touch
  rw [h]

theorem relax_improve (goal cur nb : Location) (st : SearchState) (c : Nat)
    (hc : st.costs cur = some c) (hb : c + 1 + manhattan nb goal < U32)
    (himp : ∀ old, st.costs nb = some old → c + 1 < old) :
    relax goal cur st nb =
      ⟨st.queue ++ [(c + 1 + manhattan nb goal, nb)], st.costs.set nb (c + 1),
        st.prev.set nb cur⟩ := by
  have h1 : (c + 1) % U32 = c + 1 := Nat.mod_eq_of_lt (by omega)
  have h2 : hx nb goal = manhattan nb goal := by
    rw [hx_eq_manhattan_mod]; exact Nat.mod_eq_of_lt (by omega)
  have h3 : (c + 1 + manhattan nb goal) % U32 = c + 1 + manhattan nb goal :=
    Nat.mod_eq_of_lt hb
  unfold relax
  dsimp only
  rw [touch_of_some st.costs cur c hc]
  simp only [LocMap.at, hc, Option.getD_some, h1, h2, h3]
  rw [if_pos]
  rw [Bool.or_eq_true]
  cases ho : st.costs nb with
  | none => left; simp [LocMap.count, ho]
  | some old => right; simpa using himp old ho

theorem relax_keep (goal cur nb : Location) (st : SearchState) (c old : Nat)
    (hc : st.costs cur = some c) (hb : c + 1 < U32)
    (ho : st.costs nb = some old) (hle : old ≤ c + 1) :
    relax goal cur st nb = st := by
  have h1 : (c + 1) % U32 = c + 1 := Nat.mod_eq_of_lt hb
  unfold relax
  dsimp only
  rw [touch_of_some st.costs cur c hc]
  simp only [LocMap.at, hc, Option.getD_some, h1, ho]
  rw [if_neg]
  simp [LocMap.count, ho]
  omega

theorem relax_searchInv (g : Grid) (start goal cur nb : Location) (c : Nat)
    (skip : Location → Prop) (hcur : IsDist g start cur c)
    (hbound : c + manhattan cur goal + 2 < U32) (hadj : Adjacent cur nb) (hfree : Free g nb)
    (st : SearchState) (hc : st.costs cur = some c) (h : SearchInv g start goal skip st) :
    SearchInv g start goal skip (relax goal cur st nb) ∧
      (relax goal cur st nb).costs cur = some c ∧
      (∃ c2, (relax goal cur st nb).costs nb = some c2 ∧ c2 ≤ c + 1) ∧
      (∀ w c1, st.costs w = some c1 →
        ∃ c2, (relax goal cur st nb).costs w = some c2 ∧ c2 ≤ c1) := by
  have hm := (manhattan_adjacent cur nb goal hadj).2
  have hreach : Reach g start nb (c + 1) := hcur.1.tail hadj hfree
  by_cases himp : ∀ old, st.costs nb = some old → c + 1 < old
  · -- the neighbour gets the cost `c + 1`
    rw [relax_improve goal cur nb st c hc (by omega) himp]
    have hne_cur : cur ≠ nb := by
      intro he
      have := himp c (he ▸ hc)
      omega
    have hne_start : start ≠ nb := by
      intro he
      have := himp 0 (he ▸ h.start_cost)
      omega
    have hset_ne : ∀ v, v ≠ nb → (st.costs.set nb (c + 1)) v = st.costs v := by
      intro v hv
      simp [LocMap.set, hv]
    have hset_eq : (st.costs.set nb (c + 1)) nb = some (c + 1) := by
      simp [LocMap.set]
    refine ⟨⟨?_, ?_, ?_, ?_, ?_⟩, ?_, ?_, ?_⟩
    · show (st.costs.set nb (c + 1)) start = some 0
      rw [hset_ne start hne_start]; exact h.start_cost
    · intro v cv hv
      change (st.costs.set nb (c + 1)) v = some cv at hv
      by_cases hvn : v = nb
      · subst hvn
        rw [hset_eq] at hv
        cases hv
        exact hreach
      · rw [hset_ne v hvn] at hv
        exact h.cost_reach v cv hv
    · intro e he
      change e ∈ st.queue ++ [(c + 1 + manhattan nb goal, nb)] at he
      show ∃ c2, (st.costs.set nb (c + 1)) e.2 = some c2 ∧ c2 + manhattan e.2 goal ≤ e.1
      rcases List.mem_append.1 he with he | he
      · obtain ⟨c2, h1, h2⟩ := h.queue_cost e he
        by_cases hen : e.2 = nb
        · rw [hen, hset_eq]
          rw [hen] at h1 h2
          have := himp c2 h1
          exact ⟨c + 1, rfl, by omega⟩
        · rw [hset_ne _ hen]
          exact ⟨c2, h1, h2⟩
      · rw [List.mem_singleton.1 he]
        exact ⟨c + 1, hset_eq, le_refl _⟩
    · intro v cv hv hvs
      change (st.costs.set nb (c + 1)) v = some cv at hv
      show ∃ p d, (st.prev.set nb cur) v = some p ∧ IsDist g start p d ∧
        (st.costs.set nb (c + 1)) p = some d ∧ cv = d + 1 ∧ Adjacent p v
      by_cases hvn : v = nb
      · subst hvn
        rw [hset_eq] at hv
        cases hv
        exact ⟨cur, c, by simp [LocMap.set], hcur, by rw [hset_ne cur hne_cur]; exact hc, rfl,
          hadj⟩
      · rw [hset_ne v hvn] at hv
        obtain ⟨p, d, h1, h2, h3, h4, h5⟩ := h.pred v cv hv hvs
        have hpn : p ≠ nb := by
          intro he
          subst he
          have := himp d h3
          have := h2.2 (c + 1) hreach
          omega
        exact ⟨p, d, by simp [LocMap.set, hvn, h1], h2, by rw [hset_ne p hpn]; exact h3, h4, h5⟩
    · intro v d hsk hv hd
      change (st.costs.set nb (c + 1)) v = some d at hv
      show (d + manhattan v goal, v) ∈ st.queue ++ [(c + 1 + manhattan nb goal, nb)] ∨
        (v ≠ goal ∧ ∀ w ∈ g.neighbours v, ∃ c2, (st.costs.set nb (c + 1)) w = some c2 ∧ c2 ≤ d + 1)
      by_cases hvn : v = nb
      · subst hvn
        rw [hset_eq] at hv
        cases hv
        left
        exact List.mem_append_right _ (List.mem_singleton.2 rfl)
      · rw [hset_ne v hvn] at hv
        rcases h.pending v d hsk hv hd with h1 | ⟨h1, h2⟩
        · left; exact List.mem_append_left _ h1
        · right
          refine ⟨h1, ?_⟩
          intro w hw
          obtain ⟨c2, h3, h4⟩ := h2 w hw
          by_cases hwn : w = nb
          · subst hwn
            rw [hset_eq]
            have := himp c2 h3
            exact ⟨c + 1, rfl, by omega⟩
          · rw [hset_ne w hwn]
            exact ⟨c2, h3, h4⟩
    · show (st.costs.set nb (c + 1)) cur = some c
      rw [hset_ne cur hne_cur]; exact hc
    · exact ⟨c + 1, hset_eq, le_refl _⟩
    · intro w c1 hw
      show ∃ c2, (st.costs.set nb (c + 1)) w = some c2 ∧ c2 ≤ c1
      by_cases hwn : w = nb
      · subst hwn
        rw [hset_eq]
        have := himp c1 hw
        exact ⟨c + 1, rfl, by omega⟩
      · rw [hset_ne w hwn]
        exact ⟨c1, hw, le_refl _⟩
  · -- the neighbour keeps its cost
    push_neg at himp
    obtain ⟨old, ho, hle⟩ := himp
    rw [relax_keep goal cur nb st c old hc (by omega) ho hle]
    exact ⟨h, hc, ⟨old, ho, hle⟩, fun w c1 hw => ⟨c1, hw, le_refl _⟩⟩

/-! ## The expansion of a cell keeps the invariant -/

theorem foldl_relax_searchInv (g : Grid) (start goal cur : Location) (c : Nat)
    (skip : Location → Prop) (hcur : IsDist g start cur c)
    (hbound : c + manhattan cur goal + 2 < U32) (l : List Location)
    (hl : ∀ nb ∈ l, Adjacent cur nb ∧ Free g nb) :
    ∀ st : SearchState, st.costs cur = some c → SearchInv g start goal skip st →
      SearchInv g start goal skip (l.foldl (relax goal cur) st) ∧
      (l.foldl (relax goal cur) st).costs cur = some c ∧
      (∀ w, (w ∈ l ∨ ∃ c1, st.costs w = some c1 ∧ c1 ≤ c + 1) →
        ∃ c2, (l.foldl (relax goal cur) st).costs w = some c2 ∧ c2 ≤ c + 1) := by
  induction l with
  | nil =>
    intro st hc h
    refine ⟨h, hc, ?_⟩
    rintro w (hw | hw)
    · cases hw
    · exact hw
  | cons nb l ih =>
    intro st hc h
    obtain ⟨hadj, hfree⟩ := hl nb (List.mem_cons_self _ _)
    obtain ⟨h1, h2, h3, h4⟩ :=
      relax_searchInv g start goal cur nb c skip hcur hbound hadj hfree st hc h
    obtain ⟨i1, i2, i3⟩ := ih (fun n hn => hl n (List.mem_cons_of_mem _ hn)) _ h2 h1
    rw [List.foldl_cons]
    refine ⟨i1, i2, ?_⟩
    rintro w (hw | ⟨c1, hw1, hw2⟩)
    · rcases List.mem_cons.1 hw with hw | hw
      · subst hw
        exact i3 w (Or.inr h3)
      · exact i3 w (Or.inl hw)
    · obtain ⟨c2, hc2, hle⟩ := h4 w c1 hw1
      exact i3 w (Or.inr ⟨c2, hc2, by omega⟩)

/-- A cell at distance `m` from `start` has the cost `m`, or a cell on a
shortest walk to it waits in the queue with its final cost. -/
theorem pending_exists (g : Grid) (hg : g.WF) (start goal : Location) (st : SearchState)
    (h : SearchInv g start goal (fun _ => False) st) :
    ∀ (m : Nat) (v : Location), IsDist g start v m →
      st.costs v = some m ∨ ∃ u i j, IsDist g start u i ∧ st.costs u = some i ∧
        (i + manhattan u goal, u) ∈ st.queue ∧ Reach g u v j ∧ i + j = m := by
  intro m
  induction m with
  | zero =>
    intro v hv
    rw [← hv.1.eq_of_zero]
    exact Or.inl h.start_cost
  | succ m ih =>
    intro v hv
    obtain ⟨b, hb, hadj, hf⟩ := hv.pred
    have hbf : Free g b := hb.1.free_right
    rcases ih b hb with hbc | ⟨u, i, j, h1, h2, h3, h4, h5⟩
    · rcases h.pending b m (fun hf => hf) hbc hb with hq | ⟨_, hn⟩
      · exact Or.inr ⟨b, m, 1, hb, hbc, hq, (Reach.refl hbf).tail hadj hf, rfl⟩
      · obtain ⟨c2, hc2, hle⟩ :=
          hn v ((mem_neighbours_iff g hg b v ⟨hbf.1, hbf.2.1⟩).2 ⟨hadj, hf⟩)
        have := hv.2 c2 (h.cost_reach v c2 hc2)
        left
        rw [hc2]
        congr 1
        omega
    · exact Or.inr ⟨u, i, j + 1, h1, h2, h3, h4.tail hadj hf, by omega⟩

theorem min_priority_le (g : Grid) (hg : g.WF) (start goal : Location) (st : SearchState)
    (h : SearchInv g start goal (fun _ => False) st) (k : Nat) (hd : IsDist g start goal k)
    (p : Nat) (hp : ∀ e2 ∈ st.queue, p ≤ e2.1) : p ≤ k := by
  rcases pending_exists g hg start goal st h k goal hd with hc | ⟨u, i, j, _, _, h3, h4, h5⟩
  · rcases h.pending goal k (fun hf => hf) hc hd with hq | ⟨hne, _⟩
    · have := hp _ hq
      rw [(manhattan_eq_zero goal goal).2 rfl] at this
      exact this
    · exact absurd rfl hne
  · have := hp _ h3
    have := h4.manhattan_le
    dsimp only at *
    omega

theorem popped_optimal (g : Grid) (hg : g.WF) (start goal : Location) (st : SearchState)
    (h : SearchInv g start goal (fun _ => False) st) (e : Entry)
    (hmin : ∀ e2 ∈ st.queue, e.1 ≤ e2.1) (c : Nat) (hc : st.costs e.2 = some c)
    (hle : c + manhattan e.2 goal ≤ e.1) : IsDist g start e.2 c := by
  have hreach := h.cost_reach e.2 c hc
  obtain ⟨m, hm, hmc⟩ := exists_isDist hreach
  rcases pending_exists g hg start goal st h m e.2 hm with hc2 | ⟨u, i, j, _, _, h3, h4, h5⟩
  · rw [hc] at hc2
    cases hc2
    exact hm
  · have h6 := hmin _ h3
    have h7 := h4.manhattan_le
    have h8 := manhattan_triangle u e.2 goal
    dsimp only at h6
    have : c = m := by omega
    rw [this]
    exact hm

theorem expand_searchInv (g : Grid) (hg : g.WF) (start goal : Location) (k : Nat)
    (hd : IsDist g start goal k) (hk : k + 2 < U32) (st : SearchState) (ch : Nat)
    (hq : st.queue ≠ []) (hne : (topEntry st.queue ch).2 ≠ goal)
    (h : SearchInv g start goal (fun _ => False) st) :
    SearchInv g start goal (fun _ => False)
      (expand g goal (topEntry st.queue ch).2 (topIdx st.queue ch) st) := by
  have hmem := topEntry_mem st.queue ch hq
  have hmin := topEntry_le st.queue ch hq
  obtain ⟨c, hc, hle⟩ := h.queue_cost _ hmem
  have hpk := min_priority_le g hg start goal st h k hd _ hmin
  have hopt := popped_optimal g hg start goal st h _ hmin c hc hle
  have hcf : Free g (topEntry st.queue ch).2 := hopt.1.free_right
  have hpre : SearchInv g start goal (fun v => v = (topEntry st.queue ch).2)
      ⟨st.queue.eraseIdx (topIdx st.queue ch), st.costs, st.prev⟩ := by
    refine ⟨h.start_cost, h.cost_reach, ?_, h.pred, ?_⟩
    · intro e he
      exact h.queue_cost e (List.mem_of_mem_eraseIdx he)
    · intro v d hv hvc hvd
      rcases h.pending v d (fun hf => hf) hvc hvd with h1 | h1
      · left
        apply mem_eraseIdx_of_ne st.queue _ (topIdx_lt st.queue ch hq) _ h1
        intro he
        apply hv
        have h2 := topEntry_eq st.queue ch hq
        rw [List.get_eq_getElem] at h2
        rw [h2, ← he]
      · exact Or.inr h1
  obtain ⟨i1, i2, i3⟩ := foldl_relax_searchInv g start goal (topEntry st.queue ch).2 c
    (fun v => v = (topEntry st.queue ch).2) hopt (by omega) (g.neighbours (topEntry st.queue ch).2)
    (fun nb hnb => (mem_neighbours_iff g hg _ nb ⟨hcf.1, hcf.2.1⟩).1 hnb)
    ⟨st.queue.eraseIdx (topIdx st.queue ch), st.costs, st.prev⟩ hc hpre
  unfold expand
  refine ⟨i1.start_cost, i1.cost_reach, i1.queue_cost, i1.pred, ?_⟩
  intro v d _ hvc hvd
  by_cases hv : v = (topEntry st.queue ch).2
  · right
    rw [hv]
    rw [hv, i2] at hvc
    cases hvc
    exact ⟨hne, fun w hw => i3 w (Or.inl hw)⟩
  · exact i1.pending v d hv hvc hvd

/-! ## The first iteration and the result of the search -/

theorem touch_touch (costs : LocMap Nat) (k : Location) :
    (costs.touch k 0).touch k 0 = costs.touch k 0 := by
  cases hk : costs k with
  | some c => rw [touch_of_some costs k c hk, touch_of_some costs k c hk]
  | none =>
    apply touch_of_some _ k 0
    rw [touch_apply]
    simp [hk]

theorem relax_touch (goal cur nb : Location) (q : List Entry) (costs : LocMap Nat)
    (prev : LocMap Location) :
    relax goal cur ⟨q, costs, prev⟩ nb = relax goal cur ⟨q, costs.touch cur 0, prev⟩ nb := by
  unfold relax
  dsimp only
  rw [touch_touch]

theorem topEntry_singleton (e : Entry) (ch : Nat) : topEntry [e] ch = e :=
  List.mem_singleton.1 (topEntry_mem [e] ch (List.cons_ne_nil _ _))

theorem topIdx_singleton (e : Entry) (ch : Nat) : topIdx [e] ch = 0 := by
  have := topIdx_lt [e] ch (List.cons_ne_nil _ _)
  simpa using this

theorem first_expand (g : Grid) (hg : g.WF) (start goal : Location) (k : Nat)
    (hne : start ≠ goal) (hd : IsDist g start goal k) (hk : k + 2 < U32) (i : Nat)
    (prev0 : LocMap Location) :
    SearchInv g start goal (fun _ => False)
      (expand g goal start i ⟨[], LocMap.empty, prev0⟩) := by
  have hs : Free g start := hd.1.free_left
  have hm := hd.1.manhattan_le
  have hnb : ∀ nb ∈ g.neighbours start, Adjacent start nb ∧ Free g nb :=
    fun nb h => (mem_neighbours_iff g hg _ nb ⟨hs.1, hs.2.1⟩).1 h
  have hpre : SearchInv g start goal (fun v => v = start)
      ⟨[], (LocMap.empty : LocMap Nat).touch start 0, prev0⟩ := by
    have hcost : ∀ v c, (LocMap.empty : LocMap Nat).touch start 0 v = some c →
        v = start ∧ c = 0 := by
      intro v c hv
      rw [touch_apply] at hv
      split at hv
      · next h1 => cases hv; exact ⟨h1.1, rfl⟩
      · cases hv
    refine ⟨by show (LocMap.empty : LocMap Nat).touch start 0 start = some 0
               rw [touch_apply]; simp [LocMap.empty], ?_, ?_, ?_, ?_⟩
    · intro v c hv
      obtain ⟨h1, h2⟩ := hcost v c hv
      rw [h1, h2]
      exact Reach.refl hs
    · intro e he; cases he
    · intro v c hv hvs
      exact absurd (hcost v c hv).1 hvs
    · intro v d hv hvc _
      exact absurd (hcost v d hvc).1 hv
  have hc0 : (LocMap.empty : LocMap Nat).touch start 0 start = some 0 := hpre.start_cost
  have hexp : expand g goal start i ⟨[], LocMap.empty, prev0⟩ =
      (g.neighbours start).foldl (relax goal start)
        ⟨[], (LocMap.empty : LocMap Nat).touch start 0, prev0⟩ := by
    unfold expand
    cases hl : g.neighbours start with
    | nil =>
      exfalso
      rcases hd.1.head_cases with ⟨h1, _⟩ | ⟨b, m, h1, h2, _⟩
      · exact hne h1
      · have : b ∈ g.neighbours start :=
          (mem_neighbours_iff g hg _ b ⟨hs.1, hs.2.1⟩).2 ⟨h1, h2.free_left⟩
        rw [hl] at this
        cases this
    | cons nb l =>
      rw [List.foldl_cons, List.foldl_cons]
      simp only [List.eraseIdx_nil]
      rw [relax_touch]
  obtain ⟨i1, i2, i3⟩ := foldl_relax_searchInv g start goal start 0 (fun v => v = start)
    (IsDist.self hs) (by omega) (g.neighbours start) hnb _ hc0 hpre
  rw [hexp]
  refine ⟨i1.start_cost, i1.cost_reach, i1.queue_cost, i1.pred, ?_⟩
  intro v d _ hvc hvd
  by_cases hv : v = start
  · right
    rw [hv]
    rw [hv, i2] at hvc
    cases hvc
    exact ⟨hne, fun w hw => i3 w (Or.inl hw)⟩
  · exact i1.pending v d hv hvc hvd

/-- When the loop of `a_search` returns, started from the initial state, the
invariant holds and the loop has stopped. -/
theorem a_search_loop_searchInv (g : Grid) (hg : g.WF) (start goal : Location) (k : Nat)
    (hne : start ≠ goal) (hd : IsDist g start goal k) (hk : k + 2 < U32) (fuel : Nat)
    (tie : Nat → Nat) (prev0 : LocMap Location) (st2 : SearchState)
    (h : a_search_loop g goal fuel tie ⟨[(0, start)], LocMap.empty, prev0⟩ = some st2) :
    SearchInv g start goal (fun _ => False) st2 ∧ Stopped goal st2 := by
  cases fuel with
  | zero => simp [a_search_loop] at h
  | succ n =>
    unfold a_search_loop at h
    rw [if_neg (by simp)] at h
    dsimp only at h
    have h1 : List.getD [((0 : Nat), start)] (topIdx [(0, start)] (tie 0)) default = (0, start) :=
      topEntry_singleton (0, start) (tie 0)
    rw [h1] at h
    dsimp only at h
    rw [if_pos ((Location.neq_iff _ _).2 hne)] at h
    have h2 : expand g goal start (topIdx [(0, start)] (tie 0)) ⟨[(0, start)], LocMap.empty, prev0⟩
        = expand g goal start 0 ⟨[], LocMap.empty, prev0⟩ := by
      rw [topIdx_singleton]
      rfl
    rw [h2] at h
    exact a_search_loop_invariant g goal (SearchInv g start goal (fun _ => False))
      (fun st ch hP hq hcur => expand_searchInv g hg start goal k hd hk st ch hq hcur hP)
      n _ _ st2 (first_expand g hg start goal k hne hd hk 0 prev0) h

theorem final_cost (g : Grid) (hg : g.WF) (start goal : Location) (k : Nat)
    (hd : IsDist g start goal k) (st : SearchState)
    (h : SearchInv g start goal (fun _ => False) st) (hstop : Stopped goal st) :
    st.costs goal = some k := by
  rcases pending_exists g hg start goal st h k goal hd with hc | ⟨u, i, j, _, _, h3, h4, h5⟩
  · exact hc
  · rcases hstop with h0 | ⟨e, he, het, hmin⟩
    · rw [h0] at h3; cases h3
    · obtain ⟨c, hc, hle⟩ := h.queue_cost e he
      rw [het] at hc hle
      have h6 := hmin _ h3
      have h7 := h4.manhattan_le
      have h8 := hd.2 c (h.cost_reach goal c hc)
      dsimp only at h6
      rw [hc]
      congr 1
      omega

/-- Claim C1, amended. For free cells `start != goal` of a grid such that the
length `k` of a shortest walk from `start` to `goal` satisfies `k + 2 < 2^32`,
`a_search` returns exactly `k`, whatever order the priority queue uses among
entries of equal priority (and given enough fuel). -/
theorem a_search_shortest (g : Grid) (start goal : Location) (k : Nat) (hg : g.WF)
    (hne : start ≠ goal) (hd : IsDist g start goal k) (hk : k + 2 < U32)
    (tie : Nat → Nat) (prev0 : LocMap Location) (fuel : Nat) (hfuel : searchFuel g ≤ fuel) :
    ∃ prev2, a_search fuel tie g start goal prev0 = some (k, prev2) := by
  rw [a_search_eq_loop fuel tie g start goal prev0 hd.1.free_left hd.1.free_right]
  obtain ⟨st2, hst2⟩ := a_search_loop_terminates g goal fuel tie ⟨[(0, start)], LocMap.empty, prev0⟩
    (lt_of_lt_of_le (searchMeasure_init g start prev0) hfuel)
  obtain ⟨hinv, hstop⟩ :=
    a_search_loop_searchInv g hg start goal k hne hd hk fuel tie prev0 st2 hst2
  refine ⟨st2.prev, ?_⟩
  rw [hst2]
  simp [LocMap.at, final_cost g hg start goal k hd st2 hinv hstop]

/-- Scenario A of the specification: on the empty 3 x 3 grid the search from
`(0, 0)` to `(2, 2)` returns 4. -/
theorem a_search_shortest_witness :
    ∃ prev2, a_search (searchFuel (Grid.new 3 3)) (fun _ => 0) (Grid.new 3 3) ⟨0, 0⟩ ⟨2, 2⟩
      LocMap.empty = some (4, prev2) :=
  a_search_shortest (Grid.new 3 3) ⟨0, 0⟩ ⟨2, 2⟩ 4 (by unfold Grid.WF U32; decide) (by decide)
    isDist_scenarioA (by unfold U32; decide) (fun _ => 0) LocMap.empty _ (le_refl _)

/-! ## The returned cost is an `unsigned int` -/

theorem relax_costBound (goal cur nb : Location) (st : SearchState) (h : CostBound st) :
    CostBound (relax goal cur st nb) := by
  have htouch : ∀ v c, st.costs.touch cur 0 v = some c → c < U32 := by
    intro v c hv
    rw [touch_apply] at hv
    split at hv
    · cases hv; unfold U32; decide
    · exact h v c hv
  unfold relax
  dsimp only
  split
  · intro v c hv
    simp only [LocMap.set] at hv
    split at hv
    · cases hv
      exact Nat.mod_lt _ (by unfold U32; decide)
    · exact htouch v c hv
  · exact htouch

theorem a_search_lt_U32 (fuel : Nat) (tie : Nat → Nat) (g : Grid) (start goal : Location)
    (prev0 : LocMap Location) (r : Nat × LocMap Location)
    (h : a_search fuel tie g start goal prev0 = some r) : r.1 < U32 := by
  unfold a_search at h
  split at h
  · cases h; show 0 < U32; unfold U32; decide
  · cases hl : a_search_loop g goal fuel tie ⟨[(0, start)], LocMap.empty, prev0⟩ with
    | none => rw [hl] at h; cases h
    | some st2 =>
      rw [hl] at h
      cases h
      have hinv := (a_search_loop_invariant g goal CostBound
        (fun st ch hP _ _ => by
          unfold expand
          exact foldl_relax_invariant goal _ CostBound _
            (fun st2 nb _ h2 => relax_costBound goal _ nb st2 h2) _ hP)
        fuel tie _ st2 (fun v c hv => by cases hv) hl).1
      show st2.costs.at goal 0 < U32
      unfold LocMap.at
      cases hc : st2.costs goal with
      | none => unfold U32; decide
      | some c => exact hinv goal c hc

theorem reach_east (g : Grid) (hw : g.walls = []) (x y : Nat) (hy : y < g.height) (n : Nat)
    (hx : x + n < g.width) : Reach g ⟨x, y⟩ ⟨x + n, y⟩ n := by
  induction n with
  | zero => exact Reach.refl ⟨hx, hy, by rw [hw]; simp⟩
  | succ n ih =>
    refine (ih (by omega)).tail ?_ ⟨hx, hy, by rw [hw]; simp⟩
    unfold Adjacent
    left
    exact ⟨rfl, Or.inl rfl⟩

theorem reach_south (g : Grid) (hw : g.walls = []) (x y : Nat) (hx : x < g.width) (n : Nat)
    (hy : y + n < g.height) : Reach g ⟨x, y⟩ ⟨x, y + n⟩ n := by
  induction n with
  | zero => exact Reach.refl ⟨hx, hy, by rw [hw]; simp⟩
  | succ n ih =>
    refine (ih (by omega)).tail ?_ ⟨hx, hy, by rw [hw]; simp⟩
    unfold Adjacent
    right
    exact ⟨rfl, Or.inl rfl⟩

/-- The input that refutes claim C1: on the empty grid of width `2^32 - 1` and
height 3 the shortest walk from `(0, 0)` to `(2^32 - 2, 2)` has `2^32` steps,
which is not an `unsigned int`, so `a_search` never returns it. -/
theorem a_search_overflow_counterexample :
    (Grid.new 4294967295 3).WF ∧ (⟨0, 0⟩ : Location) ≠ ⟨4294967294, 2⟩ ∧
      Free (Grid.new 4294967295 3) ⟨0, 0⟩ ∧ Free (Grid.new 4294967295 3) ⟨4294967294, 2⟩ ∧
      IsDist (Grid.new 4294967295 3) ⟨0, 0⟩ ⟨4294967294, 2⟩ 4294967296 ∧
      ∀ (fuel : Nat) (tie : Nat → Nat) (prev0 : LocMap Location) (r : Nat × LocMap Location),
        a_search fuel tie (Grid.new 4294967295 3) ⟨0, 0⟩ ⟨4294967294, 2⟩ prev0 = some r →
        r.1 ≠ 4294967296 := by
  refine ⟨by unfold Grid.WF U32 Grid.new; decide, by decide, by decide, by decide, ?_, ?_⟩
  · apply isDist_of_manhattan _ (by decide)
    have h1 := reach_east (Grid.new 4294967295 3) rfl 0 0 (by decide) 4294967294 (by decide)
    have h2 := reach_south (Grid.new 4294967295 3) rfl 4294967294 0 (by decide) 2 (by decide)
    exact h1.trans h2
  · intro fuel tie prev0 r h
    have := a_search_lt_U32 fuel tie _ _ _ prev0 r h
    unfold U32 at this
    omega

/-! ## Following the predecessor links -/

theorem IsDist.exists_at {g : Grid} {a : Location} (m : Nat) :
    ∀ b, IsDist g a b m → ∀ i, i ≤ m → ∃ v, IsDist g a v i := by
  induction m with
  | zero =>
    intro b h i hi
    have : i = 0 := by omega
    subst this
    exact ⟨b, h⟩
  | succ m ih =>
    intro b h i hi
    by_cases him : i = m + 1
    · subst him; exact ⟨b, h⟩
    · obtain ⟨b2, hb2, _, _⟩ := h.pred
      exact ih b2 hb2 i (by omega)

/-- A shortest walk visits fewer cells than the grid has. -/
theorem isDist_lt_cells (g : Grid) (a b : Location) (m : Nat) (h : IsDist g a b m) :
    m < g.width * g.height := by
  classical
  have hex : ∀ i : Fin (m + 1), ∃ v, IsDist g a v i.1 :=
    fun i => IsDist.exists_at m b h i.1 (by omega)
  choose f hf using hex
  have hfree : ∀ i, Free g (f i) := fun i => (hf i).1.free_right
  let F : Fin (m + 1) → Fin g.width × Fin g.height :=
    fun i => (⟨(f i).x, (hfree i).1⟩, ⟨(f i).y, (hfree i).2.1⟩)
  have hinj : Function.Injective F := by
    intro i j hij
    have h1 : (f i).x = (f j).x := congrArg (fun p => p.1.1) hij
    have h2 : (f i).y = (f j).y := congrArg (fun p => p.2.1) hij
    have h3 : f i = f j := by
      cases hi : f i; cases hj : f j
      rw [hi, hj] at h1 h2
      simp only at h1 h2
      rw [h1, h2]
    have h4 := hf i
    rw [h3] at h4
    exact Fin.ext (h4.unique (hf j))
  have := Fintype.card_le_of_injective F hinj
  simp only [Fintype.card_prod, Fintype.card_fin] at this
  omega

theorem touch_loc_of_some (m : LocMap Location) (k p : Location) (h : m k = some p) :
    m.touch k default = m := by
  unfold LocMap.touch
  rw [h]

theorem setEmplace_nodup (s : List Location) (v : Location) (h : s.Nodup) :
    (setEmplace s v).Nodup := by
  unfold setEmplace
  split
  · exact h
  · next hv =>
    rw [List.nodup_append]
    exact ⟨h, List.nodup_singleton v, by
      intro a ha hb
      rw [List.mem_singleton.1 hb] at ha
      exact hv ha⟩

theorem foldl_setEmplace_nodup (ws s : List Location) (h : s.Nodup) :
    (ws.foldl setEmplace s).Nodup := by
  induction ws generalizing s with
  | nil => exact h
  | cons w ws ih => exact ih _ (setEmplace_nodup s w h)

/-- From a cell with recorded cost `c` the predecessor links lead to `start` in
`c` steps along cells of decreasing cost; `get_track_loop` follows them. -/
theorem chain_exists (g : Grid) (start goal : Location) (st : SearchState)
    (h : SearchInv g start goal (fun _ => False) st) :
    ∀ (c : Nat) (v : Location), st.costs v = some c →
      ∃ path : List Location, path.length = c + 1 ∧ path.head? = some v ∧
        path.getLast? = some start ∧ List.Chain' (fun a b => Adjacent b a) path ∧
        (∀ w ∈ path, Free g w ∧ ∃ cw, st.costs w = some cw ∧ cw ≤ c) ∧ path.Nodup ∧
        ∀ (fuel : Nat) (track : List Location), c < fuel →
          get_track_loop start fuel v track st.prev =
            some (path.tail.foldl setEmplace track, st.prev) := by
  intro c
  induction c with
  | zero =>
    intro v hv
    have hvs : start = v := (h.cost_reach v 0 hv).eq_of_zero
    subst hvs
    refine ⟨[start], rfl, rfl, rfl, List.chain'_singleton _, ?_, List.nodup_singleton _, ?_⟩
    · intro w hw
      rw [List.mem_singleton.1 hw]
      exact ⟨(h.cost_reach start 0 hv).free_right, 0, hv, le_refl _⟩
    · intro fuel track hf
      obtain ⟨n, rfl⟩ : ∃ n, fuel = n + 1 := ⟨fuel - 1, by omega⟩
      unfold get_track_loop
      rw [Location.neq_self]
      rfl
  | succ c ih =>
    intro v hv
    have hvs : v ≠ start := by
      intro he
      rw [he, h.start_cost] at hv
      cases hv
    obtain ⟨p, d, h1, _, h3, h4, h5⟩ := h.pred v (c + 1) hv hvs
    have hdc : d = c := by omega
    subst hdc
    obtain ⟨path, p1, p2, p3, p4, p5, p6, p7⟩ := ih p h3
    obtain ⟨q, rfl⟩ : ∃ q, path = p :: q := by
      cases path with
      | nil => cases p2
      | cons a q =>
        simp only [List.head?_cons, Option.some.injEq] at p2
        exact ⟨q, by rw [p2]⟩
    refine ⟨v :: p :: q, by simp at p1 ⊢; omega, rfl, ?_, ?_, ?_, ?_, ?_⟩
    · rw [List.getLast?_cons_cons]; exact p3
    · exact List.Chain'.cons h5 p4
    · intro w hw
      rcases List.mem_cons.1 hw with hw | hw
      · rw [hw]
        exact ⟨(h.cost_reach v _ hv).free_right, d + 1, hv, le_refl _⟩
      · obtain ⟨f1, cw, f2, f3⟩ := p5 w hw
        exact ⟨f1, cw, f2, by omega⟩
    · rw [List.nodup_cons]
      refine ⟨?_, p6⟩
      intro hmem
      obtain ⟨_, cw, f2, f3⟩ := p5 v hmem
      rw [hv] at f2
      cases f2
      omega
    · intro fuel track hf
      obtain ⟨n, rfl⟩ : ∃ n, fuel = n + 1 := ⟨fuel - 1, by omega⟩
      unfold get_track_loop
      rw [(Location.neq_iff v start).2 hvs, if_pos rfl]
      dsimp only
      rw [touch_loc_of_some st.prev v p h1]
      simp only [LocMap.at, h1, Option.getD_some]
      rw [p7 n (setEmplace track p) (by omega)]
      rfl

/-! ## The track of a successful search -/

theorem a_search_some_cases (fuel : Nat) (tie : Nat → Nat) (g : Grid) (start goal : Location)
    (prev0 : LocMap Location) (c : Nat) (prev : LocMap Location)
    (h : a_search fuel tie g start goal prev0 = some (c, prev)) (hc : c ≠ 0) :
    Free g start ∧ Free g goal ∧ ∃ st2,
      a_search_loop g goal fuel tie ⟨[(0, start)], LocMap.empty, prev0⟩ = some st2 ∧
      st2.costs goal = some c ∧ st2.prev = prev := by
  by_cases hf : Free g start ∧ Free g goal
  · refine ⟨hf.1, hf.2, ?_⟩
    rw [a_search_eq_loop fuel tie g start goal prev0 hf.1 hf.2] at h
    cases hl : a_search_loop g goal fuel tie ⟨[(0, start)], LocMap.empty, prev0⟩ with
    | none => rw [hl] at h; cases h
    | some st2 =>
      rw [hl] at h
      simp only [Option.map_some', Option.some.injEq, Prod.mk.injEq] at h
      refine ⟨st2, rfl, ?_, h.2⟩
      have h1 := h.1
      unfold LocMap.at at h1
      cases hcg : st2.costs goal with
      | none => rw [hcg] at h1; exact absurd h1.symm hc
      | some c2 => rw [hcg] at h1; exact congrArg some h1
  · exfalso
    unfold a_search at h
    rw [if_pos] at h
    · cases h; exact hc rfl
    · rw [free_iff, free_iff] at hf
      simp only [Bool.or_eq_true, Bool.not_eq_true', ← Bool.not_eq_true]
      tauto

theorem track_of_search (g : Grid) (start goal : Location) (hg : g.WF) (hne : start ≠ goal)
    (hsmall : g.width * g.height + 1 < U32 ∨ ∃ n, Reach g start goal n ∧ n + 2 < U32)
    (fuel : Nat) (tie : Nat → Nat) (c : Nat) (prev : LocMap Location)
    (hs : a_search fuel tie g start goal LocMap.empty = some (c, prev)) (hc : c ≠ 0) :
    ∃ path : List Location, IsDist g start goal c ∧ path.length = c + 1 ∧
      path.head? = some goal ∧ path.getLast? = some start ∧
      List.Chain' (fun a b => Adjacent b a) path ∧ (∀ w ∈ path, Free g w) ∧ path.Nodup ∧
      ∀ fuel2, c < fuel2 → get_track fuel2 start goal prev =
        some (path.tail.foldl setEmplace [start, goal], prev) := by
  obtain ⟨hfs, _, st2, hl, hcg, hprev⟩ :=
    a_search_some_cases fuel tie g start goal LocMap.empty c prev hs hc
  have hinit : ReachInv g start LocMap.empty ⟨[(0, start)], LocMap.empty, LocMap.empty⟩ := by
    refine ⟨?_, ?_, ?_⟩
    · intro e he
      rw [List.mem_singleton.1 he]
      exact ⟨0, Reach.refl hfs⟩
    · intro v hv; exact absurd rfl hv
    · intro v hv; exact absurd rfl hv
  have hri := (a_search_loop_invariant g goal (ReachInv g start LocMap.empty)
    (fun st ch hP hq _ => expand_reachInv g hg start goal LocMap.empty st ch hq hP)
    fuel tie _ st2 hinit hl).1
  obtain ⟨n, hn⟩ := hri.2.1 goal (by rw [hcg]; simp)
  obtain ⟨k, hk, _⟩ := exists_isDist hn
  have hk2 : k + 2 < U32 := by
    rcases hsmall with h1 | ⟨n2, h1, h2⟩
    · have := isDist_lt_cells g start goal k hk
      omega
    · have := hk.2 n2 h1
      omega
  obtain ⟨hinv, hstop⟩ :=
    a_search_loop_searchInv g hg start goal k hne hk hk2 fuel tie LocMap.empty st2 hl
  have hfin := final_cost g hg start goal k hk st2 hinv hstop
  rw [hcg] at hfin
  cases hfin
  obtain ⟨path, p1, p2, p3, p4, p5, p6, p7⟩ := chain_exists g start goal st2 hinv c goal hcg
  refine ⟨path, hk, p1, p2, p3, p4, fun w hw => (p5 w hw).1, p6, ?_⟩
  intro fuel2 hf
  unfold get_track
  have h0 : setEmplace (setEmplace [] start) goal = [start, goal] := by
    simp [setEmplace, hne.symm]
  rw [h0, ← hprev]
  exact p7 fuel2 _ hf

theorem mem_track_iff (path : List Location) (start goal : Location)
    (hh : path.head? = some goal) (hl : path.getLast? = some start) (c : Location) :
    c ∈ path.tail.foldl setEmplace [start, goal] ↔ c ∈ path := by
  rw [mem_foldl_setEmplace]
  cases path with
  | nil => cases hh
  | cons a q =>
    simp only [List.head?_cons, Option.some.injEq] at hh
    subst hh
    have hs : start ∈ a :: q := List.mem_of_getLast?_eq_some hl
    simp only [List.tail_cons, List.mem_cons, List.mem_singleton, List.not_mem_nil, or_false]
    constructor
    · rintro ((h | h) | h)
      · rw [h]; exact List.mem_cons.1 hs
      · exact Or.inl h
      · exact Or.inr h
    · rintro (h | h)
      · exact Or.inl (Or.inr h)
      · exact Or.inr h

theorem walk_crosses_row (r : Nat) (p : List Location) (hch : List.Chain' Adjacent p) :
    ∀ a b, p.head? = some a → p.getLast? = some b → a.y < r → r < b.y →
      ∃ c ∈ p, c.y = r := by
  induction p with
  | nil => intro a b hh; cases hh
  | cons x q ih =>
    intro a b hh hl ha hb
    simp only [List.head?_cons, Option.some.injEq] at hh
    subst hh
    cases q with
    | nil =>
      simp only [List.getLast?_singleton, Option.some.injEq] at hl
      subst hl
      omega
    | cons y q2 =>
      rw [List.getLast?_cons_cons] at hl
      have hadj : Adjacent x y := (List.chain'_cons.1 hch).1
      by_cases hy : y.y = r
      · exact ⟨y, by simp, hy⟩
      · have hlt : y.y < r := by
          unfold Adjacent at hadj
          omega
        obtain ⟨c, hc, hcr⟩ := ih (List.chain'_cons.1 hch).2 y b rfl hl hlt hb
        exact ⟨c, List.mem_cons_of_mem _ hc, hcr⟩

/-- Claim C4, amended. For a grid with fewer than `2^32 - 1` cells (or in which
some walk from `start` to `goal` has fewer than `2^32 - 2` steps) and
`start != goal`: when `a_search`, called with an empty predecessor map, returns
a nonzero cost `c`, then `get_track` on the resulting map terminates (any fuel
above `c` is enough), leaves the map as it is and returns a set of exactly
`c + 1` distinct cells that contains `start` and `goal`. -/
theorem get_track_size (g : Grid) (start goal : Location) (hg : g.WF) (hne : start ≠ goal)
    (hsmall : g.width * g.height + 1 < U32 ∨ ∃ n, Reach g start goal n ∧ n + 2 < U32)
    (fuel : Nat) (tie : Nat → Nat) (c : Nat) (prev : LocMap Location)
    (hs : a_search fuel tie g start goal LocMap.empty = some (c, prev)) (hc : c ≠ 0)
    (fuel2 : Nat) (hf : c < fuel2) :
    ∃ track, get_track fuel2 start goal prev = some (track, prev) ∧
      track.length = c + 1 ∧ track.Nodup ∧ start ∈ track ∧ goal ∈ track := by
  obtain ⟨path, _, p1, p2, p3, _, _, p6, p7⟩ :=
    track_of_search g start goal hg hne hsmall fuel tie c prev hs hc
  have hmem := mem_track_iff path start goal p2 p3
  have hnd : (path.tail.foldl setEmplace [start, goal]).Nodup :=
    foldl_setEmplace_nodup _ _ (by simp [hne])
  refine ⟨_, p7 fuel2 hf, ?_, hnd, ?_, ?_⟩
  · rw [← p1]
    exact ((List.perm_ext_iff_of_nodup hnd p6).2 hmem).length_eq
  · exact (hmem start).2 (List.mem_of_getLast?_eq_some p3)
  · exact (hmem goal).2 (List.mem_of_mem_head? p2)

/-- Claim C5, amended. For a grid with fewer than `2^32 - 1` cells (or in which
some walk from `start` to `goal` has fewer than `2^32 - 2` steps) and
`start != goal`: when `a_search`, called with an empty predecessor map, returns
a nonzero cost, the set returned by `get_track` is the cell set of a walk from
`start` to `goal` whose consecutive cells are orthogonally adjacent and whose
cells are all inside the grid and not obstacles. In particular, on a 3 x 3
grid whose middle row is obstacles except for one gap, with `start = (0, 0)`
and `goal = (2, 2)`, the track contains the gap cell and no obstacle cell. -/
theorem get_track_walk (g : Grid) (start goal : Location) (hg : g.WF) (hne : start ≠ goal)
    (hsmall : g.width * g.height + 1 < U32 ∨ ∃ n, Reach g start goal n ∧ n + 2 < U32)
    (fuel : Nat) (tie : Nat → Nat) (c : Nat) (prev : LocMap Location)
    (hs : a_search fuel tie g start goal LocMap.empty = some (c, prev)) (hc : c ≠ 0)
    (fuel2 : Nat) (hf : c < fuel2) :
    ∃ track, get_track fuel2 start goal prev = some (track, prev) ∧
      (∃ walk : List Location, walk.head? = some start ∧ walk.getLast? = some goal ∧
        IsWalk g walk ∧ ∀ v, v ∈ track ↔ v ∈ walk) ∧
      (∀ v ∈ track, v ∉ g.walls) ∧
      (∀ gap : Location, g.width = 3 → g.height = 3 → start = ⟨0, 0⟩ → goal = ⟨2, 2⟩ →
        gap.y = 1 → (∀ x, x < 3 → x ≠ gap.x → (⟨x, 1⟩ : Location) ∈ g.walls) →
        gap ∈ track) := by
  obtain ⟨path, _, _, p2, p3, p4, p5, _, p7⟩ :=
    track_of_search g start goal hg hne hsmall fuel tie c prev hs hc
  have hmem := mem_track_iff path start goal p2 p3
  have hwalk : IsWalk g path.reverse := by
    refine ⟨?_, fun v hv => p5 v (List.mem_reverse.1 hv)⟩
    rw [List.chain'_reverse]
    exact p4
  have hhead : path.reverse.head? = some start := by rw [List.head?_reverse]; exact p3
  have hlast : path.reverse.getLast? = some goal := by rw [List.getLast?_reverse]; exact p2
  refine ⟨_, p7 fuel2 hf, ⟨path.reverse, hhead, hlast, hwalk, ?_⟩, ?_, ?_⟩
  · intro v
    rw [hmem, List.mem_reverse]
  · intro v hv
    exact (p5 v ((hmem v).1 hv)).2.2
  · intro gap hw _ hst hgo hgy hrow
    obtain ⟨v, hv, hvy⟩ := walk_crosses_row 1 path.reverse hwalk.1 start goal hhead hlast
      (by rw [hst]; decide) (by rw [hgo]; decide)
    have hvf := hwalk.2 v hv
    have hvx : v.x = gap.x := by
      by_contra hx
      have := hrow v.x (by have := hvf.1; omega) hx
      apply hvf.2.2
      have hveq : v = ⟨v.x, 1⟩ := by
        cases v
        simp only at hvy
        rw [hvy]
      rw [hveq]
      exact this
    have hveq : v = gap := by
      cases v; cases gap
      simp only at hvy hvx hgy
      rw [hvy, hvx, hgy]
    rw [← hveq, hmem]
    exact List.mem_reverse.1 hv

/-! ## The scenarios of the specification -/

theorem scenarioA_search :
    a_search 100 (fun _ => 0) (Grid.new 3 3) ⟨0, 0⟩ ⟨2, 2⟩ LocMap.empty =
      some (4, scenarioA_prev) := by
  rfl

theorem scenarioB_search :
    a_search 100 (fun _ => 0) scenarioB ⟨0, 0⟩ ⟨2, 2⟩ LocMap.empty =
      some (4, scenarioB_prev) := by
  rfl

/-- Scenario A of the specification: cost 4 and a track of 5 cells. -/
theorem get_track_size_witness :
    (get_track 5 ⟨0, 0⟩ ⟨2, 2⟩ scenarioA_prev).map (fun r => r.1) =
        some [⟨0, 0⟩, ⟨2, 2⟩, ⟨2, 1⟩, ⟨2, 0⟩, ⟨1, 0⟩] ∧
    ∃ track, get_track 5 ⟨0, 0⟩ ⟨2, 2⟩ scenarioA_prev = some (track, scenarioA_prev) ∧
      track.length = 4 + 1 ∧ track.Nodup ∧ (⟨0, 0⟩ : Location) ∈ track ∧
      (⟨2, 2⟩ : Location) ∈ track :=
  And.intro (by decide) <| get_track_size (Grid.new 3 3) ⟨0, 0⟩ ⟨2, 2⟩ (by unfold Grid.WF U32; decide) (by decide)
    (Or.inl (by decide)) 100 (fun _ => 0) 4 scenarioA_prev scenarioA_search (by decide) 5
    (by decide)

/-- Scenario B of the specification: the track passes through the gap. -/
theorem get_track_walk_witness :
    (get_track 5 ⟨0, 0⟩ ⟨2, 2⟩ scenarioB_prev).map (fun r => r.1) =
        some [⟨0, 0⟩, ⟨2, 2⟩, ⟨2, 1⟩, ⟨2, 0⟩, ⟨1, 0⟩] ∧
    ∃ track, get_track 5 ⟨0, 0⟩ ⟨2, 2⟩ scenarioB_prev = some (track, scenarioB_prev) ∧
      (∃ walk : List Location, walk.head? = some ⟨0, 0⟩ ∧ walk.getLast? = some ⟨2, 2⟩ ∧
        IsWalk scenarioB walk ∧ ∀ v, v ∈ track ↔ v ∈ walk) ∧
      (∀ v ∈ track, v ∉ scenarioB.walls) ∧
      (∀ gap : Location, scenarioB.width = 3 → scenarioB.height = 3 →
        (⟨0, 0⟩ : Location) = ⟨0, 0⟩ → (⟨2, 2⟩ : Location) = ⟨2, 2⟩ →
        gap.y = 1 → (∀ x, x < 3 → x ≠ gap.x → (⟨x, 1⟩ : Location) ∈ scenarioB.walls) →
        gap ∈ track) :=
  And.intro (by decide) <| get_track_walk scenarioB ⟨0, 0⟩ ⟨2, 2⟩ (by unfold Grid.WF U32; decide) (by decide)
    (Or.inl (by decide)) 100 (fun _ => 0) 4 scenarioB_prev scenarioB_search (by decide) 5
    (by decide)

/-! ## A search in which the cost wraps around

On the grid `corridor` the corridor from `(0, 0)` to `(2^32 - 3, 2)` has
`2^32 + 1` cells after the first, so the 32-bit cost wraps on the way. -/

theorem mem_corridor_walls (v : Location) :
    v ∈ corridor.walls ↔ v.y = 1 ∧ v.x < 4294967294 := by
  unfold corridor
  rw [mem_setWalls]
  obtain ⟨vx, vy⟩ := v
  simp only [Grid.new, List.not_mem_nil, false_or, List.mem_map, List.mem_range,
    Location.mk.injEq]
  constructor
  · rintro ⟨a, h1, h2, h3⟩
    omega
  · rintro ⟨h1, h2⟩
    exact ⟨vx, h2, rfl, h1.symm⟩

theorem free_corridor_iff (v : Location) :
    Free corridor v ↔ v.x < 4294967295 ∧ v.y < 3 ∧ ¬ (v.y = 1 ∧ v.x < 4294967294) := by
  unfold Free
  rw [mem_corridor_walls]
  rfl

theorem corridor_wf : corridor.WF := by
  unfold Grid.WF U32
  exact ⟨by show 4294967295 < 4294967296; decide, by show 3 < 4294967296; decide⟩

theorem neighbours_eq_filter_free (g : Grid) (c : Location) :
    g.neighbours c = (potential c).filter (fun l => decide (Free g l)) := by
  unfold Grid.neighbours
  apply List.filter_congr
  intro l _
  by_cases h : Free g l
  · rw [decide_eq_true h]
    exact Bool.and_eq_true_iff.2 ((free_iff g l).1 h)
  · rw [decide_eq_false h]
    rw [free_iff] at h
    cases h1 : g.within l <;> cases h2 : g.operational l <;> simp_all

theorem filter_free4 (g : Grid) (a b c d : Location) :
    [a, b, c, d].filter (fun l => decide (Free g l)) =
      (if Free g a then [a] else []) ++ (if Free g b then [b] else []) ++
      (if Free g c then [c] else []) ++ (if Free g d then [d] else []) := by
  simp only [List.filter_cons, List.filter_nil, decide_eq_true_eq]
  split_ifs <;> rfl

theorem corridor_neighbours_first : corridor.neighbours ⟨0, 0⟩ = [⟨1, 0⟩] := by
  rw [neighbours_eq_filter_free]
  unfold potential
  rw [filter_free4]
  simp only [free_corridor_iff, U32]
  norm_num

theorem corridor_neighbours_row0 (j : Nat) (h1 : 1 ≤ j) (h2 : j ≤ 4294967293) :
    corridor.neighbours ⟨j, 0⟩ = [⟨j + 1, 0⟩, ⟨j - 1, 0⟩] := by
  rw [neighbours_eq_filter_free]
  unfold potential
  have e1 : (j + 1) % U32 = j + 1 := by unfold U32; omega
  have e2 : (j + (U32 - 1)) % U32 = j - 1 := by unfold U32; omega
  have f1 : Free corridor ⟨j + 1, 0⟩ := by
    rw [free_corridor_iff]; dsimp only; omega
  have f2 : ¬ Free corridor ⟨j, (0 + 1) % U32⟩ := by
    rw [free_corridor_iff]; unfold U32; dsimp only; omega
  have f3 : Free corridor ⟨j - 1, 0⟩ := by
    rw [free_corridor_iff]; dsimp only; omega
  have f4 : ¬ Free corridor ⟨j, (0 + (U32 - 1)) % U32⟩ := by
    rw [free_corridor_iff]; unfold U32; dsimp only; omega
  rw [e1, e2, filter_free4, if_pos f1, if_neg f2, if_pos f3, if_neg f4]
  rfl

theorem corridor_neighbours_a :
    corridor.neighbours ⟨4294967294, 0⟩ = [⟨4294967294, 1⟩, ⟨4294967293, 0⟩] := by
  rw [neighbours_eq_filter_free]
  unfold potential
  rw [filter_free4]
  simp only [free_corridor_iff, U32]
  norm_num

theorem corridor_neighbours_b :
    corridor.neighbours ⟨4294967294, 1⟩ = [⟨4294967294, 2⟩, ⟨4294967294, 0⟩] := by
  rw [neighbours_eq_filter_free]
  unfold potential
  rw [filter_free4]
  simp only [free_corridor_iff, U32]
  norm_num

theorem corridor_neighbours_c :
    corridor.neighbours ⟨4294967294, 2⟩ = [⟨4294967293, 2⟩, ⟨4294967294, 1⟩] := by
  rw [neighbours_eq_filter_free]
  unfold potential
  rw [filter_free4]
  simp only [free_corridor_iff, U32]
  norm_num

theorem relax_improve_mod (goal cur nb : Location) (st : SearchState) (c : Nat)
    (hc : st.costs cur = some c) (himp : ∀ old, st.costs nb = some old → (c + 1) % U32 < old) :
    relax goal cur st nb =
      ⟨st.queue ++ [(((c + 1) % U32 + hx nb goal) % U32, nb)], st.costs.set nb ((c + 1) % U32),
        st.prev.set nb cur⟩ := by
  unfold relax
  dsimp only
  rw [touch_of_some st.costs cur c hc]
  simp only [LocMap.at, hc, Option.getD_some]
  rw [if_pos]
  rw [Bool.or_eq_true]
  cases ho : st.costs nb with
  | none => left; simp [LocMap.count, ho]
  | some old => right; simpa using himp old ho

theorem relax_keep_mod (goal cur nb : Location) (st : SearchState) (c old : Nat)
    (hc : st.costs cur = some c) (ho : st.costs nb = some old) (hle : old ≤ (c + 1) % U32) :
    relax goal cur st nb = st := by
  unfold relax
  dsimp only
  rw [touch_of_some st.costs cur c hc]
  simp only [LocMap.at, hc, Option.getD_some, ho]
  rw [if_neg]
  simp [LocMap.count, ho]
  omega

theorem a_search_loop_step (g : Grid) (goal : Location) (fuel : Nat) (tie : Nat → Nat)
    (st : SearchState) (hq : st.queue ≠ []) (hne : (topEntry st.queue (tie 0)).2 ≠ goal) :
    a_search_loop g goal (fuel + 1) tie st =
      a_search_loop g goal fuel (fun k => tie (k + 1))
        (expand g goal (topEntry st.queue (tie 0)).2 (topIdx st.queue (tie 0)) st) := by
  rw [a_search_loop]
  rw [if_neg (by rw [List.isEmpty_iff]; exact hq)]
  dsimp only
  have : (st.queue.getD (topIdx st.queue (tie 0)) default).2.neq goal = true :=
    (Location.neq_iff _ _).2 hne
  rw [if_pos this]
  rfl

theorem a_search_loop_stop (g : Grid) (goal : Location) (fuel : Nat) (tie : Nat → Nat)
    (st : SearchState) (hq : st.queue ≠ []) (he : (topEntry st.queue (tie 0)).2 = goal) :
    a_search_loop g goal (fuel + 1) tie st = some st := by
  rw [a_search_loop]
  rw [if_neg (by rw [List.isEmpty_iff]; exact hq)]
  dsimp only
  have : ¬ (st.queue.getD (topIdx st.queue (tie 0)) default).2.neq goal = true := by
    rw [Location.neq_iff]
    exact fun h => h he
  rw [if_neg this]

theorem topIdx_eq_of_unique (q : List Entry) (ch i : Nat) (hi : i < q.length)
    (hmin : ∀ j (hj : j < q.length), j ≠ i → (q.get ⟨i, hi⟩).1 < (q.get ⟨j, hj⟩).1) :
    topIdx q ch = i := by
  have hq : q ≠ [] := by
    intro h
    rw [h] at hi
    cases hi
  by_contra hne
  have h1 := topEntry_le q ch hq (q.get ⟨i, hi⟩) (List.get_mem _ _ _)
  rw [topEntry_eq q ch hq] at h1
  have h2 := hmin (topIdx q ch) (topIdx_lt q ch hq) hne
  omega

theorem set_apply {α : Type} (m : LocMap α) (k : Location) (v : α) (l : Location) :
    (m.set k v) l = if l = k then some v else m l := rfl

theorem corridor_step (j : Nat) (h1 : 1 ≤ j) (h2 : j ≤ 4294967293) (st : SearchState)
    (h : CorridorPhase j st) :
    CorridorPhase (j + 1) (expand corridor corridorGoal ⟨j, 0⟩ 0 st) := by
  obtain ⟨⟨p, hq⟩, hc, hp⟩ := h
  unfold expand
  rw [hq, corridor_neighbours_row0 j h1 h2]
  simp only [List.eraseIdx_cons_zero, List.foldl_cons, List.foldl_nil]
  have e1 : (j + 1) % U32 = j + 1 := by unfold U32; omega
  have hcur : st.costs ⟨j, 0⟩ = some j := by rw [hc]; simp
  have hnb : st.costs ⟨j + 1, 0⟩ = none := by rw [hc]; simp
  rw [relax_improve_mod corridorGoal ⟨j, 0⟩ ⟨j + 1, 0⟩ ⟨[], st.costs, st.prev⟩ j hcur
    (by intro old ho; rw [hnb] at ho; cases ho)]
  rw [relax_keep_mod corridorGoal ⟨j, 0⟩ ⟨j - 1, 0⟩ _ j (j - 1)
    (by dsimp only; rw [set_apply, if_neg (by simp), hcur])
    (by dsimp only; rw [set_apply, if_neg (by simp), hc]; simp)
    (by rw [e1]; omega)]
  refine ⟨⟨_, rfl⟩, ?_, ?_⟩
  · intro v
    obtain ⟨vx, vy⟩ := v
    simp only [set_apply, hc, e1, Location.mk.injEq]
    split_ifs <;> first | rfl | (exfalso; omega) | (congr 1; omega)
  · intro v
    obtain ⟨vx, vy⟩ := v
    simp only [set_apply, hp, Location.mk.injEq]
    split_ifs <;> first | rfl | (exfalso; omega) | (congr 2; omega)

theorem corridor_run (n : Nat) :
    ∀ (j : Nat) (st : SearchState) (tie : Nat → Nat), 1 ≤ j → j + n ≤ 4294967294 →
      CorridorPhase j st →
      ∃ st2, CorridorPhase (j + n) st2 ∧
        ∀ fuel, a_search_loop corridor corridorGoal (fuel + n) tie st =
          a_search_loop corridor corridorGoal fuel (fun k => tie (k + n)) st2 := by
  induction n with
  | zero =>
    intro j st tie _ _ h
    exact ⟨st, h, fun fuel => rfl⟩
  | succ n ih =>
    intro j st tie h1 h2 h
    obtain ⟨p, hq⟩ := h.1
    have htop : topEntry st.queue (tie 0) = (p, ⟨j, 0⟩) := by
      rw [hq]; exact topEntry_singleton _ _
    have hidx : topIdx st.queue (tie 0) = 0 := by
      rw [hq]; exact topIdx_singleton _ _
    obtain ⟨st2, i1, i2⟩ := ih (j + 1) (expand corridor corridorGoal ⟨j, 0⟩ 0 st)
      (fun k => tie (k + 1)) (by omega) (by omega) (corridor_step j h1 (by omega) st h)
    refine ⟨st2, by rw [show j + (n + 1) = j + 1 + n by omega]; exact i1, ?_⟩
    intro fuel
    rw [show fuel + (n + 1) = (fuel + n) + 1 by omega]
    rw [a_search_loop_step corridor corridorGoal (fuel + n) tie st (by rw [hq]; simp)
      (by rw [htop]; unfold corridorGoal; simp)]
    rw [htop, hidx]
    exact i2 fuel

theorem corridor_first (tie : Nat → Nat) (fuel : Nat) :
    ∃ st1, CorridorPhase 1 st1 ∧
      a_search_loop corridor corridorGoal (fuel + 1) tie
          ⟨[(0, ⟨0, 0⟩)], LocMap.empty, LocMap.empty⟩ =
        a_search_loop corridor corridorGoal fuel (fun k => tie (k + 1)) st1 := by
  refine ⟨expand corridor corridorGoal ⟨0, 0⟩ 0 ⟨[(0, ⟨0, 0⟩)], LocMap.empty, LocMap.empty⟩,
    ?_, ?_⟩
  · unfold expand
    rw [corridor_neighbours_first]
    simp only [List.eraseIdx_cons_zero, List.foldl_cons, List.foldl_nil]
    rw [relax_touch]
    have hcur : (LocMap.empty : LocMap Nat).touch ⟨0, 0⟩ 0 ⟨0, 0⟩ = some 0 := by
      rw [touch_apply]; simp [LocMap.empty]
    have hnb : (LocMap.empty : LocMap Nat).touch ⟨0, 0⟩ 0 ⟨1, 0⟩ = none := by
      rw [touch_apply]; simp [LocMap.empty]
    rw [relax_improve_mod corridorGoal ⟨0, 0⟩ ⟨1, 0⟩ _ 0 hcur
      (by intro old ho; dsimp only at ho; rw [hnb] at ho; cases ho)]
    refine ⟨⟨_, rfl⟩, ?_, ?_⟩
    · intro v
      obtain ⟨vx, vy⟩ := v
      simp only [set_apply, touch_apply, LocMap.empty, Location.mk.injEq, U32, and_true]
      split_ifs <;> first | rfl | (exfalso; omega) | (congr 1; omega)
    · intro v
      obtain ⟨vx, vy⟩ := v
      simp only [set_apply, LocMap.empty, Location.mk.injEq]
      split_ifs <;> first | rfl | (exfalso; omega) | (congr 2; omega)
  · rw [a_search_loop_step corridor corridorGoal fuel tie _ (by simp)
      (by rw [topEntry_singleton]; unfold corridorGoal; simp)]
    rw [topEntry_singleton, topIdx_singleton]

/-- Expansion of `(2^32 - 2, 0)`, the last cell of row 0: the cell below it
gets the cost `2^32 - 1`. -/
theorem corridor_expand_a (costs : LocMap Nat) (prev : LocMap Location) (p : Nat)
    (h1 : costs ⟨4294967294, 0⟩ = some 4294967294) (h2 : costs ⟨4294967294, 1⟩ = none)
    (h3 : costs ⟨4294967293, 0⟩ = some 4294967293) :
    expand corridor corridorGoal ⟨4294967294, 0⟩ 0 ⟨[(p, ⟨4294967294, 0⟩)], costs, prev⟩ =
      ⟨[(1, ⟨4294967294, 1⟩)], costs.set ⟨4294967294, 1⟩ 4294967295,
        prev.set ⟨4294967294, 1⟩ ⟨4294967294, 0⟩⟩ := by
  unfold expand
  rw [corridor_neighbours_a]
  simp only [List.eraseIdx_cons_zero, List.foldl_cons, List.foldl_nil]
  rw [relax_improve_mod corridorGoal ⟨4294967294, 0⟩ ⟨4294967294, 1⟩ ⟨[], costs, prev⟩
    4294967294 h1 (by intro old ho; dsimp only at ho; rw [h2] at ho; cases ho)]
  rw [relax_keep_mod corridorGoal ⟨4294967294, 0⟩ ⟨4294967293, 0⟩ _ 4294967294 4294967293
    (by dsimp only; rw [set_apply, if_neg (by decide), h1])
    (by dsimp only; rw [set_apply, if_neg (by decide), h3])
    (by unfold U32; decide)]
  rfl

/-- Expansion of `(2^32 - 2, 1)`, whose cost is `2^32 - 1`: the cost of its
neighbours wraps to 0, which also replaces the cost of the cell above it. -/
theorem corridor_expand_b (costs : LocMap Nat) (prev : LocMap Location) (p : Nat)
    (h1 : costs ⟨4294967294, 1⟩ = some 4294967295) (h2 : costs ⟨4294967294, 2⟩ = none)
    (h3 : costs ⟨4294967294, 0⟩ = some 4294967294) :
    expand corridor corridorGoal ⟨4294967294, 1⟩ 0 ⟨[(p, ⟨4294967294, 1⟩)], costs, prev⟩ =
      ⟨[(1, ⟨4294967294, 2⟩), (3, ⟨4294967294, 0⟩)],
        (costs.set ⟨4294967294, 2⟩ 0).set ⟨4294967294, 0⟩ 0,
        (prev.set ⟨4294967294, 2⟩ ⟨4294967294, 1⟩).set ⟨4294967294, 0⟩ ⟨4294967294, 1⟩⟩ := by
  unfold expand
  rw [corridor_neighbours_b]
  simp only [List.eraseIdx_cons_zero, List.foldl_cons, List.foldl_nil]
  rw [relax_improve_mod corridorGoal ⟨4294967294, 1⟩ ⟨4294967294, 2⟩ ⟨[], costs, prev⟩
    4294967295 h1 (by intro old ho; dsimp only at ho; rw [h2] at ho; cases ho)]
  rw [relax_improve_mod corridorGoal ⟨4294967294, 1⟩ ⟨4294967294, 0⟩ _ 4294967295
    (by dsimp only; rw [set_apply, if_neg (by decide), h1])
    (by
      intro old ho
      dsimp only at ho
      rw [set_apply, if_neg (by decide), h3] at ho
      cases ho
      unfold U32
      decide)]
  rfl

/-- Expansion of `(2^32 - 2, 2)`, whose cost wrapped to 0: the goal gets the
cost 1, and so does the cell above, which becomes its own predecessor's
predecessor. -/
theorem corridor_expand_c (costs : LocMap Nat) (prev : LocMap Location) (q : List Entry)
    (h1 : costs ⟨4294967294, 2⟩ = some 0) (h2 : costs corridorGoal = none)
    (h3 : costs ⟨4294967294, 1⟩ = some 4294967295) :
    expand corridor corridorGoal ⟨4294967294, 2⟩ 0 ⟨(1, ⟨4294967294, 2⟩) :: q, costs, prev⟩ =
      ⟨q ++ [(1, corridorGoal), (3, ⟨4294967294, 1⟩)],
        (costs.set corridorGoal 1).set ⟨4294967294, 1⟩ 1,
        (prev.set corridorGoal ⟨4294967294, 2⟩).set ⟨4294967294, 1⟩ ⟨4294967294, 2⟩⟩ := by
  unfold expand
  rw [corridor_neighbours_c]
  simp only [List.eraseIdx_cons_zero, List.foldl_cons, List.foldl_nil]
  rw [relax_improve_mod corridorGoal ⟨4294967294, 2⟩ ⟨4294967293, 2⟩ ⟨q, costs, prev⟩
    0 h1 (by intro old ho; dsimp only at ho; rw [show (⟨4294967293, 2⟩ : Location) = corridorGoal from rfl, h2] at ho; cases ho)]
  rw [relax_improve_mod corridorGoal ⟨4294967294, 2⟩ ⟨4294967294, 1⟩ _ 0
    (by dsimp only; rw [set_apply, if_neg (by decide), h1])
    (by
      intro old ho
      dsimp only at ho
      rw [set_apply, if_neg (by decide), h3] at ho
      cases ho
      unfold U32
      decide)]
  simp only [List.append_assoc, List.singleton_append]
  rfl

theorem corridor_final (st : SearchState) (h : CorridorPhase 4294967294 st) (tie : Nat → Nat)
    (fuel : Nat) :
    ∃ st2, a_search_loop corridor corridorGoal (fuel + 4) tie st = some st2 ∧
      st2.costs corridorGoal = some 1 ∧ st2.prev corridorGoal = some ⟨4294967294, 2⟩ ∧
      st2.prev ⟨4294967294, 2⟩ = some ⟨4294967294, 1⟩ ∧
      st2.prev ⟨4294967294, 1⟩ = some ⟨4294967294, 2⟩ := by
  obtain ⟨⟨p, hq⟩, hc, _⟩ := h
  obtain ⟨q, costs, prev⟩ := st
  simp only at hq hc
  subst hq
  have c1 : costs ⟨4294967294, 0⟩ = some 4294967294 := by rw [hc]; simp
  have c2 : costs ⟨4294967294, 1⟩ = none := by rw [hc]; simp
  have c3 : costs ⟨4294967293, 0⟩ = some 4294967293 := by rw [hc]; simp
  have c4 : costs ⟨4294967294, 2⟩ = none := by rw [hc]; simp
  have c5 : costs corridorGoal = none := by rw [hc]; simp [corridorGoal]
  -- the last cell of row 0
  rw [show fuel + 4 = fuel + 3 + 1 from rfl]
  rw [a_search_loop_step corridor corridorGoal (fuel + 3) tie _ (by simp)
    (by dsimp only; rw [topEntry_singleton]; unfold corridorGoal; simp)]
  dsimp only
  rw [topEntry_singleton, topIdx_singleton, corridor_expand_a costs prev p c1 c2 c3]
  -- the cell below it
  rw [show fuel + 3 = fuel + 2 + 1 from rfl]
  rw [a_search_loop_step corridor corridorGoal (fuel + 2) _ _ (by simp)
    (by dsimp only; rw [topEntry_singleton]; unfold corridorGoal; simp)]
  dsimp only
  rw [topEntry_singleton, topIdx_singleton, corridor_expand_b _ _ 1
    (by rw [set_apply, if_pos rfl])
    (by rw [set_apply, if_neg (by decide), c4])
    (by rw [set_apply, if_neg (by decide), c1])]
  -- the last cell of row 2
  have hidx : ∀ ch, topIdx [((1 : Nat), (⟨4294967294, 2⟩ : Location)), (3, ⟨4294967294, 0⟩)] ch
      = 0 := by
    intro ch
    apply topIdx_eq_of_unique _ ch 0 (by simp)
    intro j hj hne
    have hj1 : j = 1 := by
      simp only [List.length_cons, List.length_nil] at hj
      omega
    subst hj1
    show (1 : Nat) < 3
    decide
  rw [show fuel + 2 = fuel + 1 + 1 from rfl]
  rw [a_search_loop_step corridor corridorGoal (fuel + 1) _ _ (by simp)
    (by dsimp only; unfold topEntry; rw [hidx]; unfold corridorGoal; simp)]
  dsimp only
  unfold topEntry
  rw [hidx]
  simp only [List.getD_cons_zero]
  rw [corridor_expand_c _ _ [(3, ⟨4294967294, 0⟩)]
    (by rw [set_apply, if_neg (by decide), set_apply, if_pos rfl])
    (by rw [set_apply, if_neg (by decide), set_apply, if_neg (by decide), set_apply,
      if_neg (by decide), c5])
    (by rw [set_apply, if_neg (by decide), set_apply, if_neg (by decide), set_apply,
      if_pos rfl])]
  -- the goal is on top
  have hidx2 : ∀ ch, topIdx ([((3 : Nat), (⟨4294967294, 0⟩ : Location))] ++
      [(1, corridorGoal), (3, ⟨4294967294, 1⟩)]) ch = 1 := by
    intro ch
    apply topIdx_eq_of_unique _ ch 1 (by simp)
    intro j hj hne
    have hj1 : j = 0 ∨ j = 2 := by
      simp only [List.length_cons, List.length_nil, List.length_append] at hj
      omega
    rcases hj1 with hj1 | hj1 <;> subst hj1
    · show (1 : Nat) < 3
      decide
    · show (1 : Nat) < 3
      decide
  rw [a_search_loop_stop corridor corridorGoal fuel _ _ (by simp)
    (by dsimp only; unfold topEntry; rw [hidx2]; rfl)]
  refine ⟨_, rfl, ?_, ?_, ?_, ?_⟩
  · dsimp only
    rw [set_apply, if_neg (by decide), set_apply, if_pos rfl]
  · dsimp only
    rw [set_apply, if_neg (by decide), set_apply, if_pos rfl]
  · dsimp only
    rw [set_apply, if_neg (by decide), set_apply, if_neg (by decide), set_apply,
      if_neg (by decide), set_apply, if_pos rfl]
  · dsimp only
    rw [set_apply, if_pos rfl]

/-- On `corridor` the search from `(0, 0)` to `corridorGoal` returns the cost 1
and leaves a predecessor map in which the two cells before the goal point to
each other. -/
theorem corridor_search (tie : Nat → Nat) (fuel : Nat) (hfuel : 4294967298 ≤ fuel) :
    ∃ prev, a_search fuel tie corridor ⟨0, 0⟩ corridorGoal LocMap.empty = some (1, prev) ∧
      prev corridorGoal = some ⟨4294967294, 2⟩ ∧
      prev ⟨4294967294, 2⟩ = some ⟨4294967294, 1⟩ ∧
      prev ⟨4294967294, 1⟩ = some ⟨4294967294, 2⟩ := by
  obtain ⟨f, rfl⟩ : ∃ f, fuel = f + 4 + 4294967293 + 1 := ⟨fuel - 4294967298, by omega⟩
  rw [a_search_eq_loop _ tie corridor ⟨0, 0⟩ corridorGoal LocMap.empty
    (by rw [free_corridor_iff]; decide) (by rw [free_corridor_iff]; decide)]
  obtain ⟨st1, h1, e1⟩ := corridor_first tie (f + 4 + 4294967293)
  obtain ⟨st2, h2, e2⟩ := corridor_run 4294967293 1 st1 (fun k => tie (k + 1)) (le_refl _)
    (by decide) h1
  obtain ⟨st3, e3, r1, r2, r3, r4⟩ := corridor_final st2 h2
    (fun k => tie (k + 4294967293 + 1)) f
  rw [e1, e2 (f + 4), e3]
  exact ⟨st3.prev, by simp [LocMap.at, r1], r2, r3, r4⟩

theorem get_track_loop_cycle (start b c : Location) (m : LocMap Location)
    (hb : m b = some c) (hc : m c = some b) (hbs : b ≠ start) (hcs : c ≠ start) :
    ∀ (fuel : Nat) (cur : Location) (track : List Location), cur = b ∨ cur = c →
      get_track_loop start fuel cur track m = none := by
  intro fuel
  induction fuel with
  | zero => intro _ _ _; rfl
  | succ n ih =>
    intro cur track hcur
    unfold get_track_loop
    rcases hcur with h | h <;> subst h
    · rw [(Location.neq_iff _ _).2 hbs, if_pos rfl]
      dsimp only
      rw [touch_loc_of_some m _ c hb]
      simp only [LocMap.at, hb, Option.getD_some]
      exact ih c _ (Or.inr rfl)
    · rw [(Location.neq_iff _ _).2 hcs, if_pos rfl]
      dsimp only
      rw [touch_loc_of_some m _ b hc]
      simp only [LocMap.at, hc, Option.getD_some]
      exact ih b _ (Or.inl rfl)

theorem get_track_diverges (start goal b c : Location) (m : LocMap Location)
    (hg : m goal = some c) (hc : m c = some b) (hb : m b = some c) (hgs : goal ≠ start)
    (hbs : b ≠ start) (hcs : c ≠ start) (fuel : Nat) : get_track fuel start goal m = none := by
  unfold get_track
  cases fuel with
  | zero => rfl
  | succ n =>
    unfold get_track_loop
    rw [(Location.neq_iff _ _).2 hgs, if_pos rfl]
    dsimp only
    rw [touch_loc_of_some m _ c hg]
    simp only [LocMap.at, hg, Option.getD_some]
    exact get_track_loop_cycle start b c m hb hc hbs hcs n c _ (Or.inr rfl)

theorem corridor_track_diverges (tie : Nat → Nat) (fuel : Nat) (hfuel : 4294967298 ≤ fuel) :
    ∃ prev, a_search fuel tie corridor ⟨0, 0⟩ corridorGoal LocMap.empty = some (1, prev) ∧
      ∀ fuel2, get_track fuel2 ⟨0, 0⟩ corridorGoal prev = none := by
  obtain ⟨prev, h1, h2, h3, h4⟩ := corridor_search tie fuel hfuel
  exact ⟨prev, h1, fun fuel2 => get_track_diverges ⟨0, 0⟩ corridorGoal ⟨4294967294, 1⟩
    ⟨4294967294, 2⟩ prev h2 h3 h4 (by decide) (by decide) (by decide) fuel2⟩

/-- The input that refutes claim C4: on the grid `corridor` the 32-bit cost
wraps on the way from `(0, 0)` to `(2^32 - 3, 2)`; for every order of the queue
`a_search` returns the nonzero cost 1, and in the predecessor map it leaves
the two cells before the goal point to each other, so that `get_track` never
returns, whatever the fuel. -/
theorem get_track_overflow_counterexample :
    corridor.WF ∧ (⟨0, 0⟩ : Location) ≠ corridorGoal ∧
      ∀ (tie : Nat → Nat) (fuel : Nat), 4294967298 ≤ fuel →
        ∃ prev, a_search fuel tie corridor ⟨0, 0⟩ corridorGoal LocMap.empty = some (1, prev) ∧
          (1 : Nat) ≠ 0 ∧ ∀ fuel2, get_track fuel2 ⟨0, 0⟩ corridorGoal prev = none := by
  refine ⟨corridor_wf, by decide, ?_⟩
  intro tie fuel hfuel
  obtain ⟨prev, h1, h2⟩ := corridor_track_diverges tie fuel hfuel
  exact ⟨prev, h1, by decide, h2⟩

/-- The input that refutes claim C5: on the grid `corridor`, for every order of
the queue, `a_search` from `(0, 0)` to `(2^32 - 3, 2)` returns a nonzero cost,
but `get_track` returns no set at all, and so not the cell set of a walk. -/
theorem get_track_walk_counterexample :
    corridor.WF ∧ (⟨0, 0⟩ : Location) ≠ corridorGoal ∧
      ∀ (tie : Nat → Nat) (fuel : Nat), 4294967298 ≤ fuel →
        ∃ c prev, a_search fuel tie corridor ⟨0, 0⟩ corridorGoal LocMap.empty = some (c, prev) ∧
          c ≠ 0 ∧ ¬ ∃ fuel2 track m walk, get_track fuel2 ⟨0, 0⟩ corridorGoal prev =
            some (track, m) ∧ IsWalk corridor walk ∧ ∀ v, v ∈ track ↔ v ∈ walk := by
  refine ⟨corridor_wf, by decide, ?_⟩
  intro tie fuel hfuel
  obtain ⟨prev, h1, h2⟩ := corridor_track_diverges tie fuel hfuel
  refine ⟨1, prev, h1, by decide, ?_⟩
  rintro ⟨fuel2, track, m, walk, h3, _⟩
  rw [h2 fuel2] at h3
  cases h3

/-! ## Consistency of the heuristic -/

/-- The input that refutes claim C11: on the empty grid of width and height
`2^32 - 1`, with goal `(0, 0)`, the cell `a = (2^31, 2^31 - 1)` has the
neighbour `n = (2^31, 2^31)`, whose Manhattan distance `2^32` to the goal wraps
to `hx(n, g) = 0`, while `hx(a, g) = 2^32 - 1`. -/
theorem hx_consistency_counterexample :
    (Grid.new 4294967295 4294967295).WF ∧
      (Grid.new 4294967295 4294967295).within ⟨2147483648, 2147483647⟩ = true ∧
      (Grid.new 4294967295 4294967295).within ⟨0, 0⟩ = true ∧
      (⟨2147483648, 2147483648⟩ : Location) ∈
        (Grid.new 4294967295 4294967295).neighbours ⟨2147483648, 2147483647⟩ ∧
      hx ⟨2147483648, 2147483647⟩ ⟨0, 0⟩ = 4294967295 ∧
      hx ⟨2147483648, 2147483648⟩ ⟨0, 0⟩ = 0 ∧
      ¬ hx ⟨2147483648, 2147483647⟩ ⟨0, 0⟩ ≤ 1 + hx ⟨2147483648, 2147483648⟩ ⟨0, 0⟩ := by
  refine ⟨by unfold Grid.WF U32 Grid.new; decide, by decide, by decide, by decide, by decide,
    by decide, by decide⟩

theorem manhattan_le_of_within (g : Grid) (a b : Location)
    (ha : a.x < g.width ∧ a.y < g.height) (hb : b.x < g.width ∧ b.y < g.height) :
    manhattan a b + 2 ≤ g.width + g.height := by
  unfold manhattan
  omega

/-- Claim C11, amended. Consistency: for a cell `a` inside a grid, a cell `n` of
`Grid::neighbours(a)` and a goal `t` such that the Manhattan distance from `n`
to `t` is below `2^32` (as it is when `t` is inside a grid with
`width + height <= 2^32 + 1`): `hx(a, t) <= 1 + hx(n, t)`. -/
theorem hx_consistent (g : Grid) (a n t : Location) (hg : g.WF) (ha : g.within a = true)
    (hn : n ∈ g.neighbours a)
    (hsmall : manhattan n t < U32 ∨ (g.within t = true ∧ g.width + g.height ≤ U32 + 1)) :
    hx a t ≤ 1 + hx n t := by
  rw [within_iff] at ha
  have hadj := (mem_neighbours_iff g hg a n ha).1 hn
  have hm : manhattan n t < U32 := by
    rcases hsmall with h | ⟨h1, h2⟩
    · exact h
    · rw [within_iff] at h1
      have := manhattan_le_of_within g n t ⟨hadj.2.1, hadj.2.2.1⟩ h1
      omega
  have h1 := (manhattan_adjacent a n t hadj.1).1
  have h2 := hx_le_manhattan a t
  have h3 : hx n t = manhattan n t := by
    rw [hx_eq_manhattan_mod]; exact Nat.mod_eq_of_lt hm
  omega

theorem hx_consistent_witness : hx ⟨0, 0⟩ ⟨2, 2⟩ ≤ 1 + hx ⟨1, 0⟩ ⟨2, 2⟩ :=
  hx_consistent (Grid.new 3 3) ⟨0, 0⟩ ⟨1, 0⟩ ⟨2, 2⟩ (by unfold Grid.WF U32 Grid.new; decide)
    (by decide) (by decide) (Or.inl (by unfold U32; decide))

/-! ## `setWalls` and `unsetWalls` -/

theorem setEmplace_of_mem (s : List Location) (v : Location) (h : v ∈ s) :
    setEmplace s v = s := by
  unfold setEmplace
  rw [if_pos h]

theorem foldl_setEmplace_of_subset (ws s : List Location) (h : ∀ v ∈ ws, v ∈ s) :
    ws.foldl setEmplace s = s := by
  induction ws with
  | nil => rfl
  | cons w ws ih =>
    rw [List.foldl_cons, setEmplace_of_mem s w (h w (List.mem_cons_self _ _))]
    exact ih (fun v hv => h v (List.mem_cons_of_mem _ hv))

/-- Claim C13. `setWalls` is idempotent: for every grid and every list `W`,
duplicates allowed, `setWalls(W)` twice gives the same grid (width, height and
obstacle set) as `setWalls(W)` once, and so the same `within`, `operational` and
`neighbours` answers for every cell. -/
theorem setWalls_idempotent (g : Grid) (ws : List Location) :
    (g.setWalls ws).setWalls ws = g.setWalls ws ∧
      ∀ c, ((g.setWalls ws).setWalls ws).within c = (g.setWalls ws).within c ∧
        ((g.setWalls ws).setWalls ws).operational c = (g.setWalls ws).operational c ∧
        ((g.setWalls ws).setWalls ws).neighbours c = (g.setWalls ws).neighbours c := by
  have h : (g.setWalls ws).setWalls ws = g.setWalls ws := by
    show (⟨g.width, g.height, ws.foldl setEmplace (ws.foldl setEmplace g.walls)⟩ : Grid) =
      ⟨g.width, g.height, ws.foldl setEmplace g.walls⟩
    rw [foldl_setEmplace_of_subset ws _
      (fun v hv => (mem_foldl_setEmplace ws g.walls v).2 (Or.inr hv))]
  rw [h]
  exact ⟨rfl, fun _ => ⟨rfl, rfl, rfl⟩⟩

/-- Claim C14. Whatever the obstacle set of a grid `g` of size `w x h`,
`unsetWalls()` followed by `setWalls(W)` gives the grid that `Grid(w, h)`
followed by `setWalls(W)` gives: same width, height and obstacle set. -/
theorem unset_then_set (g : Grid) (ws : List Location) :
    g.unsetWalls.setWalls ws = (Grid.new g.width g.height).setWalls ws ∧
      (g.unsetWalls.setWalls ws).width = g.width ∧
      (g.unsetWalls.setWalls ws).height = g.height ∧
      (g.unsetWalls.setWalls ws).walls = ((Grid.new g.width g.height).setWalls ws).walls :=
  ⟨rfl, rfl, rfl, rfl⟩

/-- Claim C16. `setWalls` and `unsetWalls` leave the width and the height of
the grid as they are, and `within` gives the same answer for every cell before
and after the call. -/
theorem walls_frame (g : Grid) (ws : List Location) :
    (g.setWalls ws).width = g.width ∧ (g.setWalls ws).height = g.height ∧
      g.unsetWalls.width = g.width ∧ g.unsetWalls.height = g.height ∧
      ∀ c, (g.setWalls ws).within c = g.within c ∧ g.unsetWalls.within c = g.within c :=
  ⟨rfl, rfl, rfl, rfl, fun _ => ⟨rfl, rfl⟩⟩

/-! ## `get_track` with `start == goal` -/

/-- Claim C15. For every cell `s` and every predecessor map `m`,
`get_track(s, s, m)` returns the singleton set `{s}` (one unit of fuel is
enough, for the loop test); the map is returned as it was, and the result is
the same for any other map, that is, the map is not read. -/
theorem get_track_self (fuel : Nat) (s : Location) (m : LocMap Location) :
    get_track (fuel + 1) s s m = some ([s], m) ∧
      ∀ m2 : LocMap Location, (get_track (fuel + 1) s s m2).map (fun r => r.1) =
        (get_track (fuel + 1) s s m).map (fun r => r.1) := by
  have h : ∀ m2 : LocMap Location, get_track (fuel + 1) s s m2 = some ([s], m2) := by
    intro m2
    unfold get_track get_track_loop
    rw [Location.neq_self]
    simp [setEmplace]
  exact ⟨h m, fun m2 => by rw [h m2, h m]; rfl⟩

/-! ## Monotonicity of the cost table -/

theorem relax_costs_mono (goal cur nb : Location) (st : SearchState) (v : Location) (c : Nat)
    (h : st.costs v = some c) : ∃ c2, (relax goal cur st nb).costs v = some c2 ∧ c2 ≤ c := by
  have ht := touch_eq_some_of st.costs cur v c h
  unfold relax
  dsimp only
  split
  · next hcond =>
    by_cases hv : v = nb
    · subst hv
      refine ⟨_, by dsimp only; rw [set_apply, if_pos rfl], ?_⟩
      rw [Bool.or_eq_true] at hcond
      rcases hcond with hcond | hcond
      · simp [LocMap.count, ht] at hcond
      · simp only [LocMap.at, ht, Option.getD_some, decide_eq_true_eq] at hcond
        simp only [LocMap.at]
        omega
    · exact ⟨c, by simp [LocMap.set, hv, ht], le_refl _⟩
  · exact ⟨c, ht, le_refl _⟩

theorem relax_overwrite (goal cur nb : Location) (st : SearchState) (old : Nat)
    (h : st.costs nb = some old) :
    ((relax goal cur st nb).costs nb = some old ∧ (relax goal cur st nb).queue = st.queue ∧
        (relax goal cur st nb).prev = st.prev) ∨
      ∃ new, new < old ∧ (relax goal cur st nb).costs nb = some new ∧
        (relax goal cur st nb).queue = st.queue ++ [((new + hx nb goal) % U32, nb)] ∧
        (relax goal cur st nb).prev nb = some cur := by
  have ht := touch_eq_some_of st.costs cur nb old h
  unfold relax
  dsimp only
  split
  · next hcond =>
    right
    rw [Bool.or_eq_true] at hcond
    rcases hcond with hcond | hcond
    · simp [LocMap.count, ht] at hcond
    · simp only [LocMap.at, ht, Option.getD_some, decide_eq_true_eq] at hcond
      exact ⟨_, hcond, by dsimp only; rw [set_apply, if_pos rfl]; rfl, rfl,
        by dsimp only; rw [set_apply, if_pos rfl]⟩
  · exact Or.inl ⟨ht, rfl, rfl⟩

theorem expand_costs_mono (g : Grid) (goal cur : Location) (i : Nat) (st : SearchState)
    (v : Location) (c : Nat) (h : st.costs v = some c) :
    ∃ c2, (expand g goal cur i st).costs v = some c2 ∧ c2 ≤ c := by
  unfold expand
  apply foldl_relax_invariant goal cur (fun s => ∃ c2, s.costs v = some c2 ∧ c2 ≤ c)
  · rintro s nb _ ⟨c2, h1, h2⟩
    obtain ⟨c3, h3, h4⟩ := relax_costs_mono goal cur nb s v c2 h1
    exact ⟨c3, h3, le_trans h4 h2⟩
  · exact ⟨c, h, le_refl _⟩

theorem loop_costs_mono (g : Grid) (goal : Location) (fuel : Nat) (tie : Nat → Nat)
    (st st2 : SearchState) (h : a_search_loop g goal fuel tie st = some st2) (v : Location)
    (c : Nat) (hv : st.costs v = some c) : ∃ c2, st2.costs v = some c2 ∧ c2 ≤ c :=
  (a_search_loop_invariant g goal (fun s => ∃ c2, s.costs v = some c2 ∧ c2 ≤ c)
    (fun s ch hP _ _ => by
      obtain ⟨c2, h1, h2⟩ := hP
      obtain ⟨c3, h3, h4⟩ := expand_costs_mono g goal _ (topIdx s.queue ch) s v c2 h1
      exact ⟨c3, h3, le_trans h4 h2⟩)
    fuel tie st st2 ⟨c, hv, le_refl _⟩ h).1

/-- Claim C12. Monotonicity of the cost table, for every grid and every state
of the search: one pass through the body of the `for` loop, one iteration of
the `while` loop and the whole loop remove no entry of `costs` and increase no
recorded cost; and when a pass overwrites the cost of a cell `nb` that had a
cost, the new value is strictly smaller than the old one (otherwise the entry,
the queue and the predecessor map are left as they were). -/
theorem costs_monotone (g : Grid) (goal : Location) :
    (∀ (cur nb : Location) (st : SearchState) (v : Location) (c : Nat), st.costs v = some c →
      ∃ c2, (relax goal cur st nb).costs v = some c2 ∧ c2 ≤ c) ∧
    (∀ (cur nb : Location) (st : SearchState) (old : Nat), st.costs nb = some old →
      ((relax goal cur st nb).costs nb = some old ∧ (relax goal cur st nb).queue = st.queue ∧
        (relax goal cur st nb).prev = st.prev) ∨
      ∃ new, new < old ∧ (relax goal cur st nb).costs nb = some new ∧
        (relax goal cur st nb).queue = st.queue ++ [((new + hx nb goal) % U32, nb)] ∧
        (relax goal cur st nb).prev nb = some cur) ∧
    (∀ (cur : Location) (i : Nat) (st : SearchState) (v : Location) (c : Nat),
      st.costs v = some c → ∃ c2, (expand g goal cur i st).costs v = some c2 ∧ c2 ≤ c) ∧
    (∀ (fuel : Nat) (tie : Nat → Nat) (st st2 : SearchState),
      a_search_loop g goal fuel tie st = some st2 → ∀ (v : Location) (c : Nat),
      st.costs v = some c → ∃ c2, st2.costs v = some c2 ∧ c2 ≤ c) :=
  ⟨fun cur nb st v c h => relax_costs_mono goal cur nb st v c h,
    fun cur nb st old h => relax_overwrite goal cur nb st old h,
    fun cur i st v c h => expand_costs_mono g goal cur i st v c h,
    fun fuel tie st st2 h v c hv => loop_costs_mono g goal fuel tie st st2 h v c hv⟩

/-- On `detourGrid` the cell `(1, 0)` has the cost 5 when `(0, 0)`, of cost 2, is
expanded: the cost is overwritten by 3. -/
theorem costs_monotone_witness :
    (relax ⟨4, 0⟩ ⟨0, 0⟩
        ⟨[], (LocMap.empty.set ⟨0, 0⟩ 2).set ⟨1, 0⟩ 5, LocMap.empty.set ⟨1, 0⟩ ⟨2, 0⟩⟩
        ⟨1, 0⟩).costs ⟨1, 0⟩ = some 3 ∧
    ∃ c2, (relax ⟨4, 0⟩ ⟨0, 0⟩
        ⟨[], (LocMap.empty.set ⟨0, 0⟩ 2).set ⟨1, 0⟩ 5, LocMap.empty.set ⟨1, 0⟩ ⟨2, 0⟩⟩
        ⟨1, 0⟩).costs ⟨1, 0⟩ = some c2 ∧ c2 ≤ 5 :=
  ⟨by decide, (costs_monotone detourGrid ⟨4, 0⟩).1 ⟨0, 0⟩ ⟨1, 0⟩
    ⟨[], (LocMap.empty.set ⟨0, 0⟩ 2).set ⟨1, 0⟩ 5, LocMap.empty.set ⟨1, 0⟩ ⟨2, 0⟩⟩ ⟨1, 0⟩ 5
    (by decide)⟩

/-! ## Termination of `a_search` -/

/-- Claim C17. `a_search` terminates for every grid, whatever its width, height
and obstacle set, every start and goal and every order of the queue: with the
fuel `searchFuel g` (or more) the function returns, and its loop ends with the
queue empty or with `goal` on top of it. No closed set is needed for this: each
push lowers the recorded cost of a cell of the grid. -/
theorem a_search_terminates (g : Grid) (start goal : Location) (prev0 : LocMap Location)
    (tie : Nat → Nat) (fuel : Nat) (hfuel : searchFuel g ≤ fuel) :
    (∃ r, a_search fuel tie g start goal prev0 = some r) ∧
      ∃ st2, a_search_loop g goal fuel tie ⟨[(0, start)], LocMap.empty, prev0⟩ = some st2 ∧
        Stopped goal st2 := by
  obtain ⟨st2, hst2⟩ := a_search_loop_terminates g goal fuel tie
    ⟨[(0, start)], LocMap.empty, prev0⟩
    (lt_of_lt_of_le (searchMeasure_init g start prev0) hfuel)
  refine ⟨?_, st2, hst2, (a_search_loop_invariant g goal (fun _ => True)
    (fun _ _ _ _ _ => trivial) fuel tie _ st2 trivial hst2).2⟩
  unfold a_search
  split
  · exact ⟨_, rfl⟩
  · rw [hst2]
    exact ⟨_, rfl⟩

/-- On `detourGrid` with the order `detourTie` the search from `(0, 2)` to
`(4, 0)` stops with two entries of the cell `(1, 0)` in the queue: the cell was
pushed with the cost 5 and again with the cost 3. -/
theorem a_search_terminates_witness :
    (a_search_loop detourGrid ⟨4, 0⟩ 20 detourTie
        ⟨[(0, ⟨0, 2⟩)], LocMap.empty, LocMap.empty⟩).map (fun st => st.queue) =
      some [(6, ⟨3, 2⟩), (6, ⟨3, 1⟩), (8, ⟨1, 0⟩), (6, ⟨1, 0⟩), (6, ⟨4, 0⟩)] ∧
    ((∃ r, a_search (searchFuel detourGrid) detourTie detourGrid ⟨0, 2⟩ ⟨4, 0⟩ LocMap.empty =
        some r) ∧
      ∃ st2, a_search_loop detourGrid ⟨4, 0⟩ (searchFuel detourGrid) detourTie
          ⟨[(0, ⟨0, 2⟩)], LocMap.empty, LocMap.empty⟩ = some st2 ∧ Stopped ⟨4, 0⟩ st2) :=
  ⟨by decide, a_search_terminates detourGrid ⟨0, 2⟩ ⟨4, 0⟩ LocMap.empty detourTie _ (le_refl _)⟩

/-! ## Exit with an empty queue -/

theorem relax_goalQueued (goal cur nb : Location) (st : SearchState) (hcur : cur ≠ goal)
    (h : GoalQueued goal st) : GoalQueued goal (relax goal cur st nb) := by
  have htouch : st.costs goal = none → st.costs.touch cur 0 goal = none := by
    intro hg
    rw [touch_apply, if_neg (fun hc => hcur hc.1.symm)]
    exact hg
  unfold relax
  dsimp only
  split
  · by_cases hnb : nb = goal
    · right
      exact ⟨_, List.mem_append_right _ (List.mem_singleton.2 (by rw [hnb]))⟩
    · rcases h with h | ⟨p, hp⟩
      · left
        show ((st.costs.touch cur 0).set nb _) goal = none
        rw [set_apply, if_neg (fun hc => hnb hc.symm)]
        exact htouch h
      · right
        exact ⟨p, List.mem_append_left _ hp⟩
  · rcases h with h | ⟨p, hp⟩
    · exact Or.inl (htouch h)
    · exact Or.inr ⟨p, hp⟩

theorem expand_goalQueued (g : Grid) (goal : Location) (st : SearchState) (ch : Nat)
    (hq : st.queue ≠ []) (hne : (topEntry st.queue ch).2 ≠ goal) (h : GoalQueued goal st) :
    GoalQueued goal (expand g goal (topEntry st.queue ch).2 (topIdx st.queue ch) st) := by
  unfold expand
  apply foldl_relax_invariant goal _ (GoalQueued goal)
  · intro s nb _ hs
    exact relax_goalQueued goal _ nb s hne hs
  · rcases h with h | ⟨p, hp⟩
    · exact Or.inl h
    · right
      refine ⟨p, mem_eraseIdx_of_ne st.queue _ (topIdx_lt st.queue ch hq) _ hp ?_⟩
      intro he
      apply hne
      have h2 := topEntry_eq st.queue ch hq
      rw [List.get_eq_getElem] at h2
      rw [h2, ← he]

/-- Claim C19. For every grid, start and goal: whenever the loop of `a_search`
has stopped, `goal` has no entry in `costs` or is still in the queue (an entry
of `goal` is never popped); so when the loop exits because the queue is empty,
`goal` has no recorded cost, the final lookup `costs[goal]` yields the default
0, and for valid `start` and `goal` the function returns 0. -/
theorem exhausted_frontier (g : Grid) (start goal : Location) (prev0 : LocMap Location)
    (fuel : Nat) (tie : Nat → Nat) (st2 : SearchState)
    (h : a_search_loop g goal fuel tie ⟨[(0, start)], LocMap.empty, prev0⟩ = some st2) :
    (st2.costs goal = none ∨ ∃ p, (p, goal) ∈ st2.queue) ∧
      (st2.queue = [] → st2.costs goal = none ∧ st2.costs.at goal 0 = 0 ∧
        (Free g start → Free g goal →
          a_search fuel tie g start goal prev0 = some (0, st2.prev))) := by
  have hinv : GoalQueued goal st2 := (a_search_loop_invariant g goal (GoalQueued goal)
    (fun st ch hP hq hne => expand_goalQueued g goal st ch hq hne hP)
    fuel tie _ st2 (Or.inl rfl) h).1
  refine ⟨hinv, ?_⟩
  intro hq
  have hnone : st2.costs goal = none := by
    rcases hinv with h1 | ⟨p, hp⟩
    · exact h1
    · rw [hq] at hp
      cases hp
  refine ⟨hnone, by simp [LocMap.at, hnone], ?_⟩
  intro hs ht
  rw [a_search_eq_loop fuel tie g start goal prev0 hs ht, h]
  simp [LocMap.at, hnone]

/-- Scenario C of the specification: the search from `(0, 0)` stops with an empty
queue; the encircled goal `(2, 2)` has no cost and the function returns 0. -/
theorem exhausted_frontier_witness :
    scenarioC_final.queue = [] ∧
    ((scenarioC_final.costs ⟨2, 2⟩ = none ∨ ∃ p, (p, (⟨2, 2⟩ : Location)) ∈ scenarioC_final.queue) ∧
      (scenarioC_final.queue = [] → scenarioC_final.costs ⟨2, 2⟩ = none ∧
        scenarioC_final.costs.at ⟨2, 2⟩ 0 = 0 ∧
        (Free scenarioC ⟨0, 0⟩ → Free scenarioC ⟨2, 2⟩ →
          a_search 100 (fun _ => 0) scenarioC ⟨0, 0⟩ ⟨2, 2⟩ LocMap.empty =
            some (0, scenarioC_final.prev)))) :=
  ⟨by decide, exhausted_frontier scenarioC ⟨0, 0⟩ ⟨2, 2⟩ LocMap.empty 100 (fun _ => 0)
    scenarioC_final (by rfl)⟩

/-! ## The invariant on small grids and for near goals -/

theorem popped_bound (g : Grid) (hg : g.WF) (start goal : Location) (hnw : NoWrap g start goal)
    (st : SearchState) (h : SearchInv g start goal (fun _ => False) st) (e : Entry)
    (hmin : ∀ e2 ∈ st.queue, e.1 ≤ e2.1) (c : Nat) (hc : st.costs e.2 = some c)
    (hle : c + manhattan e.2 goal ≤ e.1) : c + manhattan e.2 goal + 2 < U32 := by
  rcases hnw with ⟨hgf, hsz⟩ | ⟨n, hn, hn2⟩
  · have hopt := popped_optimal g hg start goal st h e hmin c hc hle
    have h1 := isDist_lt_cells g start e.2 c hopt
    have hf := hopt.1.free_right
    have h2 := manhattan_le_of_within g e.2 goal ⟨hf.1, hf.2.1⟩ ⟨hgf.1, hgf.2.1⟩
    omega
  · obtain ⟨k, hk, hkn⟩ := exists_isDist hn
    have := min_priority_le g hg start goal st h k hk e.1 hmin
    omega

theorem start_bound (g : Grid) (start goal : Location) (hs : Free g start)
    (hnw : NoWrap g start goal) : 0 + manhattan start goal + 2 < U32 := by
  rcases hnw with ⟨hgf, hsz⟩ | ⟨n, hn, hn2⟩
  · have h2 := manhattan_le_of_within g start goal ⟨hs.1, hs.2.1⟩ ⟨hgf.1, hgf.2.1⟩
    omega
  · have := hn.manhattan_le
    omega

/-- The expansion of the top entry keeps the invariant; the expanded cell had
its final cost, keeps it, and each of its neighbours has a cost at most one
more afterwards. -/
theorem expand_nowrap (g : Grid) (hg : g.WF) (start goal : Location)
    (hnw : NoWrap g start goal) (st : SearchState) (ch : Nat)
    (hq : st.queue ≠ []) (hne : (topEntry st.queue ch).2 ≠ goal)
    (h : SearchInv g start goal (fun _ => False) st) :
    SearchInv g start goal (fun _ => False)
        (expand g goal (topEntry st.queue ch).2 (topIdx st.queue ch) st) ∧
      ∃ c, st.costs (topEntry st.queue ch).2 = some c ∧
        IsDist g start (topEntry st.queue ch).2 c ∧ c + 1 < U32 ∧
        (expand g goal (topEntry st.queue ch).2 (topIdx st.queue ch) st).costs
          (topEntry st.queue ch).2 = some c ∧
        ∀ w ∈ g.neighbours (topEntry st.queue ch).2, ∃ c2,
          (expand g goal (topEntry st.queue ch).2 (topIdx st.queue ch) st).costs w = some c2 ∧
          c2 ≤ c + 1 := by
  have hmem := topEntry_mem st.queue ch hq
  have hmin := topEntry_le st.queue ch hq
  obtain ⟨c, hc, hle⟩ := h.queue_cost _ hmem
  have hb := popped_bound g hg start goal hnw st h _ hmin c hc hle
  have hopt := popped_optimal g hg start goal st h _ hmin c hc hle
  have hcf : Free g (topEntry st.queue ch).2 := hopt.1.free_right
  have hpre : SearchInv g start goal (fun v => v = (topEntry st.queue ch).2)
      ⟨st.queue.eraseIdx (topIdx st.queue ch), st.costs, st.prev⟩ := by
    refine ⟨h.start_cost, h.cost_reach, ?_, h.pred, ?_⟩
    · intro e he
      exact h.queue_cost e (List.mem_of_mem_eraseIdx he)
    · intro v d hv hvc hvd
      rcases h.pending v d (fun hf => hf) hvc hvd with h1 | h1
      · left
        apply mem_eraseIdx_of_ne st.queue _ (topIdx_lt st.queue ch hq) _ h1
        intro he
        apply hv
        have h2 := topEntry_eq st.queue ch hq
        rw [List.get_eq_getElem] at h2
        rw [h2, ← he]
      · exact Or.inr h1
  obtain ⟨i1, i2, i3⟩ := foldl_relax_searchInv g start goal (topEntry st.queue ch).2 c
    (fun v => v = (topEntry st.queue ch).2) hopt hb (g.neighbours (topEntry st.queue ch).2)
    (fun nb hnb => (mem_neighbours_iff g hg _ nb ⟨hcf.1, hcf.2.1⟩).1 hnb)
    ⟨st.queue.eraseIdx (topIdx st.queue ch), st.costs, st.prev⟩ hc hpre
  unfold expand
  refine ⟨⟨i1.start_cost, i1.cost_reach, i1.queue_cost, i1.pred, ?_⟩, c, hc, hopt, by omega, i2,
    fun w hw => i3 w (Or.inl hw)⟩
  intro v d _ hvc hvd
  by_cases hv : v = (topEntry st.queue ch).2
  · right
    rw [hv]
    rw [hv, i2] at hvc
    cases hvc
    exact ⟨hne, fun w hw => i3 w (Or.inl hw)⟩
  · exact i1.pending v d hv hvc hvd

/-- The first expansion, of `start`, establishes the invariant. -/
theorem first_expand_nowrap (g : Grid) (hg : g.WF) (start goal : Location)
    (hs : Free g start) (hne : start ≠ goal) (hnw : NoWrap g start goal)
    (prev0 : LocMap Location) :
    SearchInv g start goal (fun _ => False)
        ((g.neighbours start).foldl (relax goal start)
          ⟨[], (LocMap.empty : LocMap Nat).touch start 0, prev0⟩) ∧
      ∀ w ∈ g.neighbours start, ∃ c2,
        ((g.neighbours start).foldl (relax goal start)
          ⟨[], (LocMap.empty : LocMap Nat).touch start 0, prev0⟩).costs w = some c2 ∧
        c2 ≤ 0 + 1 := by
  have hnb : ∀ nb ∈ g.neighbours start, Adjacent start nb ∧ Free g nb :=
    fun nb h => (mem_neighbours_iff g hg _ nb ⟨hs.1, hs.2.1⟩).1 h
  have hcost : ∀ v c, (LocMap.empty : LocMap Nat).touch start 0 v = some c →
      v = start ∧ c = 0 := by
    intro v c hv
    rw [touch_apply] at hv
    split at hv
    · next h1 => cases hv; exact ⟨h1.1, rfl⟩
    · cases hv
  have hc0 : (LocMap.empty : LocMap Nat).touch start 0 start = some 0 := by
    rw [touch_apply]; simp [LocMap.empty]
  have hpre : SearchInv g start goal (fun v => v = start)
      ⟨[], (LocMap.empty : LocMap Nat).touch start 0, prev0⟩ := by
    refine ⟨hc0, ?_, ?_, ?_, ?_⟩
    · intro v c hv
      obtain ⟨h1, h2⟩ := hcost v c hv
      rw [h1, h2]
      exact Reach.refl hs
    · intro e he; cases he
    · intro v c hv hvs
      exact absurd (hcost v c hv).1 hvs
    · intro v d hv hvc _
      exact absurd (hcost v d hvc).1 hv
  obtain ⟨i1, i2, i3⟩ := foldl_relax_searchInv g start goal start 0 (fun v => v = start)
    (IsDist.self hs) (start_bound g start goal hs hnw) (g.neighbours start) hnb _ hc0 hpre
  refine ⟨⟨i1.start_cost, i1.cost_reach, i1.queue_cost, i1.pred, ?_⟩,
    fun w hw => i3 w (Or.inl hw)⟩
  intro v d _ hvc hvd
  by_cases hv : v = start
  · right
    rw [hv]
    rw [hv, i2] at hvc
    cases hvc
    exact ⟨hne, fun w hw => i3 w (Or.inl hw)⟩
  · exact i1.pending v d hv hvc hvd

/-- The first expansion as a fold from the state in which `start` has its
cost 0, when `start` has a neighbour. -/
theorem expand_init (g : Grid) (goal start : Location) (i : Nat) (prev0 : LocMap Location)
    (hn : g.neighbours start ≠ []) :
    expand g goal start i ⟨[(0, start)], LocMap.empty, prev0⟩ =
      (g.neighbours start).foldl (relax goal start)
        ⟨[(0, start)].eraseIdx i, (LocMap.empty : LocMap Nat).touch start 0, prev0⟩ := by
  unfold expand
  cases hl : g.neighbours start with
  | nil => exact absurd hl hn
  | cons nb l =>
    rw [List.foldl_cons, List.foldl_cons, relax_touch]

theorem expand_init_nil (g : Grid) (goal start : Location) (i : Nat) (prev0 : LocMap Location)
    (hn : g.neighbours start = []) :
    expand g goal start i ⟨[(0, start)], LocMap.empty, prev0⟩ =
      ⟨[(0, start)].eraseIdx i, LocMap.empty, prev0⟩ := by
  unfold expand
  rw [hn]
  rfl

/-! ## The predecessor map -/

theorem relax_keyInv (start goal cur nb : Location) (st : SearchState) (h : KeyInv start st) :
    KeyInv start (relax goal cur st nb) := by
  obtain ⟨h0, hk⟩ := h
  have ht0 := touch_eq_some_of st.costs cur start 0 h0
  unfold relax
  dsimp only
  split
  · next hcond =>
    have hns : start ≠ nb := by
      intro he
      subst he
      rw [Bool.or_eq_true] at hcond
      rcases hcond with hcond | hcond
      · simp [LocMap.count, ht0] at hcond
      · simp [LocMap.at, ht0] at hcond
    refine ⟨by dsimp only; rw [set_apply, if_neg hns]; exact ht0, ?_⟩
    intro v p hv
    dsimp only at hv ⊢
    by_cases hvn : v = nb
    · subst hvn
      exact ⟨fun he => hns he.symm, _, by rw [set_apply, if_pos rfl]⟩
    · rw [set_apply, if_neg hvn] at hv
      obtain ⟨h1, c, h2⟩ := hk v p hv
      exact ⟨h1, c, by rw [set_apply, if_neg hvn]; exact touch_eq_some_of st.costs cur v c h2⟩
  · refine ⟨ht0, ?_⟩
    intro v p hv
    obtain ⟨h1, c, h2⟩ := hk v p hv
    exact ⟨h1, c, touch_eq_some_of st.costs cur v c h2⟩

theorem expand_keyInv (g : Grid) (start goal cur : Location) (i : Nat) (st : SearchState)
    (h : KeyInv start st) : KeyInv start (expand g goal cur i st) := by
  unfold expand
  exact foldl_relax_invariant goal cur (KeyInv start) _
    (fun s nb _ hs => relax_keyInv start goal cur nb s hs) _ h

/-- When the loop of `a_search` returns, started with an empty predecessor
map and without wrap-around, either nothing was recorded (`start` has no
neighbour) or the invariants hold. -/
theorem a_search_loop_nowrap (g : Grid) (hg : g.WF) (start goal : Location)
    (hs : Free g start) (hne : start ≠ goal) (hnw : NoWrap g start goal) (fuel : Nat)
    (tie : Nat → Nat) (st2 : SearchState)
    (h : a_search_loop g goal fuel tie ⟨[(0, start)], LocMap.empty, LocMap.empty⟩ = some st2) :
    st2 = ⟨[], LocMap.empty, LocMap.empty⟩ ∨
      (SearchInv g start goal (fun _ => False) st2 ∧ KeyInv start st2) := by
  cases fuel with
  | zero => simp [a_search_loop] at h
  | succ n =>
    rw [a_search_loop_step g goal n tie _ (by simp)
      (by dsimp only; rw [topEntry_singleton]; exact hne)] at h
    dsimp only at h
    rw [topEntry_singleton, topIdx_singleton] at h
    by_cases hn : g.neighbours start = []
    · left
      rw [expand_init_nil g goal start 0 LocMap.empty hn] at h
      cases n with
      | zero => simp [a_search_loop] at h
      | succ m =>
        unfold a_search_loop at h
        simp only [List.eraseIdx_cons_zero, List.isEmpty_nil, if_true] at h
        cases h
        rfl
    · right
      rw [expand_init g goal start 0 LocMap.empty hn] at h
      simp only [List.eraseIdx_cons_zero] at h
      have h1 := (first_expand_nowrap g hg start goal hs hne hnw LocMap.empty).1
      have h2 : KeyInv start ((g.neighbours start).foldl (relax goal start)
          ⟨[], (LocMap.empty : LocMap Nat).touch start 0, LocMap.empty⟩) := by
        apply foldl_relax_invariant goal start (KeyInv start) _
          (fun s nb _ hs2 => relax_keyInv start goal start nb s hs2)
        refine ⟨by show (LocMap.empty : LocMap Nat).touch start 0 start = some 0
                   rw [touch_apply]; simp [LocMap.empty], ?_⟩
        intro v p hv
        cases hv
      exact (a_search_loop_invariant g goal
        (fun s => SearchInv g start goal (fun _ => False) s ∧ KeyInv start s)
        (fun s ch hP hq hcur => ⟨(expand_nowrap g hg start goal hnw s ch hq hcur hP.1).1,
          expand_keyInv g start goal _ _ s hP.2⟩)
        n _ _ st2 ⟨h1, h2⟩ h).1

theorem a_search_loop_same (g : Grid) (goal : Location) (fuel : Nat) (tie : Nat → Nat)
    (st st2 : SearchState) (hq : st.queue ≠ []) (he : (topEntry st.queue (tie 0)).2 = goal)
    (h : a_search_loop g goal fuel tie st = some st2) : st2 = st := by
  cases fuel with
  | zero => simp [a_search_loop] at h
  | succ n =>
    rw [a_search_loop_stop g goal n tie st hq he] at h
    cases h
    rfl

/-- Claim C20, amended. Without wrap-around (the grid has
`width * height + width + height < 2^32`, or some walk from `start` to `goal`
has fewer than `2^32 - 2` steps): when `a_search` is called with an empty
predecessor map on valid `start` and `goal`, then at loop exit every key `nb`
of the map, with `p = previous_location[nb]`, satisfies: `nb != start`, `nb`
and `p` are free cells of the grid, `p` is orthogonally adjacent to `nb`,
`costs[nb] == costs[p] + 1` and `costs[start] == 0`; and following the
predecessor links from `nb` as `get_track` does ends at `start`, within
`costs[nb]` steps and without changing the map. -/
theorem pred_map_invariant (g : Grid) (start goal : Location) (hg : g.WF) (hs : Free g start)
    (hnw : NoWrap g start goal) (fuel : Nat) (tie : Nat → Nat) (st2 : SearchState)
    (h : a_search_loop g goal fuel tie ⟨[(0, start)], LocMap.empty, LocMap.empty⟩ = some st2)
    (nb p : Location) (hkey : st2.prev nb = some p) :
    nb ≠ start ∧ Free g nb ∧ Free g p ∧ Adjacent p nb ∧ st2.costs start = some 0 ∧
      ∃ d, st2.costs p = some d ∧ st2.costs nb = some (d + 1) ∧
        ∀ (fuel2 : Nat) (track : List Location), d + 1 < fuel2 →
          ∃ track2, get_track_loop start fuel2 nb track st2.prev = some (track2, st2.prev) := by
  by_cases hne : start = goal
  · exfalso
    have := a_search_loop_same g goal fuel tie _ st2 (by simp)
      (by dsimp only; rw [topEntry_singleton]; exact hne) h
    rw [this] at hkey
    cases hkey
  · rcases a_search_loop_nowrap g hg start goal hs hne hnw fuel tie st2 h with h0 | ⟨hinv, hk⟩
    · rw [h0] at hkey
      cases hkey
    · obtain ⟨h1, c, hc⟩ := hk.2 nb p hkey
      obtain ⟨p2, d, e1, e2, e3, e4, e5⟩ := hinv.pred nb c hc h1
      rw [hkey] at e1
      cases e1
      subst e4
      obtain ⟨path, _, _, _, _, _, _, p7⟩ := chain_exists g start goal st2 hinv (d + 1) nb hc
      exact ⟨h1, (hinv.cost_reach nb _ hc).free_right, e2.1.free_right, e5, hk.1, d, e3, hc,
        fun fuel2 track hf => ⟨_, p7 fuel2 track hf⟩⟩

/-- Scenario A of the specification: `(2, 2)` is a key of the final map. -/
theorem pred_map_invariant_witness :
    (⟨2, 2⟩ : Location) ≠ ⟨0, 0⟩ ∧ Free (Grid.new 3 3) ⟨2, 2⟩ ∧ Free (Grid.new 3 3) ⟨2, 1⟩ ∧
      Adjacent ⟨2, 1⟩ ⟨2, 2⟩ ∧ scenarioA_final.costs ⟨0, 0⟩ = some 0 ∧
      ∃ d, scenarioA_final.costs ⟨2, 1⟩ = some d ∧ scenarioA_final.costs ⟨2, 2⟩ = some (d + 1) ∧
        ∀ (fuel2 : Nat) (track : List Location), d + 1 < fuel2 →
          ∃ track2, get_track_loop ⟨0, 0⟩ fuel2 ⟨2, 2⟩ track scenarioA_final.prev =
            some (track2, scenarioA_final.prev) :=
  pred_map_invariant (Grid.new 3 3) ⟨0, 0⟩ ⟨2, 2⟩ (by unfold Grid.WF U32 Grid.new; decide)
    (by decide) (Or.inl ⟨by decide, by unfold U32; decide⟩) 100 (fun _ => 0) scenarioA_final
    (by rfl) ⟨2, 2⟩ ⟨2, 1⟩ (by decide)

/-- The input that refutes claim C20 as written: on the grid `corridor`, with
valid `start = (0, 0)` and `goal = (2^32 - 3, 2)` and an empty predecessor map,
the loop of `a_search` stops, for every order of the queue, in a state whose
predecessor map sends `(2^32 - 2, 2)` to `(2^32 - 2, 1)` and back, so that
`costs[nb] == costs[previous_location[nb]] + 1` fails for one of these two
keys and the links from them never reach `start`. -/
theorem pred_map_overflow_counterexample :
    corridor.WF ∧ Free corridor ⟨0, 0⟩ ∧ Free corridor corridorGoal ∧
      ∀ (tie : Nat → Nat) (fuel : Nat), 4294967298 ≤ fuel →
        ∃ st2, a_search_loop corridor corridorGoal fuel tie
            ⟨[(0, ⟨0, 0⟩)], LocMap.empty, LocMap.empty⟩ = some st2 ∧
          st2.prev ⟨4294967294, 2⟩ = some ⟨4294967294, 1⟩ ∧
          st2.prev ⟨4294967294, 1⟩ = some ⟨4294967294, 2⟩ ∧
          (¬ ∀ nb p, st2.prev nb = some p →
            ∃ d, st2.costs p = some d ∧ st2.costs nb = some (d + 1)) ∧
          ∀ (fuel2 : Nat) (track : List Location),
            get_track_loop ⟨0, 0⟩ fuel2 ⟨4294967294, 2⟩ track st2.prev = none := by
  refine ⟨corridor_wf, by rw [free_corridor_iff]; decide, by rw [free_corridor_iff]; decide, ?_⟩
  intro tie fuel hfuel
  obtain ⟨f, rfl⟩ : ∃ f, fuel = f + 4 + 4294967293 + 1 := ⟨fuel - 4294967298, by omega⟩
  obtain ⟨st1, h1, e1⟩ := corridor_first tie (f + 4 + 4294967293)
  obtain ⟨st2, h2, e2⟩ := corridor_run 4294967293 1 st1 (fun k => tie (k + 1)) (le_refl _)
    (by decide) h1
  obtain ⟨st3, e3, _, _, r3, r4⟩ := corridor_final st2 h2
    (fun k => tie (k + 4294967293 + 1)) f
  rw [e1, e2 (f + 4), e3]
  refine ⟨st3, rfl, r3, r4, ?_, ?_⟩
  · intro hall
    obtain ⟨d1, a1, a2⟩ := hall _ _ r3
    obtain ⟨d2, b1, b2⟩ := hall _ _ r4
    rw [a1] at b2
    rw [b1] at a2
    cases b2
    simp only [Option.some.injEq] at a2
    omega
  · intro fuel2 track
    exact get_track_loop_cycle ⟨0, 0⟩ ⟨4294967294, 2⟩ ⟨4294967294, 1⟩ st3.prev r3 r4
      (by decide) (by decide) fuel2 _ track (Or.inl rfl)

/-! ## The variant with a closed set -/

theorem a_search_closed_loop_nil (g : Grid) (goal : Location) (fuel : Nat) (tie : Nat → Nat)
    (st : SearchState) (closed : List Location) (hq : st.queue = []) :
    a_search_closed_loop g goal (fuel + 1) tie st closed = some st := by
  rw [a_search_closed_loop]
  rw [if_pos (by rw [List.isEmpty_iff]; exact hq)]

theorem a_search_loop_nil (g : Grid) (goal : Location) (fuel : Nat) (tie : Nat → Nat)
    (st : SearchState) (hq : st.queue = []) :
    a_search_loop g goal (fuel + 1) tie st = some st := by
  rw [a_search_loop]
  rw [if_pos (by rw [List.isEmpty_iff]; exact hq)]

theorem a_search_closed_loop_stop (g : Grid) (goal : Location) (fuel : Nat) (tie : Nat → Nat)
    (st : SearchState) (closed : List Location) (hq : st.queue ≠ [])
    (he : (topEntry st.queue (tie 0)).2 = goal) :
    a_search_closed_loop g goal (fuel + 1) tie st closed = some st := by
  rw [a_search_closed_loop]
  rw [if_neg (by rw [List.isEmpty_iff]; exact hq)]
  dsimp only
  have : ¬ (st.queue.getD (topIdx st.queue (tie 0)) default).2.neq goal = true := by
    rw [Location.neq_iff]
    exact fun h => h he
  rw [if_neg this]

/-- An iteration of the loop with a closed set that drops a closed cell. -/
theorem a_search_closed_loop_skip (g : Grid) (goal : Location) (fuel : Nat) (tie : Nat → Nat)
    (st : SearchState) (closed : List Location) (hq : st.queue ≠ [])
    (hne : (topEntry st.queue (tie 0)).2 ≠ goal)
    (hmem : (topEntry st.queue (tie 0)).2 ∈ closed) :
    a_search_closed_loop g goal (fuel + 1) tie st closed =
      a_search_closed_loop g goal fuel (fun k => tie (k + 1))
        ⟨st.queue.eraseIdx (topIdx st.queue (tie 0)), st.costs, st.prev⟩ closed := by
  rw [a_search_closed_loop]
  rw [if_neg (by rw [List.isEmpty_iff]; exact hq)]
  dsimp only
  have : (st.queue.getD (topIdx st.queue (tie 0)) default).2.neq goal = true :=
    (Location.neq_iff _ _).2 hne
  rw [if_pos this]
  exact if_pos hmem

/-- An iteration of the loop with a closed set that expands a cell. -/
theorem a_search_closed_loop_step (g : Grid) (goal : Location) (fuel : Nat) (tie : Nat → Nat)
    (st : SearchState) (closed : List Location) (hq : st.queue ≠ [])
    (hne : (topEntry st.queue (tie 0)).2 ≠ goal)
    (hmem : (topEntry st.queue (tie 0)).2 ∉ closed) :
    a_search_closed_loop g goal (fuel + 1) tie st closed =
      a_search_closed_loop g goal fuel (fun k => tie (k + 1))
        (expand g goal (topEntry st.queue (tie 0)).2 (topIdx st.queue (tie 0)) st)
        ((topEntry st.queue (tie 0)).2 :: closed) := by
  rw [a_search_closed_loop]
  rw [if_neg (by rw [List.isEmpty_iff]; exact hq)]
  dsimp only
  have : (st.queue.getD (topIdx st.queue (tie 0)) default).2.neq goal = true :=
    (Location.neq_iff _ _).2 hne
  rw [if_pos this]
  exact if_neg hmem

theorem foldl_relax_keep (goal cur : Location) (c : Nat) (hb : c + 1 < U32)
    (l : List Location) (st : SearchState) (hc : st.costs cur = some c)
    (h : ∀ w ∈ l, ∃ old, st.costs w = some old ∧ old ≤ c + 1) :
    l.foldl (relax goal cur) st = st := by
  induction l with
  | nil => rfl
  | cons nb l ih =>
    obtain ⟨old, ho, hle⟩ := h nb (List.mem_cons_self _ _)
    rw [List.foldl_cons, relax_keep goal cur nb st c old hc hb ho hle]
    exact ih (fun w hw => h w (List.mem_cons_of_mem _ hw))

/-- Without wrap-around, expanding a closed cell again only removes its entry
from the queue. -/
theorem expand_closed (g : Grid) (goal cur : Location) (i : Nat) (st : SearchState) (c : Nat)
    (hc : st.costs cur = some c) (hb : c + 1 < U32)
    (h : ∀ w ∈ g.neighbours cur, ∃ old, st.costs w = some old ∧ old ≤ c + 1) :
    expand g goal cur i st = ⟨st.queue.eraseIdx i, st.costs, st.prev⟩ := by
  unfold expand
  exact foldl_relax_keep goal cur c hb _ _ hc h

theorem closedInv_expand (g : Grid) (hg : g.WF) (start goal : Location)
    (hnw : NoWrap g start goal) (st : SearchState) (ch : Nat) (closed : List Location)
    (hq : st.queue ≠ []) (hne : (topEntry st.queue ch).2 ≠ goal)
    (h : SearchInv g start goal (fun _ => False) st) (hcl : ClosedInv g start closed st) :
    ClosedInv g start ((topEntry st.queue ch).2 :: closed)
      (expand g goal (topEntry st.queue ch).2 (topIdx st.queue ch) st) := by
  obtain ⟨hinv, c, hc, hd, hb, hc2, hn⟩ := expand_nowrap g hg start goal hnw st ch hq hne h
  intro v hv
  rcases List.mem_cons.1 hv with hv | hv
  · subst hv
    exact ⟨c, hc2, hd, hn⟩
  · obtain ⟨d, e1, e2, e3⟩ := hcl v hv
    obtain ⟨d2, f1, f2⟩ := expand_costs_mono g goal (topEntry st.queue ch).2
      (topIdx st.queue ch) st v d e1
    have := e2.2 d2 (hinv.cost_reach v d2 f1)
    have hdd : d2 = d := by omega
    subst hdd
    refine ⟨d2, f1, e2, ?_⟩
    intro w hw
    obtain ⟨c1, g1, g2⟩ := e3 w hw
    obtain ⟨c2, g3, g4⟩ := expand_costs_mono g goal (topEntry st.queue ch).2
      (topIdx st.queue ch) st w c1 g1
    exact ⟨c2, g3, by omega⟩

/-- Without wrap-around the loop with a closed set and the loop of `a_search`
run in lockstep. -/
theorem a_search_closed_loop_eq (g : Grid) (hg : g.WF) (start goal : Location)
    (hnw : NoWrap g start goal) (fuel : Nat) :
    ∀ (tie : Nat → Nat) (st : SearchState) (closed : List Location),
      SearchInv g start goal (fun _ => False) st → ClosedInv g start closed st →
      a_search_closed_loop g goal fuel tie st closed = a_search_loop g goal fuel tie st := by
  induction fuel with
  | zero => intro _ _ _ _ _; rfl
  | succ n ih =>
    intro tie st closed h hcl
    by_cases hq : st.queue = []
    · rw [a_search_closed_loop_nil g goal n tie st closed hq, a_search_loop_nil g goal n tie st hq]
    · by_cases hne : (topEntry st.queue (tie 0)).2 = goal
      · rw [a_search_loop_stop g goal n tie st hq hne,
          a_search_closed_loop_stop g goal n tie st closed hq hne]
      · rw [a_search_loop_step g goal n tie st hq hne]
        have hinv := expand_nowrap g hg start goal hnw st (tie 0) hq hne h
        by_cases hmem : (topEntry st.queue (tie 0)).2 ∈ closed
        · rw [a_search_closed_loop_skip g goal n tie st closed hq hne hmem]
          obtain ⟨d, e1, e2, e3⟩ := hcl _ hmem
          obtain ⟨c, hc, _, hb, _, _⟩ := hinv.2
          rw [e1] at hc
          cases hc
          have hexp := expand_closed g goal (topEntry st.queue (tie 0)).2
            (topIdx st.queue (tie 0)) st d e1 hb e3
          rw [hexp]
          apply ih
          · rw [← hexp]
            exact hinv.1
          · exact hcl
        · rw [a_search_closed_loop_step g goal n tie st closed hq hne hmem]
          exact ih _ _ _ hinv.1
            (closedInv_expand g hg start goal hnw st (tie 0) closed hq hne h hcl)

/-- The record of dropped cells exists exactly when the loop with a closed set
returns. -/
theorem a_search_closed_dropped_isSome (g : Grid) (goal : Location) (fuel : Nat) :
    ∀ (tie : Nat → Nat) (st : SearchState) (closed : List Location),
      (a_search_closed_dropped g goal fuel tie st closed).isSome =
        (a_search_closed_loop g goal fuel tie st closed).isSome := by
  induction fuel with
  | zero => intro _ _ _; rfl
  | succ n ih =>
    intro tie st closed
    unfold a_search_closed_dropped a_search_closed_loop
    dsimp only
    split
    · rfl
    · split
      · split
        · rw [← ih]
          cases a_search_closed_dropped g goal n (fun k => tie (k + 1))
            ⟨st.queue.eraseIdx (topIdx st.queue (tie 0)), st.costs, st.prev⟩ closed <;> rfl
        · exact ih _ _ _
      · rfl

/-- Claim C18, amended. Without wrap-around (the grid has
`width * height + width + height < 2^32`, or some walk from `start` to `goal`
has fewer than `2^32 - 2` steps), for every start and goal, valid or not, every
initial predecessor map and every order of the queue, the variant of `a_search`
that does not expand a popped cell that was expanded before returns the same
cost and leaves the same predecessor map as `a_search`, after the same number
of iterations. -/
theorem a_search_closed_eq (g : Grid) (hg : g.WF) (start goal : Location)
    (hsmall : g.width * g.height + g.width + g.height < U32 ∨
      ∃ n, Reach g start goal n ∧ n + 2 < U32)
    (fuel : Nat) (tie : Nat → Nat) (prev0 : LocMap Location) :
    a_search_closed fuel tie g start goal prev0 = a_search fuel tie g start goal prev0 := by
  unfold a_search_closed a_search
  split
  · rfl
  · next hguard =>
    simp only [Bool.or_eq_true, Bool.not_eq_true', not_or, Bool.not_eq_false] at hguard
    have hs : Free g start := by
      rw [free_iff]
      exact ⟨hguard.1.1.1, hguard.1.2⟩
    have ht : Free g goal := by
      rw [free_iff]
      exact ⟨hguard.1.1.2, hguard.2⟩
    have hnw : NoWrap g start goal := hsmall.imp (fun h => ⟨ht, h⟩) id
    have hloop : a_search_closed_loop g goal fuel tie ⟨[(0, start)], LocMap.empty, prev0⟩ [] =
        a_search_loop g goal fuel tie ⟨[(0, start)], LocMap.empty, prev0⟩ := by
      cases fuel with
      | zero => rfl
      | succ n =>
        by_cases hne : start = goal
        · rw [a_search_loop_stop g goal n tie _ (by simp)
              (by dsimp only; rw [topEntry_singleton]; exact hne),
            a_search_closed_loop_stop g goal n tie _ [] (by simp)
              (by dsimp only; rw [topEntry_singleton]; exact hne)]
        · rw [a_search_loop_step g goal n tie _ (by simp)
              (by dsimp only; rw [topEntry_singleton]; exact hne),
            a_search_closed_loop_step g goal n tie _ [] (by simp)
              (by dsimp only; rw [topEntry_singleton]; exact hne) (List.not_mem_nil _)]
          dsimp only
          rw [topEntry_singleton, topIdx_singleton]
          by_cases hn : g.neighbours start = []
          · rw [expand_init_nil g goal start 0 prev0 hn]
            cases n with
            | zero => rfl
            | succ m =>
              rw [a_search_closed_loop_nil g goal m _ _ _ rfl, a_search_loop_nil g goal m _ _ rfl]
          · rw [expand_init g goal start 0 prev0 hn]
            simp only [List.eraseIdx_cons_zero]
            obtain ⟨h1, h2⟩ := first_expand_nowrap g hg start goal hs hne hnw prev0
            apply a_search_closed_loop_eq g hg start goal hnw n _ _ _ h1
            intro v hv
            rw [List.mem_singleton] at hv
            subst hv
            exact ⟨0, h1.start_cost, IsDist.self hs, h2⟩
    rw [hloop]

/-- On `revisitGrid`, in the order `revisitTie`, the search from `(4, 2)` to
`(0, 1)` pushes `(2, 2)` with the cost 4 from `(2, 1)` and again with the cost 2
from `(3, 2)`; it pops the second entry (priority 5) in the sixth iteration and
the first, stale one (priority 7) in the eighth, where the variant with a
closed set drops it. Both searches return the cost 7 and the same predecessor
map. -/
theorem a_search_closed_eq_witness :
    a_search_closed_dropped revisitGrid ⟨0, 1⟩ 100 revisitTie
        ⟨[(0, ⟨4, 2⟩)], LocMap.empty, LocMap.empty⟩ [] = some [⟨2, 2⟩] ∧
      (a_search 100 revisitTie revisitGrid ⟨4, 2⟩ ⟨0, 1⟩ LocMap.empty).map (fun r => r.1) =
        some 7 ∧
      a_search_closed 100 revisitTie revisitGrid ⟨4, 2⟩ ⟨0, 1⟩ LocMap.empty =
        a_search 100 revisitTie revisitGrid ⟨4, 2⟩ ⟨0, 1⟩ LocMap.empty :=
  ⟨by decide, by decide,
    a_search_closed_eq revisitGrid
      (by unfold Grid.WF U32 revisitGrid Grid.setWalls Grid.new; decide) ⟨4, 2⟩ ⟨0, 1⟩
      (Or.inl (by unfold U32; decide)) 100 revisitTie LocMap.empty⟩

/-! ## The closed set changes the result when the cost wraps -/

/-- With more fuel than the measure of the state the loop with a closed set
returns. -/
theorem a_search_closed_loop_terminates (g : Grid) (goal : Location) (fuel : Nat) :
    ∀ (tie : Nat → Nat) (st : SearchState) (closed : List Location),
      searchMeasure g st < fuel →
      ∃ st2, a_search_closed_loop g goal fuel tie st closed = some st2 := by
  induction fuel with
  | zero => intro _ _ _ h; omega
  | succ n ih =>
    intro tie st closed h
    by_cases hq : st.queue = []
    · exact ⟨st, a_search_closed_loop_nil g goal n tie st closed hq⟩
    · by_cases hne : (topEntry st.queue (tie 0)).2 = goal
      · exact ⟨st, a_search_closed_loop_stop g goal n tie st closed hq hne⟩
      · have hi := topIdx_lt st.queue (tie 0) hq
        by_cases hmem : (topEntry st.queue (tie 0)).2 ∈ closed
        · rw [a_search_closed_loop_skip g goal n tie st closed hq hne hmem]
          apply ih
          have := length_eraseIdx_lt st.queue (topIdx st.queue (tie 0)) hi
          unfold searchMeasure at h ⊢
          dsimp only
          omega
        · rw [a_search_closed_loop_step g goal n tie st closed hq hne hmem]
          apply ih
          have := expand_measure g goal (topEntry st.queue (tie 0)).2
            (topIdx st.queue (tie 0)) st hi
          omega

/-- Invariant rule for the loop with a closed set. -/
theorem a_search_closed_loop_invariant (g : Grid) (goal : Location)
    (P : SearchState → List Location → Prop)
    (hskip : ∀ (st : SearchState) (ch : Nat) (closed : List Location), P st closed →
      st.queue ≠ [] → (topEntry st.queue ch).2 ∈ closed →
      P ⟨st.queue.eraseIdx (topIdx st.queue ch), st.costs, st.prev⟩ closed)
    (hstep : ∀ (st : SearchState) (ch : Nat) (closed : List Location), P st closed →
      st.queue ≠ [] → (topEntry st.queue ch).2 ∉ closed →
      P (expand g goal (topEntry st.queue ch).2 (topIdx st.queue ch) st)
        ((topEntry st.queue ch).2 :: closed))
    (fuel : Nat) : ∀ (tie : Nat → Nat) (st st2 : SearchState) (closed : List Location),
      P st closed → a_search_closed_loop g goal fuel tie st closed = some st2 →
      ∃ closed2, P st2 closed2 := by
  induction fuel with
  | zero => intro _ _ _ _ _ h; simp [a_search_closed_loop] at h
  | succ n ih =>
    intro tie st st2 closed hP h
    by_cases hq : st.queue = []
    · rw [a_search_closed_loop_nil g goal n tie st closed hq] at h
      cases h
      exact ⟨closed, hP⟩
    · by_cases hne : (topEntry st.queue (tie 0)).2 = goal
      · rw [a_search_closed_loop_stop g goal n tie st closed hq hne] at h
        cases h
        exact ⟨closed, hP⟩
      · by_cases hmem : (topEntry st.queue (tie 0)).2 ∈ closed
        · rw [a_search_closed_loop_skip g goal n tie st closed hq hne hmem] at h
          exact ih _ _ _ _ (hskip st (tie 0) closed hP hq hmem) h
        · rw [a_search_closed_loop_step g goal n tie st closed hq hne hmem] at h
          exact ih _ _ _ _ (hstep st (tie 0) closed hP hq hmem) h

theorem relax_prev_other (goal cur nb : Location) (st : SearchState) (v : Location)
    (h : v ≠ nb) : (relax goal cur st nb).prev v = st.prev v := by
  unfold relax
  dsimp only
  split
  · dsimp only
    rw [set_apply, if_neg h]
  · rfl

theorem relax_costs_other (goal cur nb : Location) (st : SearchState) (v : Location) (c : Nat)
    (h : v ≠ nb) (hc : st.costs v = some c) : (relax goal cur st nb).costs v = some c := by
  unfold relax
  dsimp only
  split
  · dsimp only
    rw [set_apply, if_neg h]
    exact touch_eq_some_of st.costs cur v c hc
  · exact touch_eq_some_of st.costs cur v c hc

theorem relax_queue_free (g : Grid) (goal cur nb : Location) (st : SearchState)
    (hnb : Free g nb) (h : ∀ e ∈ st.queue, Free g e.2) :
    ∀ e ∈ (relax goal cur st nb).queue, Free g e.2 := by
  unfold relax
  dsimp only
  split
  · intro e he
    dsimp only at he
    rcases List.mem_append.1 he with he | he
    · exact h e he
    · rw [List.mem_singleton] at he
      subst he
      exact hnb
  · exact h

theorem expand_queue_free (g : Grid) (goal cur : Location) (i : Nat) (st : SearchState)
    (h : ∀ e ∈ st.queue, Free g e.2) : ∀ e ∈ (expand g goal cur i st).queue, Free g e.2 := by
  unfold expand
  apply foldl_relax_invariant goal cur (fun s => ∀ e ∈ s.queue, Free g e.2)
  · intro s nb hnb hs
    exact relax_queue_free g goal cur nb s ((mem_neighbours g cur nb).1 hnb).2 hs
  · intro e he
    exact h e (List.mem_of_mem_eraseIdx he)

/-- On `corridor` the free cells that have `(2^32 - 3, 0)` as a neighbour are
`(2^32 - 2, 0)` and `(2^32 - 4, 0)`. -/
theorem corridor_neighbour_of (cur : Location) (hcur : Free corridor cur)
    (h : (⟨4294967293, 0⟩ : Location) ∈ corridor.neighbours cur) :
    cur = ⟨4294967294, 0⟩ ∨ cur = ⟨4294967292, 0⟩ := by
  have hp := ((mem_neighbours corridor cur _).1 h).1
  rw [free_corridor_iff] at hcur
  obtain ⟨x, y⟩ := cur
  unfold potential at hp
  simp only [List.mem_cons, Location.mk.injEq, List.mem_singleton, List.not_mem_nil,
    or_false, U32] at hp
  dsimp only at hcur
  simp only [Location.mk.injEq]
  omega

theorem relax_farOrig (goal cur nb : Location) (st : SearchState) (hcur : Free corridor cur)
    (hnb : nb ∈ corridor.neighbours cur)
    (h : st.costs ⟨4294967293, 0⟩ = some 1 ∧ st.prev ⟨4294967293, 0⟩ = some ⟨4294967294, 0⟩ ∧
      st.costs ⟨4294967294, 0⟩ = some 0 ∧
      ∃ c, st.costs ⟨4294967292, 0⟩ = some c ∧ c ≤ 4294967292) :
    (relax goal cur st nb).costs ⟨4294967293, 0⟩ = some 1 ∧
      (relax goal cur st nb).prev ⟨4294967293, 0⟩ = some ⟨4294967294, 0⟩ ∧
      (relax goal cur st nb).costs ⟨4294967294, 0⟩ = some 0 ∧
      ∃ c, (relax goal cur st nb).costs ⟨4294967292, 0⟩ = some c ∧ c ≤ 4294967292 := by
  obtain ⟨h1, h2, h3, c, h4, h5⟩ := h
  by_cases hv : nb = ⟨4294967293, 0⟩
  · subst hv
    have hkeep : relax goal cur st ⟨4294967293, 0⟩ = st := by
      rcases corridor_neighbour_of cur hcur hnb with hc | hc
      · subst hc
        exact relax_keep_mod goal _ _ st 0 1 h3 h1 (by unfold U32; decide)
      · subst hc
        apply relax_keep_mod goal _ _ st c 1 h4 h1
        unfold U32
        omega
    rw [hkeep]
    exact ⟨h1, h2, h3, c, h4, h5⟩
  · refine ⟨relax_costs_other goal cur nb st _ 1 (fun he => hv he.symm) h1, ?_, ?_, ?_⟩
    · rw [relax_prev_other goal cur nb st _ (fun he => hv he.symm)]
      exact h2
    · obtain ⟨c2, e1, e2⟩ := relax_costs_mono goal cur nb st _ 0 h3
      have : c2 = 0 := by omega
      subst this
      exact e1
    · obtain ⟨c2, e1, e2⟩ := relax_costs_mono goal cur nb st _ c h4
      exact ⟨c2, e1, by omega⟩

theorem expand_farOrig (goal : Location) (st : SearchState) (ch : Nat) (hq : st.queue ≠ [])
    (h : FarOrigInv st) :
    FarOrigInv (expand corridor goal (topEntry st.queue ch).2 (topIdx st.queue ch) st) := by
  obtain ⟨h1, h2, h3, h4, h5⟩ := h
  have hcur := h5 _ (topEntry_mem st.queue ch hq)
  have hcore := foldl_relax_invariant goal (topEntry st.queue ch).2
    (fun s => s.costs ⟨4294967293, 0⟩ = some 1 ∧ s.prev ⟨4294967293, 0⟩ = some ⟨4294967294, 0⟩ ∧
      s.costs ⟨4294967294, 0⟩ = some 0 ∧
      ∃ c, s.costs ⟨4294967292, 0⟩ = some c ∧ c ≤ 4294967292)
    (corridor.neighbours (topEntry st.queue ch).2)
    (fun s nb hnb hs => relax_farOrig goal _ nb s hcur hnb hs)
    ⟨st.queue.eraseIdx (topIdx st.queue ch), st.costs, st.prev⟩ ⟨h1, h2, h3, h4⟩
  have hfree := expand_queue_free corridor goal (topEntry st.queue ch).2 (topIdx st.queue ch)
    st h5
  exact ⟨hcore.1, hcore.2.1, hcore.2.2.1, hcore.2.2.2, hfree⟩

theorem expand_farClosed (goal : Location) (st : SearchState) (ch : Nat)
    (closed : List Location) (hq : st.queue ≠ [])
    (hmem : (topEntry st.queue ch).2 ∉ closed) (h : FarClosedInv st closed) :
    FarClosedInv (expand corridor goal (topEntry st.queue ch).2 (topIdx st.queue ch) st)
      ((topEntry st.queue ch).2 :: closed) := by
  obtain ⟨h1, h2, h3, h4⟩ := h
  have hcur := h4 _ (topEntry_mem st.queue ch hq)
  have hprev := foldl_relax_invariant goal (topEntry st.queue ch).2
    (fun s => s.prev ⟨4294967293, 0⟩ = some ⟨4294967292, 0⟩)
    (corridor.neighbours (topEntry st.queue ch).2)
    (fun s nb hnb hs => by
      have hv : (⟨4294967293, 0⟩ : Location) ≠ nb := by
        intro he
        subst he
        rcases corridor_neighbour_of _ hcur hnb with hc | hc
        · rw [hc] at hmem
          exact hmem h2
        · rw [hc] at hmem
          exact hmem h3
      show (relax goal (topEntry st.queue ch).2 s nb).prev ⟨4294967293, 0⟩ = _
      rw [relax_prev_other goal _ nb s _ hv]
      exact hs)
    ⟨st.queue.eraseIdx (topIdx st.queue ch), st.costs, st.prev⟩ h1
  exact ⟨hprev, List.mem_cons_of_mem _ h2, List.mem_cons_of_mem _ h3,
    expand_queue_free corridor goal (topEntry st.queue ch).2 (topIdx st.queue ch) st h4⟩

theorem skip_farClosed (st : SearchState) (i : Nat) (closed : List Location)
    (h : FarClosedInv st closed) :
    FarClosedInv ⟨st.queue.eraseIdx i, st.costs, st.prev⟩ closed :=
  ⟨h.1, h.2.1, h.2.2.1, fun e he => h.2.2.2 e (List.mem_of_mem_eraseIdx he)⟩

/-- One expansion along row 0 of `corridor`, for any goal. -/
theorem corridor_step_any (goal : Location) (j : Nat) (h1 : 1 ≤ j) (h2 : j ≤ 4294967293)
    (st : SearchState) (h : CorridorPhase j st) :
    CorridorPhase (j + 1) (expand corridor goal ⟨j, 0⟩ 0 st) := by
  obtain ⟨⟨p, hq⟩, hc, hp⟩ := h
  unfold expand
  rw [hq, corridor_neighbours_row0 j h1 h2]
  simp only [List.eraseIdx_cons_zero, List.foldl_cons, List.foldl_nil]
  have e1 : (j + 1) % U32 = j + 1 := by unfold U32; omega
  have hcur : st.costs ⟨j, 0⟩ = some j := by rw [hc]; simp
  have hnb : st.costs ⟨j + 1, 0⟩ = none := by rw [hc]; simp
  rw [relax_improve_mod goal ⟨j, 0⟩ ⟨j + 1, 0⟩ ⟨[], st.costs, st.prev⟩ j hcur
    (by intro old ho; rw [hnb] at ho; cases ho)]
  rw [relax_keep_mod goal ⟨j, 0⟩ ⟨j - 1, 0⟩ _ j (j - 1)
    (by dsimp only; rw [set_apply, if_neg (by simp), hcur])
    (by dsimp only; rw [set_apply, if_neg (by simp), hc]; simp)
    (by rw [e1]; omega)]
  refine ⟨⟨_, rfl⟩, ?_, ?_⟩
  · intro v
    obtain ⟨vx, vy⟩ := v
    simp only [set_apply, hc, e1, Location.mk.injEq]
    split_ifs <;> first | rfl | (exfalso; omega) | (congr 1; omega)
  · intro v
    obtain ⟨vx, vy⟩ := v
    simp only [set_apply, hp, Location.mk.injEq]
    split_ifs <;> first | rfl | (exfalso; omega) | (congr 2; omega)

/-- The expansion of `(0, 0)` on `corridor`, for any goal. -/
theorem corridor_first_any (goal : Location) :
    CorridorPhase 1
      (expand corridor goal ⟨0, 0⟩ 0 ⟨[(0, ⟨0, 0⟩)], LocMap.empty, LocMap.empty⟩) := by
  unfold expand
  rw [corridor_neighbours_first]
  simp only [List.eraseIdx_cons_zero, List.foldl_cons, List.foldl_nil]
  rw [relax_touch]
  have hcur : (LocMap.empty : LocMap Nat).touch ⟨0, 0⟩ 0 ⟨0, 0⟩ = some 0 := by
    rw [touch_apply]; simp [LocMap.empty]
  have hnb : (LocMap.empty : LocMap Nat).touch ⟨0, 0⟩ 0 ⟨1, 0⟩ = none := by
    rw [touch_apply]; simp [LocMap.empty]
  rw [relax_improve_mod goal ⟨0, 0⟩ ⟨1, 0⟩ _ 0 hcur
    (by intro old ho; dsimp only at ho; rw [hnb] at ho; cases ho)]
  refine ⟨⟨_, rfl⟩, ?_, ?_⟩
  · intro v
    obtain ⟨vx, vy⟩ := v
    simp only [set_apply, touch_apply, LocMap.empty, Location.mk.injEq, U32, and_true]
    split_ifs <;> first | rfl | (exfalso; omega) | (congr 1; omega)
  · intro v
    obtain ⟨vx, vy⟩ := v
    simp only [set_apply, LocMap.empty, Location.mk.injEq]
    split_ifs <;> first | rfl | (exfalso; omega) | (congr 2; omega)

/-- The run of `a_search` along row 0 of `corridor` towards `corridorFar`. -/
theorem corridorFar_run (n : Nat) :
    ∀ (j : Nat) (st : SearchState) (tie : Nat → Nat), 1 ≤ j → j + n ≤ 4294967294 →
      CorridorPhase j st →
      ∃ st2 tie2, CorridorPhase (j + n) st2 ∧
        ∀ fuel, a_search_loop corridor corridorFar (fuel + n) tie st =
          a_search_loop corridor corridorFar fuel tie2 st2 := by
  induction n with
  | zero =>
    intro j st tie _ _ h
    exact ⟨st, tie, h, fun fuel => rfl⟩
  | succ n ih =>
    intro j st tie h1 h2 h
    obtain ⟨p, hq⟩ := h.1
    have htop : topEntry st.queue (tie 0) = (p, ⟨j, 0⟩) := by
      rw [hq]; exact topEntry_singleton _ _
    have hidx : topIdx st.queue (tie 0) = 0 := by
      rw [hq]; exact topIdx_singleton _ _
    obtain ⟨st2, tie2, i1, i2⟩ := ih (j + 1) (expand corridor corridorFar ⟨j, 0⟩ 0 st)
      (fun k => tie (k + 1)) (by omega) (by omega) (corridor_step_any _ j h1 (by omega) st h)
    refine ⟨st2, tie2, by rw [show j + (n + 1) = j + 1 + n by omega]; exact i1, ?_⟩
    intro fuel
    rw [show fuel + (n + 1) = (fuel + n) + 1 by omega]
    rw [a_search_loop_step corridor corridorFar (fuel + n) tie st (by rw [hq]; simp)
      (by rw [htop]; unfold corridorFar; simp)]
    rw [htop, hidx]
    exact i2 fuel

/-- The run of the variant with a closed set along row 0 of `corridor`. -/
theorem corridorFar_closed_run (n : Nat) :
    ∀ (j : Nat) (st : SearchState) (tie : Nat → Nat) (closed : List Location), 1 ≤ j →
      j + n ≤ 4294967294 → CorridorPhase j st → ClosedPhase j closed →
      ∃ st2 tie2 closed2, CorridorPhase (j + n) st2 ∧ ClosedPhase (j + n) closed2 ∧
        ∀ fuel, a_search_closed_loop corridor corridorFar (fuel + n) tie st closed =
          a_search_closed_loop corridor corridorFar fuel tie2 st2 closed2 := by
  induction n with
  | zero =>
    intro j st tie closed _ _ h hcl
    exact ⟨st, tie, closed, h, hcl, fun fuel => rfl⟩
  | succ n ih =>
    intro j st tie closed h1 h2 h hcl
    obtain ⟨p, hq⟩ := h.1
    have htop : topEntry st.queue (tie 0) = (p, ⟨j, 0⟩) := by
      rw [hq]; exact topEntry_singleton _ _
    have hidx : topIdx st.queue (tie 0) = 0 := by
      rw [hq]; exact topIdx_singleton _ _
    have hcl2 : ClosedPhase (j + 1) (⟨j, 0⟩ :: closed) := by
      intro v
      obtain ⟨vx, vy⟩ := v
      rw [List.mem_cons, hcl]
      simp only [Location.mk.injEq]
      omega
    have hnot : (⟨j, 0⟩ : Location) ∉ closed := by
      rw [hcl]
      dsimp only
      omega
    obtain ⟨st2, tie2, closed2, i1, i2, i3⟩ := ih (j + 1)
      (expand corridor corridorFar ⟨j, 0⟩ 0 st) (fun k => tie (k + 1)) _ (by omega) (by omega)
      (corridor_step_any _ j h1 (by omega) st h) hcl2
    refine ⟨st2, tie2, closed2, by rw [show j + (n + 1) = j + 1 + n by omega]; exact i1,
      by rw [show j + (n + 1) = j + 1 + n by omega]; exact i2, ?_⟩
    intro fuel
    rw [show fuel + (n + 1) = (fuel + n) + 1 by omega]
    rw [a_search_closed_loop_step corridor corridorFar (fuel + n) tie st closed
      (by rw [hq]; simp) (by rw [htop]; unfold corridorFar; simp) (by rw [htop]; exact hnot)]
    rw [htop, hidx]
    exact i3 fuel

/-- Expansion of `(2^32 - 2, 0)` on the way to `corridorFar`. -/
theorem corridorFar_expand_a (costs : LocMap Nat) (prev : LocMap Location) (p : Nat)
    (h1 : costs ⟨4294967294, 0⟩ = some 4294967294) (h2 : costs ⟨4294967294, 1⟩ = none)
    (h3 : costs ⟨4294967293, 0⟩ = some 4294967293) :
    expand corridor corridorFar ⟨4294967294, 0⟩ 0 ⟨[(p, ⟨4294967294, 0⟩)], costs, prev⟩ =
      ⟨[(4294967294, ⟨4294967294, 1⟩)], costs.set ⟨4294967294, 1⟩ 4294967295,
        prev.set ⟨4294967294, 1⟩ ⟨4294967294, 0⟩⟩ := by
  unfold expand
  rw [corridor_neighbours_a]
  simp only [List.eraseIdx_cons_zero, List.foldl_cons, List.foldl_nil]
  rw [relax_improve_mod corridorFar ⟨4294967294, 0⟩ ⟨4294967294, 1⟩ ⟨[], costs, prev⟩
    4294967294 h1 (by intro old ho; dsimp only at ho; rw [h2] at ho; cases ho)]
  rw [relax_keep_mod corridorFar ⟨4294967294, 0⟩ ⟨4294967293, 0⟩ _ 4294967294 4294967293
    (by dsimp only; rw [set_apply, if_neg (by decide), h1])
    (by dsimp only; rw [set_apply, if_neg (by decide), h3])
    (by unfold U32; decide)]
  rfl

/-- Expansion of `(2^32 - 2, 1)` on the way to `corridorFar`: the cost of its
neighbours wraps to 0, and the priority of `(2^32 - 2, 0)` wraps to 0 too. -/
theorem corridorFar_expand_b (costs : LocMap Nat) (prev : LocMap Location) (p : Nat)
    (h1 : costs ⟨4294967294, 1⟩ = some 4294967295) (h2 : costs ⟨4294967294, 2⟩ = none)
    (h3 : costs ⟨4294967294, 0⟩ = some 4294967294) :
    expand corridor corridorFar ⟨4294967294, 1⟩ 0 ⟨[(p, ⟨4294967294, 1⟩)], costs, prev⟩ =
      ⟨[(4294967294, ⟨4294967294, 2⟩), (0, ⟨4294967294, 0⟩)],
        (costs.set ⟨4294967294, 2⟩ 0).set ⟨4294967294, 0⟩ 0,
        (prev.set ⟨4294967294, 2⟩ ⟨4294967294, 1⟩).set ⟨4294967294, 0⟩ ⟨4294967294, 1⟩⟩ := by
  unfold expand
  rw [corridor_neighbours_b]
  simp only [List.eraseIdx_cons_zero, List.foldl_cons, List.foldl_nil]
  rw [relax_improve_mod corridorFar ⟨4294967294, 1⟩ ⟨4294967294, 2⟩ ⟨[], costs, prev⟩
    4294967295 h1 (by intro old ho; dsimp only at ho; rw [h2] at ho; cases ho)]
  rw [relax_improve_mod corridorFar ⟨4294967294, 1⟩ ⟨4294967294, 0⟩ _ 4294967295
    (by dsimp only; rw [set_apply, if_neg (by decide), h1])
    (by
      intro old ho
      dsimp only at ho
      rw [set_apply, if_neg (by decide), h3] at ho
      cases ho
      unfold U32
      decide)]
  rfl

/-- The second expansion of `(2^32 - 2, 0)`, now with the cost 0: its
neighbours get the cost 1 and this cell as predecessor. -/
theorem corridorFar_reexpand_a (costs : LocMap Nat) (prev : LocMap Location)
    (h1 : costs ⟨4294967294, 0⟩ = some 0) (h2 : costs ⟨4294967294, 1⟩ = some 4294967295)
    (h3 : costs ⟨4294967293, 0⟩ = some 4294967293) :
    expand corridor corridorFar ⟨4294967294, 0⟩ 1
        ⟨[(4294967294, ⟨4294967294, 2⟩), (0, ⟨4294967294, 0⟩)], costs, prev⟩ =
      ⟨[(4294967294, ⟨4294967294, 2⟩), (0, ⟨4294967294, 1⟩), (0, ⟨4294967293, 0⟩)],
        (costs.set ⟨4294967294, 1⟩ 1).set ⟨4294967293, 0⟩ 1,
        (prev.set ⟨4294967294, 1⟩ ⟨4294967294, 0⟩).set ⟨4294967293, 0⟩ ⟨4294967294, 0⟩⟩ := by
  unfold expand
  rw [corridor_neighbours_a]
  simp only [List.eraseIdx_cons_succ, List.eraseIdx_cons_zero, List.foldl_cons, List.foldl_nil]
  rw [relax_improve_mod corridorFar ⟨4294967294, 0⟩ ⟨4294967294, 1⟩ _ 0 h1
    (by intro old ho; dsimp only at ho; rw [h2] at ho; cases ho; unfold U32; decide)]
  rw [relax_improve_mod corridorFar ⟨4294967294, 0⟩ ⟨4294967293, 0⟩ _ 0
    (by dsimp only; rw [set_apply, if_neg (by decide), h1])
    (by
      intro old ho
      dsimp only at ho
      rw [set_apply, if_neg (by decide), h3] at ho
      cases ho
      unfold U32
      decide)]
  rfl

theorem corridorFar_topIdx (ch : Nat) :
    topIdx [((4294967294 : Nat), (⟨4294967294, 2⟩ : Location)), (0, ⟨4294967294, 0⟩)] ch = 1 := by
  apply topIdx_eq_of_unique _ ch 1 (by simp)
  intro j hj hne
  have hj1 : j = 0 := by
    simp only [List.length_cons, List.length_nil] at hj
    omega
  subst hj1
  show (0 : Nat) < 4294967294
  decide

/-- The first `2^32 + 1` iterations of `a_search` on `corridor` towards
`corridorFar`: the run along row 0, the expansion of `(2^32 - 2, 0)` and of
`(2^32 - 2, 1)`, and the second expansion of `(2^32 - 2, 0)`. -/
theorem corridorFar_prefix (tie : Nat → Nat) (fuel : Nat) :
    ∃ st tie2, FarOrigInv st ∧
      a_search_loop corridor corridorFar (fuel + 3 + 4294967293 + 1) tie
          ⟨[(0, ⟨0, 0⟩)], LocMap.empty, LocMap.empty⟩ =
        a_search_loop corridor corridorFar fuel tie2 st := by
  rw [a_search_loop_step corridor corridorFar (fuel + 3 + 4294967293) tie _ (by simp)
    (by dsimp only; rw [topEntry_singleton]; unfold corridorFar; simp)]
  dsimp only
  rw [topEntry_singleton, topIdx_singleton]
  obtain ⟨st2, tie2, h2, e2⟩ := corridorFar_run 4294967293 1 _ (fun k => tie (k + 1))
    (le_refl _) (by decide) (corridor_first_any corridorFar)
  rw [e2 (fuel + 3)]
  obtain ⟨⟨p, hq⟩, hc, hp⟩ := h2
  obtain ⟨q, costs, prev⟩ := st2
  simp only at hq hc hp
  subst hq
  have c1 : costs ⟨4294967294, 0⟩ = some 4294967294 := by rw [hc]; simp
  have c2 : costs ⟨4294967294, 1⟩ = none := by rw [hc]; simp
  have c3 : costs ⟨4294967293, 0⟩ = some 4294967293 := by rw [hc]; simp
  have c4 : costs ⟨4294967294, 2⟩ = none := by rw [hc]; simp
  have c5 : costs ⟨4294967292, 0⟩ = some 4294967292 := by rw [hc]; simp
  -- the last cell of row 0
  rw [show fuel + 3 = fuel + 2 + 1 from rfl]
  rw [a_search_loop_step corridor corridorFar (fuel + 2) tie2 _ (by simp)
    (by dsimp only; rw [topEntry_singleton]; unfold corridorFar; simp)]
  dsimp only
  rw [topEntry_singleton, topIdx_singleton, corridorFar_expand_a costs prev p c1 c2 c3]
  -- the cell below it
  rw [show fuel + 2 = fuel + 1 + 1 from rfl]
  rw [a_search_loop_step corridor corridorFar (fuel + 1) _ _ (by simp)
    (by dsimp only; rw [topEntry_singleton]; unfold corridorFar; simp)]
  dsimp only
  rw [topEntry_singleton, topIdx_singleton, corridorFar_expand_b _ _ 4294967294
    (by rw [set_apply, if_pos rfl])
    (by rw [set_apply, if_neg (by decide), c4])
    (by rw [set_apply, if_neg (by decide), c1])]
  -- the last cell of row 0 again
  rw [a_search_loop_step corridor corridorFar fuel _ _ (by simp)
    (by dsimp only; unfold topEntry; rw [corridorFar_topIdx]; unfold corridorFar; simp)]
  dsimp only
  unfold topEntry
  rw [corridorFar_topIdx]
  simp only [List.getD_cons_succ, List.getD_cons_zero]
  rw [corridorFar_reexpand_a _ _
    (by rw [set_apply, if_pos rfl])
    (by rw [set_apply, if_neg (by decide), set_apply, if_neg (by decide), set_apply,
      if_pos rfl])
    (by rw [set_apply, if_neg (by decide), set_apply, if_neg (by decide), set_apply,
      if_neg (by decide), c3])]
  refine ⟨_, _, ⟨?_, ?_, ?_, ⟨4294967292, ?_, le_refl _⟩, ?_⟩, rfl⟩
  · dsimp only
    rw [set_apply, if_pos rfl]
  · dsimp only
    rw [set_apply, if_pos rfl]
  · dsimp only
    rw [set_apply, if_neg (by decide), set_apply, if_neg (by decide), set_apply, if_pos rfl]
  · dsimp only
    rw [set_apply, if_neg (by decide), set_apply, if_neg (by decide), set_apply,
      if_neg (by decide), set_apply, if_neg (by decide), set_apply, if_neg (by decide), c5]
  · intro e he
    simp only [List.mem_cons, List.mem_singleton, List.not_mem_nil, or_false] at he
    rcases he with he | he | he <;> subst he <;> rw [free_corridor_iff] <;> decide

/-- The first `2^32 + 1` iterations of the variant with a closed set on
`corridor` towards `corridorFar`: the same as for `a_search`, except that the
last one drops the entry of the closed cell `(2^32 - 2, 0)`. -/
theorem corridorFar_closed_prefix (tie : Nat → Nat) (fuel : Nat) :
    ∃ st tie2 closed, FarClosedInv st closed ∧
      a_search_closed_loop corridor corridorFar (fuel + 3 + 4294967293 + 1) tie
          ⟨[(0, ⟨0, 0⟩)], LocMap.empty, LocMap.empty⟩ [] =
        a_search_closed_loop corridor corridorFar fuel tie2 st closed := by
  rw [a_search_closed_loop_step corridor corridorFar (fuel + 3 + 4294967293) tie _ []
    (by simp) (by dsimp only; rw [topEntry_singleton]; unfold corridorFar; simp)
    (List.not_mem_nil _)]
  dsimp only
  rw [topEntry_singleton, topIdx_singleton]
  have hcl0 : ClosedPhase 1 [⟨0, 0⟩] := by
    intro v
    obtain ⟨vx, vy⟩ := v
    rw [List.mem_singleton]
    simp only [Location.mk.injEq]
    omega
  obtain ⟨st2, tie2, closed, h2, hcl, e2⟩ := corridorFar_closed_run 4294967293 1 _
    (fun k => tie (k + 1)) _ (le_refl _) (by decide) (corridor_first_any corridorFar) hcl0
  rw [e2 (fuel + 3)]
  obtain ⟨⟨p, hq⟩, hc, hp⟩ := h2
  obtain ⟨q, costs, prev⟩ := st2
  simp only at hq hc hp
  subst hq
  have c1 : costs ⟨4294967294, 0⟩ = some 4294967294 := by rw [hc]; simp
  have c2 : costs ⟨4294967294, 1⟩ = none := by rw [hc]; simp
  have c3 : costs ⟨4294967293, 0⟩ = some 4294967293 := by rw [hc]; simp
  have c4 : costs ⟨4294967294, 2⟩ = none := by rw [hc]; simp
  have p1 : prev ⟨4294967293, 0⟩ = some ⟨4294967292, 0⟩ := by rw [hp]; simp
  have m1 : (⟨4294967294, 0⟩ : Location) ∉ closed := by
    rw [hcl]
    simp
  have m2 : (⟨4294967294, 1⟩ : Location) ∉ (⟨4294967294, 0⟩ : Location) :: closed := by
    rw [List.mem_cons, hcl]
    simp
  have m3 : (⟨4294967292, 0⟩ : Location) ∈ closed := by
    rw [hcl]
    simp
  -- the last cell of row 0
  rw [show fuel + 3 = fuel + 2 + 1 from rfl]
  rw [a_search_closed_loop_step corridor corridorFar (fuel + 2) tie2 _ _ (by simp)
    (by dsimp only; rw [topEntry_singleton]; unfold corridorFar; simp)
    (by dsimp only; rw [topEntry_singleton]; exact m1)]
  dsimp only
  rw [topEntry_singleton, topIdx_singleton, corridorFar_expand_a costs prev p c1 c2 c3]
  -- the cell below it
  rw [show fuel + 2 = fuel + 1 + 1 from rfl]
  rw [a_search_closed_loop_step corridor corridorFar (fuel + 1) _ _ _ (by simp)
    (by dsimp only; rw [topEntry_singleton]; unfold corridorFar; simp)
    (by dsimp only; rw [topEntry_singleton]; exact m2)]
  dsimp only
  rw [topEntry_singleton, topIdx_singleton, corridorFar_expand_b _ _ 4294967294
    (by rw [set_apply, if_pos rfl])
    (by rw [set_apply, if_neg (by decide), c4])
    (by rw [set_apply, if_neg (by decide), c1])]
  -- the closed cell at the end of row 0 is dropped
  rw [a_search_closed_loop_skip corridor corridorFar fuel _ _ _ (by simp)
    (by dsimp only; unfold topEntry; rw [corridorFar_topIdx]; unfold corridorFar; simp)
    (by
      dsimp only
      unfold topEntry
      rw [corridorFar_topIdx]
      simp)]
  dsimp only
  rw [corridorFar_topIdx]
  refine ⟨_, _, _, ⟨?_, ?_, ?_, ?_⟩, rfl⟩
  · dsimp only
    rw [set_apply, if_neg (by decide), set_apply, if_neg (by decide), set_apply,
      if_neg (by decide), p1]
  · simp
  · exact List.mem_cons_of_mem _ (List.mem_cons_of_mem _ m3)
  · intro e he
    simp only [List.eraseIdx_cons_succ, List.eraseIdx_cons_zero, List.mem_cons,
      List.mem_singleton, List.not_mem_nil, or_false] at he
    subst he
    rw [free_corridor_iff]
    decide

theorem a_search_closed_eq_loop (fuel : Nat) (tie : Nat → Nat) (g : Grid)
    (start goal : Location) (prev0 : LocMap Location) (hs : Free g start) (ht : Free g goal) :
    a_search_closed fuel tie g start goal prev0 =
      (a_search_closed_loop g goal fuel tie ⟨[(0, start)], LocMap.empty, prev0⟩ []).map
        (fun st => (st.costs.at goal 0, st.prev)) := by
  rw [free_iff] at hs ht
  unfold a_search_closed
  rw [if_neg (by simp [hs.1, hs.2, ht.1, ht.2])]
  cases a_search_closed_loop g goal fuel tie ⟨[(0, start)], LocMap.empty, prev0⟩ [] <;> rfl

/-- The input that refutes claim C18 as written: on the grid `corridor`, from
`(0, 0)` to `corridorFar = (0, 2)` with an empty predecessor map, the cost of
`(2^32 - 2, 0)` wraps to 0 after this cell was expanded, and its priority wraps
to 0 as well. For every order of the queue and all sufficient fuel, `a_search`
expands it a second time and leaves `(2^32 - 3, 0)` with the predecessor
`(2^32 - 2, 0)`, while the variant with a closed set does not and leaves
`(2^32 - 3, 0)` with the predecessor `(2^32 - 4, 0)`: the two predecessor maps
differ. -/
theorem closed_set_overflow_counterexample :
    corridor.WF ∧ Free corridor ⟨0, 0⟩ ∧ Free corridor corridorFar ∧
      ∀ (tie : Nat → Nat) (fuel : Nat), searchFuel corridor ≤ fuel →
        ∃ c1 prev1 c2 prev2,
          a_search fuel tie corridor ⟨0, 0⟩ corridorFar LocMap.empty = some (c1, prev1) ∧
          a_search_closed fuel tie corridor ⟨0, 0⟩ corridorFar LocMap.empty =
            some (c2, prev2) ∧
          prev1 ⟨4294967293, 0⟩ = some ⟨4294967294, 0⟩ ∧
          prev2 ⟨4294967293, 0⟩ = some ⟨4294967292, 0⟩ ∧ prev1 ≠ prev2 := by
  have hs : Free corridor ⟨0, 0⟩ := by rw [free_corridor_iff]; decide
  have ht : Free corridor corridorFar := by rw [free_corridor_iff]; decide
  refine ⟨corridor_wf, hs, ht, ?_⟩
  intro tie fuel hfuel
  have hbig : 4294967297 ≤ searchFuel corridor := by
    show 4294967297 ≤ 2 * (4294967295 * 3 * 4294967296) + 2
    decide
  have hm := searchMeasure_init corridor ⟨0, 0⟩ LocMap.empty
  obtain ⟨s1, hs1⟩ := a_search_loop_terminates corridor corridorFar fuel tie
    ⟨[(0, ⟨0, 0⟩)], LocMap.empty, LocMap.empty⟩ (by omega)
  obtain ⟨s2, hs2⟩ := a_search_closed_loop_terminates corridor corridorFar fuel tie
    ⟨[(0, ⟨0, 0⟩)], LocMap.empty, LocMap.empty⟩ [] (by omega)
  rw [a_search_eq_loop fuel tie corridor ⟨0, 0⟩ corridorFar LocMap.empty hs ht,
    a_search_closed_eq_loop fuel tie corridor ⟨0, 0⟩ corridorFar LocMap.empty hs ht, hs1, hs2]
  obtain ⟨f, rfl⟩ : ∃ f, fuel = f + 3 + 4294967293 + 1 := ⟨fuel - 4294967297, by omega⟩
  obtain ⟨st1, tie1, i1, e1⟩ := corridorFar_prefix tie f
  obtain ⟨st2, tie2, closed, i2, e2⟩ := corridorFar_closed_prefix tie f
  rw [e1] at hs1
  rw [e2] at hs2
  have r1 := (a_search_loop_invariant corridor corridorFar FarOrigInv
    (fun s ch hP hq _ => expand_farOrig corridorFar s ch hq hP) f tie1 st1 s1 i1 hs1).1
  obtain ⟨closed2, r2⟩ := a_search_closed_loop_invariant corridor corridorFar FarClosedInv
    (fun s ch cl hP _ _ => skip_farClosed s _ cl hP)
    (fun s ch cl hP hq hmem => expand_farClosed corridorFar s ch cl hq hmem hP)
    f tie2 st2 s2 closed i2 hs2
  refine ⟨_, s1.prev, _, s2.prev, rfl, rfl, r1.2.1, r2.1, ?_⟩
  intro he
  have h1 := r1.2.1
  rw [he, r2.1] at h1
  cases h1

end AStar
